import Mathlib

/-!
Verification of the pmr-market-simulator core, shallowly embedded in Lean 4.

The development models, faithfully to the C++ sources:
  * the `Event` record and its byte codec (`include/msim/event.hpp`),
  * the worker-thread clamp of `Simulator::run_mt` (`src/simulator.cpp`),
  * the fixed-capacity open-addressing `FlatHashMap`
    (`include/msim/flat_hash.hpp`),
  * the tick-quantized limit order book (`src/order_book.cpp`).

Machine integers are modelled as `Nat`/`Int` with explicit `% 2^w` where the
code relies on wrap-around.  IEEE doubles that are only ever `memcpy`-ed
(the `price` field of `Event`) are modelled by their 64-bit patterns; doubles
that take part in exact arithmetic on representable values (`tick_size`,
order prices in the verified scenarios) are modelled as rationals.
-/

namespace MSim

/-! ## Section 1: the Event record and its codec (include/msim/event.hpp)

Bytes are natural numbers; a well-formed byte is `< 256`.  The `price`
field is a `double` in C++, but `serialize`/`deserialize` only ever
`memcpy` its 8 bytes, so it is modelled by its IEEE-754 bit pattern
(`price_bits < 2^64`); this models the codec exactly, including NaN
payload preservation.  `type` is the underlying `uint8_t` of `EventType`,
`side` is the `char` as a byte. -/

structure Event where
  ts_ns : Nat
  etype : Nat
  symbol : List Nat
  price_bits : Nat
  qty : Int
  side : Nat
deriving DecidableEq

/-- Little-endian byte decomposition, least significant byte first
(the layout `memcpy` produces on the little-endian hosts the wire
format in the spec is defined for). -/
def leBytes : Nat → Nat → List Nat
  | 0, _ => []
  | n + 1, v => v % 256 :: leBytes n (v / 256)

/-- Reassemble a little-endian byte list into a natural number
(what `memcpy` into an unsigned integer does). -/
def readLE : List Nat → Nat
  | [] => 0
  | b :: bs => b + 256 * readLE bs

/-- `Event::serialized_size`: 2 + |symbol| + 8 + 1 + 8 + 4 + 1. -/
def Event.serialized_size (e : Event) : Nat :=
  2 + e.symbol.length + 8 + 1 + 8 + 4 + 1

/-- `Event::serialize`.  `sl` is `static_cast<uint16_t>(symbol.size())`,
hence the `% 65536`; the two header bytes are `sl & 0xFF` and
`(sl >> 8) & 0xFF`, written here as `% 256` and `/ 256` (equal on a
value `< 65536`).  The `qty` field is `memcpy`-ed as a 32-bit two's
complement value, modelled by `qty % 2^32` over `Int` (nonnegative). -/
def Event.serialize (e : Event) : List Nat :=
  let sl := e.symbol.length % 65536
  [sl % 256, sl / 256] ++ e.symbol
    ++ leBytes 8 e.ts_ns ++ [e.etype] ++ leBytes 8 e.price_bits
    ++ leBytes 4 (e.qty % (2 ^ 32 : Int)).toNat ++ [e.side]

/-- `Event::deserialize`.  Returns the event and `consumed` on success,
`none` when the buffer is too short (the only failure in the source). -/
def Event.deserialize (data : List Nat) : Option (Event × Nat) :=
  if data.length < 2 then none else
  let sl := data.headD 0 + 256 * (data.tail.headD 0)
  if data.length < 2 + sl + 8 + 1 + 8 + 4 + 1 then none else
  let sym := (data.drop 2).take sl
  let ts := readLE ((data.drop (2 + sl)).take 8)
  let t := (data.drop (10 + sl)).headD 0
  let pbits := readLE ((data.drop (11 + sl)).take 8)
  let uq := readLE ((data.drop (19 + sl)).take 4)
  let qty : Int := if uq < 2 ^ 31 then (uq : Int) else (uq : Int) - 2 ^ 32
  let side := (data.drop (23 + sl)).headD 0
  some ({ ts_ns := ts, etype := t, symbol := sym, price_bits := pbits,
          qty := qty, side := side }, 24 + sl)

/-- Well-formed events: every field fits its C++ machine type. -/
def Event.wf (e : Event) : Prop :=
  e.ts_ns < 2 ^ 64 ∧ e.etype < 256 ∧ e.price_bits < 2 ^ 64 ∧
  -2 ^ 31 ≤ e.qty ∧ e.qty < 2 ^ 31 ∧ e.side < 256 ∧
  (∀ b ∈ e.symbol, b < 256) ∧ e.symbol.length ≤ 65535

instance (e : Event) : Decidable e.wf := by
  unfold Event.wf; infer_instance

theorem leBytes_length (n v : Nat) : (leBytes n v).length = n := by
  induction n generalizing v with
  | zero => rfl
  | succ n ih => simp [leBytes, ih]

theorem readLE_leBytes (n v : Nat) (h : v < 2 ^ (8 * n)) :
    readLE (leBytes n v) = v := by
  induction n generalizing v with
  | zero =>
    simp only [leBytes, readLE]
    omega
  | succ n ih =>
    have h8 : 8 * (n + 1) = 8 * n + 8 := by ring
    rw [h8, pow_add] at h
    have hdiv : v / 256 < 2 ^ (8 * n) := by
      have : (2 : Nat) ^ 8 = 256 := by norm_num
      rw [this] at h
      omega
    simp only [leBytes, readLE, ih _ hdiv]
    omega

/-- Flat cons/append normal form of `serialize` (pure reassociation). -/
theorem Event.serialize_eq (e : Event) (hsl : e.symbol.length ≤ 65535) :
    e.serialize =
      e.symbol.length % 256 :: e.symbol.length / 256 ::
        (e.symbol ++ (leBytes 8 e.ts_ns ++ e.etype ::
          (leBytes 8 e.price_bits ++
            (leBytes 4 (e.qty % (2 ^ 32 : Int)).toNat ++ [e.side])))) := by
  have hmod : e.symbol.length % 65536 = e.symbol.length :=
    Nat.mod_eq_of_lt (by omega)
  simp [Event.serialize, hmod, List.append_assoc]

/--
C5: Event codec round-trip.  For every well-formed `Event` whose symbol is
at most 65 535 bytes, `serialize` produces exactly `24 + |symbol|` bytes and
`deserialize` on that buffer returns the original event with
`consumed = 24 + |symbol|`.
-/
theorem event_serialize_deserialize_roundtrip (e : Event) (h : e.wf) :
    e.serialize.length = 24 + e.symbol.length ∧
    Event.deserialize e.serialize = some (e, 24 + e.symbol.length) := by
  obtain ⟨hts, het, hpb, hq1, hq2, hs, hsb, hsl⟩ := h
  set sl := e.symbol.length with hsldef
  set uq := (e.qty % (2 ^ 32 : Int)).toNat with huqdef
  have hser := Event.serialize_eq e hsl
  have hlen : e.serialize.length = 24 + sl := by
    rw [hser]
    simp [leBytes_length]
    omega
  refine ⟨hlen, ?_⟩
  -- the parsed symbol length equals the true one
  have hhdr : sl % 256 + 256 * (sl / 256) = sl := by omega
  -- positional decompositions of the serialized buffer
  have hdrop2 : e.serialize.drop 2 =
      e.symbol ++ (leBytes 8 e.ts_ns ++ e.etype ::
        (leBytes 8 e.price_bits ++ (leBytes 4 uq ++ [e.side]))) := by
    rw [hser]; rfl
  have hdrop2sl : e.serialize.drop (2 + sl) =
      leBytes 8 e.ts_ns ++ e.etype ::
        (leBytes 8 e.price_bits ++ (leBytes 4 uq ++ [e.side])) := by
    rw [← List.drop_drop, hdrop2, List.drop_left' rfl]
  have hdrop10 : e.serialize.drop (10 + sl) =
      e.etype :: (leBytes 8 e.price_bits ++ (leBytes 4 uq ++ [e.side])) := by
    have h : (10 : Nat) + sl = (2 + sl) + 8 := by omega
    rw [h, ← List.drop_drop, hdrop2sl, List.drop_left' (leBytes_length 8 _)]
  have hdrop11 : e.serialize.drop (11 + sl) =
      leBytes 8 e.price_bits ++ (leBytes 4 uq ++ [e.side]) := by
    have h : (11 : Nat) + sl = (10 + sl) + 1 := by omega
    rw [h, ← List.drop_drop, hdrop10]; rfl
  have hdrop19 : e.serialize.drop (19 + sl) = leBytes 4 uq ++ [e.side] := by
    have h : (19 : Nat) + sl = (11 + sl) + 8 := by omega
    rw [h, ← List.drop_drop, hdrop11, List.drop_left' (leBytes_length 8 _)]
  have hdrop23 : e.serialize.drop (23 + sl) = [e.side] := by
    have h : (23 : Nat) + sl = (19 + sl) + 4 := by omega
    rw [h, ← List.drop_drop, hdrop19, List.drop_left' (leBytes_length 4 _)]
  -- the four scalar fields read back correctly
  have hts' : readLE ((e.serialize.drop (2 + sl)).take 8) = e.ts_ns := by
    rw [hdrop2sl, List.take_left' (leBytes_length 8 _), readLE_leBytes]
    exact hts
  have hpb' : readLE ((e.serialize.drop (11 + sl)).take 8) = e.price_bits := by
    rw [hdrop11, List.take_left' (leBytes_length 8 _), readLE_leBytes]
    exact hpb
  have huq' : readLE ((e.serialize.drop (19 + sl)).take 4) = uq := by
    rw [hdrop19, List.take_left' (leBytes_length 4 _), readLE_leBytes]
    have : (0 : Int) ≤ e.qty % (2 ^ 32 : Int) := Int.emod_nonneg _ (by norm_num)
    have : e.qty % (2 ^ 32 : Int) < 2 ^ 32 := Int.emod_lt_of_pos _ (by norm_num)
    omega
  have hqty : (if uq < 2 ^ 31 then (uq : Int) else (uq : Int) - 2 ^ 32) = e.qty := by
    have h0 : (0 : Int) ≤ e.qty % (2 ^ 32 : Int) := Int.emod_nonneg _ (by norm_num)
    have h1 : e.qty % (2 ^ 32 : Int) < 2 ^ 32 := Int.emod_lt_of_pos _ (by norm_num)
    split <;> omega
  have hsym : (e.serialize.drop 2).take sl = e.symbol := by
    rw [hdrop2, List.take_left' rfl]
  -- now evaluate deserialize
  rw [Event.deserialize]
  rw [if_neg (by omega)]
  have hb0 : e.serialize.headD 0 = sl % 256 := by rw [hser]; rfl
  have hb1 : e.serialize.tail.headD 0 = sl / 256 := by rw [hser]; rfl
  rw [hb0, hb1, hhdr, if_neg (by omega)]
  have hside : (e.serialize.drop (23 + sl)).headD 0 = e.side := by
    rw [hdrop23]; rfl
  have hety : (e.serialize.drop (10 + sl)).headD 0 = e.etype := by
    rw [hdrop10]; rfl
  simp only [hsym, hts', hety, hpb', huq', hside, hqty]

/-- The S5 event: ts=12345, TRADE, symbol "MSFT" (bytes), price 250.25
(given by its IEEE-754 bit pattern), qty 7, side 'B'. -/
def sampleEvent : Event :=
  { ts_ns := 12345, etype := 3, symbol := [77, 83, 70, 84],
    price_bits := 4643211215818981376, qty := 7, side := 66 }

/-- Witness for C5: the S5 concrete event round-trips (28-byte buffer). -/
theorem event_roundtrip_witness :
    sampleEvent.wf ∧
    sampleEvent.serialize.length = 24 + 4 ∧
    Event.deserialize sampleEvent.serialize = some (sampleEvent, 28) :=
  ⟨by decide,
   (event_serialize_deserialize_roundtrip sampleEvent (by decide)).1,
   (event_serialize_deserialize_roundtrip sampleEvent (by decide)).2⟩

/-! ## Section 2: worker-thread clamp of `Simulator::run_mt`
(src/simulator.cpp).

`cfg_.num_threads` is a C++ `int`, modelled as `Int`.  The code is

    size_t n_threads = (cfg_.num_threads > 0)
        ? static_cast<size_t>(cfg_.num_threads)
        : std::min(n_symbols, hardware_concurrency);
    n_threads = std::max<size_t>(1, std::min(n_threads, n_symbols));

`hardware_concurrency` is a runtime value of the host, passed here as a
parameter. -/

def run_mt_threads (requested : Int) (n_symbols hw : Nat) : Nat :=
  let n : Nat := if requested > 0 then requested.toNat else min n_symbols hw
  max 1 (min n n_symbols)

/-- Modelled from the spec: "T is clamped to `max(1, min(requested,
|symbols|, hardware_concurrency))`" — the comparison point for the
refinement claim C8. -/
def spec_thread_clamp (requested : Int) (n_symbols hw : Nat) : Nat :=
  max 1 (min requested.toNat (min n_symbols hw))

/--
C8 counterexample: with 8 requested threads, 8 symbols and a
hardware_concurrency of 4, `run_mt` uses 8 worker threads, not the
spec-claimed `max(1, min(8, 8, 4)) = 4`.
-/
theorem run_mt_threads_ignores_hw_counterexample :
    run_mt_threads 8 8 4 = 8 ∧ spec_thread_clamp 8 8 4 = 4 ∧
    run_mt_threads 8 8 4 ≠ spec_thread_clamp 8 8 4 := by
  refine ⟨by decide, by decide, by decide⟩

/--
C8 amended: the number of worker threads used by `run_mt` is
`max(1, min(requested, |symbols|))` whenever the requested count is
positive (hardware_concurrency is ignored in that case), and
`max(1, min(|symbols|, hardware_concurrency))` when the requested count
is zero or negative.
-/
theorem run_mt_threads_clamp (requested : Int) (n_symbols hw : Nat) :
    run_mt_threads requested n_symbols hw =
      if requested > 0 then max 1 (min requested.toNat n_symbols)
      else max 1 (min n_symbols hw) := by
  unfold run_mt_threads
  split <;> simp [Nat.min_assoc]

/-! ## Section 3: the fixed-capacity flat hash map
(include/msim/flat_hash.hpp).

Keys are integral (`K` is `uint64_t` or `int32_t` at the two call sites);
they are modelled as `Nat`, and the compile-time `sizeof(K)` dispatch of
`hash_key` is modelled by passing the hash function as a parameter
(`fhHash64` and `fhHash32` below are the two instantiations).  The probe
index arithmetic `idx & mask_` is written `maskIdx cap idx`; on a
power-of-two capacity it equals `idx % cap` (`maskIdx_eq_mod`).

The C++ probe loops (`for(;;)`) terminate exactly when the table has an
Empty slot (or holds the probed key); the loops take a fuel argument set
to the capacity, and `fhm_probe_termination` below shows the fuel is
never exhausted under the map invariant.  Running out of fuel — where the
C++ would spin forever — and the `die_capacity` abort are both modelled
as `Except.error`.

The `scratch_` buffer is observable only inside `rehash_same_capacity`;
the C++ `reset` clears only the `state` bytes, and stale keys/values of
non-Filled entries are never read, so the model resets them to defaults.
-/

inductive EState | Empty | Filled | Tomb
deriving DecidableEq

structure Entry (V : Type) where
  key : Nat
  value : V
  state : EState
deriving DecidableEq

structure FlatHashMap (V : Type) where
  allow_grow : Bool
  size : Nat
  tombs : Nat
  table : List (Entry V)
deriving DecidableEq

/-- `capacity() = mask_ + 1`, i.e. the table length. -/
def FlatHashMap.cap (m : FlatHashMap V) : Nat := m.table.length

/-- 64-bit `hash_key`: the two-round Murmur finalizer, with `% 2^64`
making the C++ wrap-around multiplications explicit. -/
def fhHash64 (k : Nat) : Nat :=
  let x1 := k ^^^ (k >>> 33)
  let x2 := x1 * 0xff51afd7ed558ccd % 2 ^ 64
  let x3 := x2 ^^^ (x2 >>> 33)
  let x4 := x3 * 0xc4ceb9fe1a85ec53 % 2 ^ 64
  x4 ^^^ (x4 >>> 33)

/-- 32-bit `hash_key`: the two-round mul-xor mixer, `% 2^32` explicit. -/
def fhHash32 (k : Nat) : Nat :=
  let x1 := k ^^^ (k >>> 16)
  let x2 := x1 * 0x7feb352d % 2 ^ 32
  let x3 := x2 ^^^ (x2 >>> 15)
  let x4 := x3 * 0x846ca68b % 2 ^ 32
  x4 ^^^ (x4 >>> 16)

/-- `idx & mask_` with `mask_ = cap - 1`. -/
def maskIdx (c x : Nat) : Nat := x &&& (c - 1)

theorem maskIdx_eq_mod (x : Nat) {c : Nat} (h : ∃ n, c = 2 ^ n) :
    maskIdx c x = x % c := by
  obtain ⟨n, rfl⟩ := h
  exact Nat.and_pow_two_sub_one_eq_mod x n

/-- `FlatHashMap::find_index`: linear probe from the hashed slot; stop at
Empty (miss) or a Filled key match (hit); Tombs are skipped.  The result
is `none` on fuel exhaustion (the C++ loop would spin forever). -/
def probeFind (tbl : List (Entry V)) (c k : Nat) : Nat → Nat → Option (Option Nat)
  | _, 0 => none
  | i, fuel + 1 =>
    match tbl[i]? with
    | none => some none
    | some e =>
      if e.state = EState.Empty then some none
      else if e.state = EState.Filled ∧ e.key = k then some (some i)
      else probeFind tbl c k (maskIdx c (i + 1)) fuel

def FlatHashMap.find_index (hash : Nat → Nat) (m : FlatHashMap V) (k : Nat) :
    Option Nat :=
  (probeFind m.table m.cap k (maskIdx m.cap (hash k)) m.cap).join

/-- `find_ptr`, as the looked-up value. -/
def FlatHashMap.findVal (hash : Nat → Nat) (m : FlatHashMap V) (k : Nat) :
    Option V :=
  (m.find_index hash k).bind fun i => m.table[i]?.map Entry.value

/-- `FlatHashMap::erase`: convert the matching Filled slot to Tomb. -/
def FlatHashMap.erase (hash : Nat → Nat) (m : FlatHashMap V) (k : Nat) :
    FlatHashMap V × Bool :=
  match m.find_index hash k with
  | none => (m, false)
  | some i =>
    ({ m with
       table := (match m.table[i]? with
         | none => m.table
         | some e => m.table.set i { e with state := EState.Tomb }),
       size := m.size - 1, tombs := m.tombs + 1 }, true)

/-- Outcome of the insertion probe loop. -/
inductive ProbeInsResult
  | dup (i : Nat)
  | place (i : Nat) (usedTomb : Bool)
deriving DecidableEq

/-- The shared probe loop of `emplace_impl` / `find_or_insert_impl`:
stop at Empty (insert at the earliest Tomb seen, else here) or at a
Filled key match (duplicate); track the first Tomb on the path. -/
def probeIns (tbl : List (Entry V)) (c k : Nat) :
    Nat → Option Nat → Nat → Option ProbeInsResult
  | _, _, 0 => none
  | i, firstTomb, fuel + 1 =>
    match tbl[i]? with
    | none => none
    | some e =>
      if e.state = EState.Empty then
        match firstTomb with
        | some t => some (.place t true)
        | none => some (.place i false)
      else if e.state = EState.Tomb then
        probeIns tbl c k (maskIdx c (i + 1))
          (if firstTomb = none then some i else firstTomb) fuel
      else if e.key = k then some (.dup i)
      else probeIns tbl c k (maskIdx c (i + 1)) firstTomb fuel

/-- One no-capacity-check insertion of `rehash_same_capacity`: probe the
scratch table for the first Empty slot and fill it. -/
def freshIns (tbl : List (Entry V)) (c k : Nat) (v : V) :
    Nat → Nat → Option (List (Entry V))
  | _, 0 => none
  | i, fuel + 1 =>
    match tbl[i]? with
    | none => none
    | some e =>
      if e.state = EState.Empty then
        some (tbl.set i { key := k, value := v, state := EState.Filled })
      else freshIns tbl c k v (maskIdx c (i + 1)) fuel

/-- One iteration of the table walk of `rehash_same_capacity`: reinsert
a Filled entry into the scratch buffer. -/
def rehashStep (hash : Nat → Nat) (c : Nat)
    (acc : Option (List (Entry V) × Nat)) (e : Entry V) :
    Option (List (Entry V) × Nat) :=
  match acc with
  | none => none
  | some (tbl, n) =>
    if e.state = EState.Filled then
      match freshIns tbl c e.key e.value (maskIdx c (hash e.key)) c with
      | none => none
      | some tbl' => some (tbl', n + 1)
    else some (tbl, n)

/-- `FlatHashMap::rehash_same_capacity`: reinsert exactly the Filled
entries into a cleared scratch buffer of identical size and swap; with
growth disabled, fail loudly if `10·(size + tombs) ≥ 8·cap` still holds
afterwards. -/
def FlatHashMap.rehash_same_capacity [Inhabited V] (hash : Nat → Nat)
    (m : FlatHashMap V) : Except Unit (FlatHashMap V) :=
  let c := m.cap
  let start : Option (List (Entry V) × Nat) :=
    some (List.replicate c { key := 0, value := default, state := EState.Empty }, 0)
  let r := m.table.foldl (rehashStep hash c) start
  match r with
  | none => .error ()
  | some (tbl, n) =>
    let m' := { m with table := tbl, size := n, tombs := 0 }
    if m'.allow_grow then .ok m'
    else if (m'.size + m'.tombs) * 10 ≥ c * 8 then .error () else .ok m'

/-- `FlatHashMap::maybe_compact_for_tombs`: rehash at the same capacity
when tombstones are present and `tombs > cap/4` or
`10·(size + tombs) ≥ 7·cap`. -/
def FlatHashMap.maybe_compact_for_tombs [Inhabited V] (hash : Nat → Nat)
    (m : FlatHashMap V) : Except Unit (FlatHashMap V) :=
  if m.tombs = 0 then .ok m
  else if m.tombs > m.cap / 4 ∨ (m.size + m.tombs) * 10 ≥ m.cap * 7 then
    m.rehash_same_capacity hash
  else .ok m

/-- The `!allow_grow_` prologue of both insertion paths: compact if
needed, then `die_capacity` when `10·(size + tombs) ≥ 8·cap`. -/
def FlatHashMap.checkCap [Inhabited V] (hash : Nat → Nat) (m : FlatHashMap V) :
    Except Unit (FlatHashMap V) :=
  if m.allow_grow then .ok m
  else do
    let m1 ← m.maybe_compact_for_tombs hash
    if (m1.size + m1.tombs) * 10 ≥ m1.cap * 8 then .error () else .ok m1

/-- `FlatHashMap::emplace_impl` (the body of `insert`): returns the map
and the C++ `bool` result; `.error` models `die_capacity` (and the
unreachable fuel exhaustion of the probe loop). -/
def FlatHashMap.emplace_impl [Inhabited V] (hash : Nat → Nat)
    (m : FlatHashMap V) (k : Nat) (v : V) :
    Except Unit (FlatHashMap V × Bool) := do
  let m1 ← m.checkCap hash
  match probeIns m1.table m1.cap k (maskIdx m1.cap (hash k)) none m1.cap with
  | none => .error ()
  | some (.dup _) => .ok (m1, false)
  | some (.place i usedTomb) =>
    .ok ({ m1 with
             table := m1.table.set i { key := k, value := v, state := EState.Filled },
             size := m1.size + 1,
             tombs := if usedTomb then m1.tombs - 1 else m1.tombs }, true)

/-- `FlatHashMap::find_or_insert_impl`: same state transition as
`emplace_impl`; on a duplicate returns the resting value unchanged. -/
def FlatHashMap.find_or_insert_impl [Inhabited V] (hash : Nat → Nat)
    (m : FlatHashMap V) (k : Nat) (v : V) :
    Except Unit (FlatHashMap V × V) := do
  let m1 ← m.checkCap hash
  match probeIns m1.table m1.cap k (maskIdx m1.cap (hash k)) none m1.cap with
  | none => .error ()
  | some (.dup i) =>
    .ok (m1, (m1.table[i]?.map Entry.value).getD v)
  | some (.place i usedTomb) =>
    .ok ({ m1 with
             table := m1.table.set i { key := k, value := v, state := EState.Filled },
             size := m1.size + 1,
             tombs := if usedTomb then m1.tombs - 1 else m1.tombs }, v)

/-- The constructor (`reserve_pow2`): both tables start Empty with the
counters zeroed.  The C++ rounds the requested capacity up with
`next_pow2` (power of two, at least 8); the call sites of this codebase
pass `kLevelCap = 2048` and `kIndexCap = 16384`, already of that shape,
so the model takes the rounded capacity as the parameter. -/
def mkFlatHashMap (V : Type) [Inhabited V] (c : Nat) (allow_grow : Bool) :
    FlatHashMap V :=
  { allow_grow := allow_grow, size := 0, tombs := 0,
    table := List.replicate c { key := 0, value := default, state := EState.Empty } }

/-- A mutating map operation of the public interface. -/
inductive MapOp (V : Type)
  | ins (k : Nat) (v : V)
  | findOrIns (k : Nat) (v : V)
  | del (k : Nat)

def applyMapOp [Inhabited V] (hash : Nat → Nat) (m : FlatHashMap V) :
    MapOp V → Except Unit (FlatHashMap V)
  | .ins k v => (m.emplace_impl hash k v).map Prod.fst
  | .findOrIns k v => (m.find_or_insert_impl hash k v).map Prod.fst
  | .del k => .ok (m.erase hash k).1

/-- Run a sequence of map operations; `none` as soon as one aborts. -/
def runMapOps [Inhabited V] (hash : Nat → Nat) (m : FlatHashMap V) :
    List (MapOp V) → Option (FlatHashMap V)
  | [] => some m
  | op :: ops =>
    match applyMapOp hash m op with
    | .error _ => none
    | .ok m' => runMapOps hash m' ops

/-- The functional (association-map) semantics the flat hash map is
checked against: insertion never overwrites an existing key. -/
def ghostStep (g : Nat → Option V) : MapOp V → Nat → Option V
  | .ins k v, j => if j = k then some ((g k).getD v) else g j
  | .findOrIns k v, j => if j = k then some ((g k).getD v) else g j
  | .del k, j => if j = k then none else g j

def ghostRun : (Nat → Option V) → List (MapOp V) → Nat → Option V
  | g, [] => g
  | g, op :: ops => ghostRun (ghostStep g op) ops

/-! ### Invariant of the open-addressing table -/

def countState (s : EState) (tbl : List (Entry V)) : Nat :=
  tbl.countP fun e => decide (e.state = s)

def filledKeys (tbl : List (Entry V)) : List Nat :=
  (tbl.filter fun e => decide (e.state = EState.Filled)).map Entry.key

def filledAt (tbl : List (Entry V)) (i k : Nat) : Prop :=
  ∃ e, tbl[i]? = some e ∧ e.state = EState.Filled ∧ e.key = k

def hasKey (tbl : List (Entry V)) (k : Nat) : Prop := ∃ i, filledAt tbl i k

/-- Slot visited after `t` probe steps from `start`. -/
def probeSlot (c start t : Nat) : Nat := (start + t) % c

/-- Slot `i` is reachable from `start` without meeting an Empty slot:
the linear probe can find what is stored at `i`. -/
def PathOk (tbl : List (Entry V)) (c start i : Nat) : Prop :=
  ∃ j, j < c ∧ i = probeSlot c start j ∧
    ∀ t, t < j → ∀ e, tbl[probeSlot c start t]? = some e →
      e.state ≠ EState.Empty

structure TableWF (hash : Nat → Nat) (tbl : List (Entry V)) (c : Nat) : Prop where
  len : tbl.length = c
  pow2 : ∃ n, c = 2 ^ n
  nodup : (filledKeys tbl).Nodup
  path : ∀ i e, tbl[i]? = some e → e.state = EState.Filled →
    PathOk tbl c (hash e.key % c) i

/-- The map invariant: well-formed table, counters that agree with the
table, and `size + tombs < cap` (so an Empty slot always exists). -/
structure WF (hash : Nat → Nat) (m : FlatHashMap V) : Prop where
  twf : TableWF hash m.table m.cap
  cap8 : 8 ≤ m.cap
  sizeEq : m.size = countState EState.Filled m.table
  tombsEq : m.tombs = countState EState.Tomb m.table
  small : m.size + m.tombs < m.cap

theorem count_filledKeys (tbl : List (Entry V)) (k : Nat) :
    (filledKeys tbl).count k =
      tbl.countP fun e => decide (e.state = EState.Filled ∧ e.key = k) := by
  induction tbl with
  | nil => rfl
  | cons e t ih =>
    by_cases hf : e.state = EState.Filled
    · by_cases hk : e.key = k
      · simp [filledKeys, List.filter_cons, List.countP_cons, hf, hk,
          List.count_cons] at *
        omega
      · simp [filledKeys, List.filter_cons, List.countP_cons, hf, hk,
          List.count_cons] at *
        omega
    · simp [filledKeys, List.filter_cons, List.countP_cons, hf] at *
      omega

theorem countP_two_positions {α : Type} (p : α → Bool) (l : List α)
    (i j : Nat) (hij : i ≠ j) (a b : α)
    (ha : l[i]? = some a) (hb : l[j]? = some b)
    (hpa : p a = true) (hpb : p b = true) : 2 ≤ l.countP p := by
  induction l generalizing i j with
  | nil => simp at ha
  | cons x t ih =>
    match i, j with
    | 0, 0 => exact absurd rfl hij
    | 0, m + 1 =>
      simp only [List.getElem?_cons_zero, Option.some.injEq] at ha
      simp only [List.getElem?_cons_succ] at hb
      have hbm : b ∈ t := by
        rw [List.mem_iff_getElem?]; exact ⟨m, hb⟩
      have h1 : 0 < t.countP p := List.countP_pos.2 ⟨b, hbm, hpb⟩
      subst ha
      rw [List.countP_cons, if_pos hpa]
      omega
    | m + 1, 0 =>
      simp only [List.getElem?_cons_zero, Option.some.injEq] at hb
      simp only [List.getElem?_cons_succ] at ha
      have ham : a ∈ t := by
        rw [List.mem_iff_getElem?]; exact ⟨m, ha⟩
      have h1 : 0 < t.countP p := List.countP_pos.2 ⟨a, ham, hpa⟩
      subst hb
      rw [List.countP_cons, if_pos hpb]
      omega
    | m + 1, n + 1 =>
      simp only [List.getElem?_cons_succ] at ha hb
      have := ih m n (by omega) ha hb
      rw [List.countP_cons]
      omega

theorem filled_uniq {tbl : List (Entry V)} (hnd : (filledKeys tbl).Nodup)
    {i j k : Nat} (hi : filledAt tbl i k) (hj : filledAt tbl j k) : i = j := by
  by_contra hij
  obtain ⟨a, ha, hfa, hka⟩ := hi
  obtain ⟨b, hb, hfb, hkb⟩ := hj
  have h2 : 2 ≤ tbl.countP fun e => decide (e.state = EState.Filled ∧ e.key = k) := by
    refine countP_two_positions _ tbl i j hij a b ha hb ?_ ?_
    · simp [hfa, hka]
    · simp [hfb, hkb]
  have h1 : (filledKeys tbl).count k ≤ 1 :=
    List.nodup_iff_count_le_one.1 hnd k
  rw [count_filledKeys] at h1
  omega

theorem countState_partition (tbl : List (Entry V)) :
    countState EState.Empty tbl + countState EState.Filled tbl +
      countState EState.Tomb tbl = tbl.length := by
  induction tbl with
  | nil => rfl
  | cons e t ih =>
    cases he : e.state <;>
      simp [countState, List.countP_cons, he] at * <;> omega

theorem exists_empty_slot {tbl : List (Entry V)}
    (h : 0 < countState EState.Empty tbl) :
    ∃ i : Nat, ∃ e : Entry V, tbl[i]? = some e ∧ e.state = EState.Empty := by
  obtain ⟨a, ham, hpa⟩ := List.countP_pos.1 h
  obtain ⟨n, hn⟩ := List.mem_iff_getElem?.1 ham
  exact ⟨n, a, hn, by simpa using hpa⟩

/-! ### Probe-loop evaluation -/

theorem probeSlot_lt (c start t : Nat) (hc : 0 < c) : probeSlot c start t < c :=
  Nat.mod_lt _ hc

theorem probeSlot_zero (c start : Nat) (h : start < c) :
    probeSlot c start 0 = start := by
  simp [probeSlot, Nat.mod_eq_of_lt h]

theorem probeSlot_shift (c start t : Nat) :
    probeSlot c ((start + 1) % c) t = probeSlot c start (t + 1) := by
  unfold probeSlot
  rw [Nat.mod_add_mod]
  congr 1
  omega

theorem probeSlot_inj (c start : Nat) {t1 t2 : Nat} (h1 : t1 < c) (h2 : t2 < c)
    (h : probeSlot c start t1 = probeSlot c start t2) : t1 = t2 := by
  unfold probeSlot at h
  have hm : t1 ≡ t2 [MOD c] :=
    (Nat.ModEq.refl start).add_left_cancel h
  have := hm.eq_of_lt_of_lt h1 h2
  exact this

/-- The probe from `start` stops after `t` steps (Empty slot or a Filled
slot holding the probed key). -/
def stopAt (tbl : List (Entry V)) (c k start t : Nat) : Prop :=
  ∃ e, tbl[probeSlot c start t]? = some e ∧
    (e.state = EState.Empty ∨ (e.state = EState.Filled ∧ e.key = k))

instance stopAtDecidable (tbl : List (Entry V)) (c k start t : Nat) :
    Decidable (stopAt tbl c k start t) :=
  match h : tbl[probeSlot c start t]? with
  | none => .isFalse (by simp [stopAt, h])
  | some e =>
    decidable_of_iff (e.state = EState.Empty ∨ (e.state = EState.Filled ∧ e.key = k))
      (by simp [stopAt, h])

theorem probeFind_eval (tbl : List (Entry V)) (c k : Nat) (start j fuel : Nat)
    (hlen : tbl.length = c) (hc : 0 < c)
    (hstart : start < c) (hfuel : j < fuel) (hpow : ∃ n, c = 2 ^ n)
    (hno : ∀ t, t < j → ¬ stopAt tbl c k start t)
    (e : Entry V) (he : tbl[probeSlot c start j]? = some e)
    (hstop : e.state = EState.Empty ∨ (e.state = EState.Filled ∧ e.key = k)) :
    probeFind tbl c k start fuel =
      some (if e.state = EState.Filled ∧ e.key = k
            then some (probeSlot c start j) else none) := by
  induction j generalizing start fuel with
  | zero =>
    obtain ⟨f, rfl⟩ : ∃ f, fuel = f + 1 := ⟨fuel - 1, by omega⟩
    rw [probeSlot_zero c start hstart] at he ⊢
    rcases hstop with hE | hFK
    · simp [probeFind, he, hE]
    · have hne : e.state ≠ EState.Empty := by rw [hFK.1]; decide
      simp [probeFind, he, hne, hFK.1, hFK.2]
  | succ j ih =>
    obtain ⟨f, rfl⟩ : ∃ f, fuel = f + 1 := ⟨fuel - 1, by omega⟩
    have hs0 : start < tbl.length := by omega
    have he0 : tbl[start]? = some tbl[start] :=
      List.getElem?_eq_getElem hs0
    have hn0 := hno 0 (Nat.succ_pos j)
    have hne : ¬(tbl[start].state = EState.Empty ∨
        (tbl[start].state = EState.Filled ∧ tbl[start].key = k)) := by
      intro hcontra
      refine hn0 ⟨tbl[start], ?_, hcontra⟩
      rw [probeSlot_zero c start hstart]
      exact he0
    push_neg at hne
    obtain ⟨hne1, hne2⟩ := hne
    have hne12 : ¬(tbl[start].state = EState.Filled ∧ tbl[start].key = k) :=
      fun hcontra => hne2 hcontra.1 hcontra.2
    have hmask : maskIdx c (start + 1) = (start + 1) % c := maskIdx_eq_mod _ hpow
    have hstep : probeFind tbl c k start (f + 1) =
        probeFind tbl c k ((start + 1) % c) f := by
      simp only [probeFind, he0]
      rw [if_neg hne1, if_neg hne12, hmask]
    rw [hstep]
    have hstart' : (start + 1) % c < c := Nat.mod_lt _ hc
    have hno' : ∀ t, t < j → ¬ stopAt tbl c k ((start + 1) % c) t := by
      intro t ht hcontra
      obtain ⟨e', he', hs'⟩ := hcontra
      rw [probeSlot_shift] at he'
      exact hno (t + 1) (by omega) ⟨e', he', hs'⟩
    have hresult := ih ((start + 1) % c) f hstart' (by omega) hno'
      (by rw [probeSlot_shift]; exact he)
    rw [hresult, probeSlot_shift]

/-- Any slot of the table is reached by the probe sequence within `c`
steps. -/
theorem stop_reachable (tbl : List (Entry V)) (c k start : Nat)
    (hlen : tbl.length = c) (hstart : start < c)
    {i : Nat} {e : Entry V} (hi : tbl[i]? = some e)
    (hse : e.state = EState.Empty ∨ (e.state = EState.Filled ∧ e.key = k)) :
    ∃ t, t < c ∧ stopAt tbl c k start t := by
  have hik : i < c := by
    have := (List.getElem?_eq_some.1 hi).1
    omega
  refine ⟨if start ≤ i then i - start else i + c - start, ?_, ?_⟩
  · split <;> omega
  · refine ⟨e, ?_, hse⟩
    unfold probeSlot
    split
    · rw [show start + (i - start) = i by omega, Nat.mod_eq_of_lt hik]
      exact hi
    · rw [show start + (i + c - start) = i + c by omega, Nat.add_mod_right,
        Nat.mod_eq_of_lt hik]
      exact hi

theorem WF.cap_pos {hash : Nat → Nat} {m : FlatHashMap V} (hwf : WF hash m) :
    0 < m.cap := by
  have := hwf.cap8
  omega

theorem WF.countEmpty_pos {hash : Nat → Nat} {m : FlatHashMap V}
    (hwf : WF hash m) : 0 < countState EState.Empty m.table := by
  have hpart := countState_partition m.table
  have hlen := hwf.twf.len
  have hs := hwf.sizeEq
  have ht := hwf.tombsEq
  have := hwf.small
  omega

/-- `find_index` finds every Filled key at its slot. -/
theorem find_index_hit (hash : Nat → Nat) (m : FlatHashMap V) (hwf : WF hash m)
    {i k : Nat} (hi : filledAt m.table i k) :
    m.find_index hash k = some i := by
  obtain ⟨e, he, hf, hk⟩ := hi
  have hc : 0 < m.cap := hwf.cap_pos
  have hlen : m.table.length = m.cap := hwf.twf.len
  have hhome : hash k % m.cap < m.cap := Nat.mod_lt _ hc
  have hpath := hwf.twf.path i e he hf
  rw [hk] at hpath
  obtain ⟨jP, hjP, hiP, hpathP⟩ := hpath
  have hstopP : stopAt m.table m.cap k (hash k % m.cap) jP :=
    ⟨e, by rw [← hiP]; exact he, Or.inr ⟨hf, hk⟩⟩
  have hex : ∃ t, stopAt m.table m.cap k (hash k % m.cap) t := ⟨jP, hstopP⟩
  set j0 := Nat.find hex with hj0def
  have hj0 : stopAt m.table m.cap k (hash k % m.cap) j0 := Nat.find_spec hex
  have hmin : ∀ t, t < j0 → ¬ stopAt m.table m.cap k (hash k % m.cap) t :=
    fun t ht => Nat.find_min hex ht
  have hj0le : j0 ≤ jP := Nat.find_min' hex hstopP
  obtain ⟨e0, he0, hs0⟩ := hj0
  have hmatch : e0.state = EState.Filled ∧ e0.key = k := by
    rcases hs0 with hE | hFK
    · rcases Nat.lt_or_ge j0 jP with hlt | hge
      · exact absurd hE (hpathP j0 hlt e0 he0)
      · have hj0eq : j0 = jP := by omega
        rw [hj0eq, ← hiP, he] at he0
        injection he0 with he0
        subst he0
        rw [hf] at hE
        exact absurd hE (by decide)
    · exact hFK
  have hslot : probeSlot m.cap (hash k % m.cap) j0 = i := by
    refine filled_uniq hwf.twf.nodup ⟨e0, he0, hmatch.1, hmatch.2⟩ ⟨e, he, hf, hk⟩
  have heval := probeFind_eval m.table m.cap k (hash k % m.cap) j0 m.cap
    hlen hc hhome (by omega) hwf.twf.pow2 hmin e0 he0 hs0
  rw [if_pos hmatch, hslot] at heval
  unfold FlatHashMap.find_index
  rw [maskIdx_eq_mod _ hwf.twf.pow2, heval]
  rfl

/-- The raw probe loop returns a definite miss for an absent key. -/
theorem probeFind_miss (hash : Nat → Nat) (m : FlatHashMap V) (hwf : WF hash m)
    {k : Nat} (hk : ¬ hasKey m.table k) :
    probeFind m.table m.cap k (maskIdx m.cap (hash k)) m.cap = some none := by
  have hc : 0 < m.cap := hwf.cap_pos
  have hlen : m.table.length = m.cap := hwf.twf.len
  have hhome : hash k % m.cap < m.cap := Nat.mod_lt _ hc
  obtain ⟨i0, e0, he0, hE0⟩ := exists_empty_slot hwf.countEmpty_pos
  obtain ⟨tR, htRc, htR⟩ :=
    stop_reachable m.table m.cap k (hash k % m.cap) hlen hhome he0 (Or.inl hE0)
  have hex : ∃ t, stopAt m.table m.cap k (hash k % m.cap) t := ⟨tR, htR⟩
  set j0 := Nat.find hex with hj0def
  have hj0 : stopAt m.table m.cap k (hash k % m.cap) j0 := Nat.find_spec hex
  have hmin : ∀ t, t < j0 → ¬ stopAt m.table m.cap k (hash k % m.cap) t :=
    fun t ht => Nat.find_min hex ht
  have hj0le : j0 ≤ tR := Nat.find_min' hex htR
  obtain ⟨e1, he1, hs1⟩ := hj0
  have hnm : ¬(e1.state = EState.Filled ∧ e1.key = k) := by
    intro hFK
    exact hk ⟨probeSlot m.cap (hash k % m.cap) j0, e1, he1, hFK.1, hFK.2⟩
  have heval := probeFind_eval m.table m.cap k (hash k % m.cap) j0 m.cap
    hlen hc hhome (by omega) hwf.twf.pow2 hmin e1 he1 hs1
  rw [if_neg hnm] at heval
  rw [maskIdx_eq_mod _ hwf.twf.pow2]
  exact heval

/-- `find_index` misses every key not Filled in the table. -/
theorem find_index_miss (hash : Nat → Nat) (m : FlatHashMap V) (hwf : WF hash m)
    {k : Nat} (hk : ¬ hasKey m.table k) :
    m.find_index hash k = none := by
  unfold FlatHashMap.find_index
  rw [probeFind_miss hash m hwf hk]
  rfl

/-- C9 ingredient: the `find_index` probe loop never exhausts its fuel
under the invariant. -/
theorem probeFind_terminates (hash : Nat → Nat) (m : FlatHashMap V)
    (hwf : WF hash m) (k : Nat) :
    probeFind m.table m.cap k (maskIdx m.cap (hash k)) m.cap ≠ none := by
  by_cases hk : hasKey m.table k
  · obtain ⟨i, hi⟩ := hk
    have := find_index_hit hash m hwf hi
    unfold FlatHashMap.find_index at this
    intro hylo
    rw [hylo] at this
    exact Option.noConfusion this
  · intro hylo
    rw [probeFind_miss hash m hwf hk] at hylo
    exact Option.noConfusion hylo

/-- `findVal` returns the stored value of a Filled key. -/
theorem findVal_hit (hash : Nat → Nat) (m : FlatHashMap V) (hwf : WF hash m)
    {i k : Nat} {e : Entry V} (he : m.table[i]? = some e)
    (hf : e.state = EState.Filled) (hk : e.key = k) :
    m.findVal hash k = some e.value := by
  unfold FlatHashMap.findVal
  rw [find_index_hit hash m hwf ⟨e, he, hf, hk⟩]
  simp [he]

theorem findVal_miss (hash : Nat → Nat) (m : FlatHashMap V) (hwf : WF hash m)
    {k : Nat} (hk : ¬ hasKey m.table k) :
    m.findVal hash k = none := by
  unfold FlatHashMap.findVal
  rw [find_index_miss hash m hwf hk]
  rfl

/-! ### Insertion-probe evaluation -/

def isTombAt (tbl : List (Entry V)) (i : Nat) : Bool :=
  match tbl[i]? with
  | some e => decide (e.state = EState.Tomb)
  | none => false

/-- First Tomb slot on the probe path of length `j` from `start`. -/
def firstTombAux (tbl : List (Entry V)) (c : Nat) : Nat → Nat → Option Nat
  | _, 0 => none
  | start, j + 1 =>
    if isTombAt tbl start then some start
    else firstTombAux tbl c ((start + 1) % c) j

/-- Insert position chosen by the insertion probe: the first Tomb it saw
(accumulator `ft` first), else the Empty slot that stopped it. -/
def placeOf (tbl : List (Entry V)) (c start j : Nat) (ft : Option Nat) :
    ProbeInsResult :=
  match ft with
  | some t => .place t true
  | none =>
    match firstTombAux tbl c start j with
    | some t => .place t true
    | none => .place (probeSlot c start j) false

theorem firstTombAux_some (tbl : List (Entry V)) (c : Nat) (start j : Nat)
    (hc : 0 < c) (hstart : start < c) {t : Nat}
    (h : firstTombAux tbl c start j = some t) :
    ∃ j', j' < j ∧ t = probeSlot c start j' ∧ isTombAt tbl t = true := by
  induction j generalizing start with
  | zero => exact absurd h (by simp [firstTombAux])
  | succ j ih =>
    rw [firstTombAux] at h
    by_cases htb : isTombAt tbl start = true
    · rw [if_pos htb] at h
      injection h with h
      subst h
      exact ⟨0, by omega, (probeSlot_zero c start hstart).symm, htb⟩
    · rw [if_neg htb] at h
      obtain ⟨j', hj', hslot, htomb⟩ := ih ((start + 1) % c) (Nat.mod_lt _ hc) h
      rw [probeSlot_shift] at hslot
      exact ⟨j' + 1, by omega, hslot, htomb⟩

theorem probeIns_eval (tbl : List (Entry V)) (c k : Nat) (start j fuel : Nat)
    (ft : Option Nat)
    (hlen : tbl.length = c) (hc : 0 < c)
    (hstart : start < c) (hfuel : j < fuel) (hpow : ∃ n, c = 2 ^ n)
    (hno : ∀ t, t < j → ¬ stopAt tbl c k start t)
    (e : Entry V) (he : tbl[probeSlot c start j]? = some e)
    (hstop : e.state = EState.Empty ∨ (e.state = EState.Filled ∧ e.key = k)) :
    probeIns tbl c k start ft fuel =
      some (if e.state = EState.Filled ∧ e.key = k
            then .dup (probeSlot c start j)
            else placeOf tbl c start j ft) := by
  induction j generalizing start fuel ft with
  | zero =>
    obtain ⟨f, rfl⟩ : ∃ f, fuel = f + 1 := ⟨fuel - 1, by omega⟩
    rw [probeSlot_zero c start hstart] at he ⊢
    rcases hstop with hE | hFK
    · have hnm : ¬(e.state = EState.Filled ∧ e.key = k) := by
        rw [hE]; intro hcontra; exact absurd hcontra.1 (by decide)
      rw [if_neg hnm]
      cases ft with
      | none =>
        simp [probeIns, he, hE, placeOf, firstTombAux,
          probeSlot_zero c start hstart]
      | some t =>
        simp [probeIns, he, hE, placeOf, firstTombAux,
          probeSlot_zero c start hstart]
    · have hne : e.state ≠ EState.Empty := by rw [hFK.1]; decide
      have hnt : e.state ≠ EState.Tomb := by rw [hFK.1]; decide
      simp [probeIns, he, hne, hnt, hFK.1, hFK.2]
  | succ j ih =>
    obtain ⟨f, rfl⟩ : ∃ f, fuel = f + 1 := ⟨fuel - 1, by omega⟩
    have hs0 : start < tbl.length := by omega
    have he0 : tbl[start]? = some tbl[start] := List.getElem?_eq_getElem hs0
    have hn0 := hno 0 (Nat.succ_pos j)
    have hne : ¬(tbl[start].state = EState.Empty ∨
        (tbl[start].state = EState.Filled ∧ tbl[start].key = k)) := by
      intro hcontra
      refine hn0 ⟨tbl[start], ?_, hcontra⟩
      rw [probeSlot_zero c start hstart]
      exact he0
    push_neg at hne
    obtain ⟨hne1, hne2⟩ := hne
    have hmask : maskIdx c (start + 1) = (start + 1) % c := maskIdx_eq_mod _ hpow
    have hstart' : (start + 1) % c < c := Nat.mod_lt _ hc
    have hno' : ∀ t, t < j → ¬ stopAt tbl c k ((start + 1) % c) t := by
      intro t ht hcontra
      obtain ⟨e', he', hs'⟩ := hcontra
      rw [probeSlot_shift] at he'
      exact hno (t + 1) (by omega) ⟨e', he', hs'⟩
    have he' : tbl[probeSlot c ((start + 1) % c) j]? = some e := by
      rw [probeSlot_shift]; exact he
    cases hstate : tbl[start].state with
    | Empty => exact absurd hstate hne1
    | Filled =>
      have hkne : tbl[start].key ≠ k := hne2 hstate
      have hstep : probeIns tbl c k start ft (f + 1) =
          probeIns tbl c k ((start + 1) % c) ft f := by
        simp only [probeIns, he0]
        rw [if_neg (by rw [hstate]; decide), if_neg (by rw [hstate]; decide),
          if_neg hkne, hmask]
      rw [hstep, ih ((start + 1) % c) f ft hstart' (by omega) hno' he']
      have hftaux : firstTombAux tbl c start (j + 1) =
          firstTombAux tbl c ((start + 1) % c) j := by
        rw [firstTombAux, if_neg (by simp [isTombAt, he0, hstate])]
      have hplace : placeOf tbl c start (j + 1) ft =
          placeOf tbl c ((start + 1) % c) j ft := by
        cases ft with
        | some t => rfl
        | none => unfold placeOf; rw [hftaux, ← probeSlot_shift]
      rw [hplace, probeSlot_shift]
    | Tomb =>
      have hstep : probeIns tbl c k start ft (f + 1) =
          probeIns tbl c k ((start + 1) % c)
            (if ft = none then some start else ft) f := by
        simp only [probeIns, he0]
        rw [if_neg (by rw [hstate]; decide), if_pos (by rw [hstate]), hmask]
      rw [hstep, ih ((start + 1) % c) f _ hstart' (by omega) hno' he']
      have hftaux : firstTombAux tbl c start (j + 1) = some start := by
        rw [firstTombAux, if_pos (by simp [isTombAt, he0, hstate])]
      have hplace : placeOf tbl c start (j + 1) ft =
          placeOf tbl c ((start + 1) % c) j
            (if ft = none then some start else ft) := by
        cases ft with
        | some t => rfl
        | none => simp [placeOf, hftaux]
      rw [hplace, probeSlot_shift]

theorem isTombAt_iff (tbl : List (Entry V)) (i : Nat) :
    isTombAt tbl i = true ↔
      ∃ e : Entry V, tbl[i]? = some e ∧ e.state = EState.Tomb := by
  unfold isTombAt
  cases h : tbl[i]? with
  | none => simp
  | some e => simp [h]

/-- The insertion probe reports a duplicate at the Filled slot of the
probed key. -/
theorem probeIns_dup (hash : Nat → Nat) (m : FlatHashMap V) (hwf : WF hash m)
    {i k : Nat} (hi : filledAt m.table i k) :
    probeIns m.table m.cap k (maskIdx m.cap (hash k)) none m.cap =
      some (.dup i) := by
  obtain ⟨e, he, hf, hk⟩ := hi
  have hc : 0 < m.cap := hwf.cap_pos
  have hlen : m.table.length = m.cap := hwf.twf.len
  have hhome : hash k % m.cap < m.cap := Nat.mod_lt _ hc
  have hpath := hwf.twf.path i e he hf
  rw [hk] at hpath
  obtain ⟨jP, hjP, hiP, hpathP⟩ := hpath
  have hstopP : stopAt m.table m.cap k (hash k % m.cap) jP :=
    ⟨e, by rw [← hiP]; exact he, Or.inr ⟨hf, hk⟩⟩
  have hex : ∃ t, stopAt m.table m.cap k (hash k % m.cap) t := ⟨jP, hstopP⟩
  set j0 := Nat.find hex with hj0def
  have hj0 : stopAt m.table m.cap k (hash k % m.cap) j0 := Nat.find_spec hex
  have hmin : ∀ t, t < j0 → ¬ stopAt m.table m.cap k (hash k % m.cap) t :=
    fun t ht => Nat.find_min hex ht
  have hj0le : j0 ≤ jP := Nat.find_min' hex hstopP
  obtain ⟨e0, he0, hs0⟩ := hj0
  have hmatch : e0.state = EState.Filled ∧ e0.key = k := by
    rcases hs0 with hE | hFK
    · rcases Nat.lt_or_ge j0 jP with hlt | hge
      · exact absurd hE (hpathP j0 hlt e0 he0)
      · have hj0eq : j0 = jP := by omega
        rw [hj0eq, ← hiP, he] at he0
        injection he0 with he0
        subst he0
        rw [hf] at hE
        exact absurd hE (by decide)
    · exact hFK
  have hslot : probeSlot m.cap (hash k % m.cap) j0 = i :=
    filled_uniq hwf.twf.nodup ⟨e0, he0, hmatch.1, hmatch.2⟩ ⟨e, he, hf, hk⟩
  have heval := probeIns_eval m.table m.cap k (hash k % m.cap) j0 m.cap none
    hlen hc hhome (by omega) hwf.twf.pow2 hmin e0 he0 hs0
  rw [if_pos hmatch, hslot] at heval
  rw [maskIdx_eq_mod _ hwf.twf.pow2]
  exact heval

/-- The insertion probe for an absent key chooses the earliest Tomb on
the probe path, else the Empty slot that stopped the probe; the chosen
slot is reachable without crossing an Empty slot. -/
theorem probeIns_fresh (hash : Nat → Nat) (m : FlatHashMap V) (hwf : WF hash m)
    {k : Nat} (hk : ¬ hasKey m.table k) :
    ∃ p usedTomb, ∃ ep : Entry V,
      probeIns m.table m.cap k (maskIdx m.cap (hash k)) none m.cap =
        some (.place p usedTomb) ∧
      p < m.cap ∧ m.table[p]? = some ep ∧
      (if usedTomb then ep.state = EState.Tomb else ep.state = EState.Empty) ∧
      PathOk m.table m.cap (hash k % m.cap) p := by
  have hc : 0 < m.cap := hwf.cap_pos
  have hlen : m.table.length = m.cap := hwf.twf.len
  have hhome : hash k % m.cap < m.cap := Nat.mod_lt _ hc
  obtain ⟨i0, e0, he0, hE0⟩ := exists_empty_slot hwf.countEmpty_pos
  obtain ⟨tR, htRc, htR⟩ :=
    stop_reachable m.table m.cap k (hash k % m.cap) hlen hhome he0 (Or.inl hE0)
  have hex : ∃ t, stopAt m.table m.cap k (hash k % m.cap) t := ⟨tR, htR⟩
  set j0 := Nat.find hex with hj0def
  have hj0 : stopAt m.table m.cap k (hash k % m.cap) j0 := Nat.find_spec hex
  have hmin : ∀ t, t < j0 → ¬ stopAt m.table m.cap k (hash k % m.cap) t :=
    fun t ht => Nat.find_min hex ht
  have hj0le : j0 ≤ tR := Nat.find_min' hex htR
  obtain ⟨e1, he1, hs1⟩ := hj0
  have hnm : ¬(e1.state = EState.Filled ∧ e1.key = k) := by
    intro hFK
    exact hk ⟨probeSlot m.cap (hash k % m.cap) j0, e1, he1, hFK.1, hFK.2⟩
  have hE1 : e1.state = EState.Empty := by
    rcases hs1 with hE | hFK
    · exact hE
    · exact absurd hFK hnm
  have heval := probeIns_eval m.table m.cap k (hash k % m.cap) j0 m.cap none
    hlen hc hhome (by omega) hwf.twf.pow2 hmin e1 he1 hs1
  rw [if_neg hnm] at heval
  rw [maskIdx_eq_mod _ hwf.twf.pow2]
  unfold placeOf at heval
  cases hft : firstTombAux m.table m.cap (hash k % m.cap) j0 with
  | some t =>
    rw [hft] at heval
    obtain ⟨jT, hjT, hslotT, htombT⟩ :=
      firstTombAux_some m.table m.cap (hash k % m.cap) j0 hc hhome hft
    obtain ⟨eT, heT, hTomb⟩ := (isTombAt_iff m.table t).1 htombT
    refine ⟨t, true, eT, heval, ?_, heT, by simp [hTomb], ?_⟩
    · rw [hslotT]; exact probeSlot_lt _ _ _ hc
    · refine ⟨jT, by omega, hslotT, ?_⟩
      intro t' ht' e' he' hE'
      exact hmin t' (by omega) ⟨e', he', Or.inl hE'⟩
  | none =>
    rw [hft] at heval
    refine ⟨probeSlot m.cap (hash k % m.cap) j0, false, e1, heval,
      probeSlot_lt _ _ _ hc, he1, by simp [hE1], ?_⟩
    refine ⟨j0, by omega, rfl, ?_⟩
    intro t' ht' e' he' hE'
    exact hmin t' ht' ⟨e', he', Or.inl hE'⟩

/-! ### The fresh-insertion loop of `rehash_same_capacity` -/

/-- An Empty slot `t` probe steps from `start`. -/
def emptyAt (tbl : List (Entry V)) (c start t : Nat) : Prop :=
  ∃ e : Entry V, tbl[probeSlot c start t]? = some e ∧ e.state = EState.Empty

instance emptyAtDecidable (tbl : List (Entry V)) (c start t : Nat) :
    Decidable (emptyAt tbl c start t) :=
  match h : tbl[probeSlot c start t]? with
  | none => .isFalse (by simp [emptyAt, h])
  | some e =>
    decidable_of_iff (e.state = EState.Empty) (by simp [emptyAt, h])

theorem freshIns_eval (tbl : List (Entry V)) (c k : Nat) (v : V)
    (start j fuel : Nat)
    (hlen : tbl.length = c) (hc : 0 < c)
    (hstart : start < c) (hfuel : j < fuel) (hpow : ∃ n, c = 2 ^ n)
    (hno : ∀ t, t < j → ¬ emptyAt tbl c start t)
    (e : Entry V) (he : tbl[probeSlot c start j]? = some e)
    (hE : e.state = EState.Empty) :
    freshIns tbl c k v start fuel =
      some (tbl.set (probeSlot c start j)
        { key := k, value := v, state := EState.Filled }) := by
  induction j generalizing start fuel with
  | zero =>
    obtain ⟨f, rfl⟩ : ∃ f, fuel = f + 1 := ⟨fuel - 1, by omega⟩
    rw [probeSlot_zero c start hstart] at he ⊢
    simp [freshIns, he, hE]
  | succ j ih =>
    obtain ⟨f, rfl⟩ : ∃ f, fuel = f + 1 := ⟨fuel - 1, by omega⟩
    have hs0 : start < tbl.length := by omega
    have he0 : tbl[start]? = some tbl[start] := List.getElem?_eq_getElem hs0
    have hne1 : tbl[start].state ≠ EState.Empty := by
      intro hcontra
      refine hno 0 (Nat.succ_pos j) ⟨tbl[start], ?_, hcontra⟩
      rw [probeSlot_zero c start hstart]
      exact he0
    have hmask : maskIdx c (start + 1) = (start + 1) % c := maskIdx_eq_mod _ hpow
    have hstep : freshIns tbl c k v start (f + 1) =
        freshIns tbl c k v ((start + 1) % c) f := by
      simp only [freshIns, he0]
      rw [if_neg hne1, hmask]
    have hstart' : (start + 1) % c < c := Nat.mod_lt _ hc
    have hno' : ∀ t, t < j → ¬ emptyAt tbl c ((start + 1) % c) t := by
      intro t ht hcontra
      obtain ⟨e', he', hs'⟩ := hcontra
      rw [probeSlot_shift] at he'
      exact hno (t + 1) (by omega) ⟨e', he', hs'⟩
    rw [hstep, ih ((start + 1) % c) f hstart' (by omega) hno'
      (by rw [probeSlot_shift]; exact he), probeSlot_shift]

/-- On a table with an Empty slot, `freshIns` fills the first Empty slot
on the probe path. -/
theorem freshIns_spec (tbl : List (Entry V)) (c k : Nat) (v : V) (start : Nat)
    (hlen : tbl.length = c) (hc : 0 < c) (hstart : start < c)
    (hpow : ∃ n, c = 2 ^ n)
    (hempty : 0 < countState EState.Empty tbl) :
    ∃ p, ∃ ep : Entry V,
      freshIns tbl c k v start c =
        some (tbl.set p { key := k, value := v, state := EState.Filled }) ∧
      p < c ∧ tbl[p]? = some ep ∧ ep.state = EState.Empty ∧
      (∀ t, t < c → probeSlot c start t = p → ∀ t', t' < t →
        ¬ emptyAt tbl c start t') ∧
      PathOk tbl c start p := by
  obtain ⟨i0, e0, he0, hE0⟩ := exists_empty_slot hempty
  have hik : i0 < c := by
    have := (List.getElem?_eq_some.1 he0).1
    omega
  have hreach : ∃ t, t < c ∧ emptyAt tbl c start t := by
    refine ⟨if start ≤ i0 then i0 - start else i0 + c - start, by split <;> omega,
      e0, ?_, hE0⟩
    unfold probeSlot
    split
    · rw [show start + (i0 - start) = i0 by omega, Nat.mod_eq_of_lt hik]
      exact he0
    · rw [show start + (i0 + c - start) = i0 + c by omega, Nat.add_mod_right,
        Nat.mod_eq_of_lt hik]
      exact he0
  obtain ⟨tR, htRc, htR⟩ := hreach
  have hex : ∃ t, emptyAt tbl c start t := ⟨tR, htR⟩
  set j0 := Nat.find hex with hj0def
  have hj0 : emptyAt tbl c start j0 := Nat.find_spec hex
  have hmin : ∀ t, t < j0 → ¬ emptyAt tbl c start t :=
    fun t ht => Nat.find_min hex ht
  have hj0le : j0 ≤ tR := Nat.find_min' hex htR
  obtain ⟨e1, he1, hE1⟩ := hj0
  refine ⟨probeSlot c start j0, e1,
    freshIns_eval tbl c k v start j0 c hlen hc hstart (by omega) hpow hmin e1
      he1 hE1, probeSlot_lt _ _ _ hc, he1, hE1, ?_, ?_⟩
  · intro t htc hslot t' ht'
    have : t = j0 := probeSlot_inj c start htc (by omega) (by rw [hslot])
    exact hmin t' (by omega)
  · refine ⟨j0, by omega, rfl, ?_⟩
    intro t' ht' e' he' hE'
    exact hmin t' ht' ⟨e', he', hE'⟩

/-! ### Table updates preserve the invariant -/

/-- The map semantics the flat hash map is checked against: `g k` is the
value of the unique Filled entry with key `k`, or `none`. -/
def Models (tbl : List (Entry V)) (g : Nat → Option V) : Prop :=
  ∀ k : Nat, (g k = none ∧ ¬ hasKey tbl k) ∨
    (∃ i : Nat, ∃ e : Entry V, tbl[i]? = some e ∧ e.state = EState.Filled ∧
      e.key = k ∧ g k = some e.value)

theorem models_congr {tbl : List (Entry V)} {g1 g2 : Nat → Option V}
    (h : ∀ k, g1 k = g2 k) (hm : Models tbl g1) : Models tbl g2 := by
  intro k
  rcases hm k with ⟨hg, hnk⟩ | ⟨i, e, he, hf, hk, hg⟩
  · exact Or.inl ⟨(h k) ▸ hg, hnk⟩
  · exact Or.inr ⟨i, e, he, hf, hk, (h k) ▸ hg⟩

theorem findVal_models (hash : Nat → Nat) (m : FlatHashMap V) (hwf : WF hash m)
    {g : Nat → Option V} (hm : Models m.table g) (k : Nat) :
    m.findVal hash k = g k := by
  rcases hm k with ⟨hg, hnk⟩ | ⟨i, e, he, hf, hk, hg⟩
  · rw [findVal_miss hash m hwf hnk, hg]
  · rw [findVal_hit hash m hwf he hf hk, hg]

theorem models_none_of_not_hasKey {tbl : List (Entry V)} {g : Nat → Option V}
    (hm : Models tbl g) {k : Nat} (hk : ¬ hasKey tbl k) : g k = none := by
  rcases hm k with ⟨hg, _⟩ | ⟨i, e, he, hf, hke, _⟩
  · exact hg
  · exact absurd ⟨i, e, he, hf, hke⟩ hk

theorem filledAt_set {tbl : List (Entry V)} {p : Nat} (hp : p < tbl.length)
    (x : Entry V) (i k : Nat) :
    filledAt (tbl.set p x) i k ↔
      (i = p ∧ x.state = EState.Filled ∧ x.key = k) ∨
      (i ≠ p ∧ filledAt tbl i k) := by
  unfold filledAt
  constructor
  · rintro ⟨e, he, hf, hk⟩
    rw [List.getElem?_set] at he
    by_cases hip : p = i
    · rw [if_pos hip, if_pos (by omega)] at he
      injection he with he
      subst he
      exact Or.inl ⟨hip.symm, hf, hk⟩
    · rw [if_neg hip] at he
      exact Or.inr ⟨fun hcontra => hip hcontra.symm, e, he, hf, hk⟩
  · rintro (⟨rfl, hf, hk⟩ | ⟨hip, e, he, hf, hk⟩)
    · refine ⟨x, ?_, hf, hk⟩
      rw [List.getElem?_set, if_pos rfl, if_pos hp]
    · refine ⟨e, ?_, hf, hk⟩
      rw [List.getElem?_set, if_neg (fun hcontra => hip hcontra.symm)]
      exact he

theorem countState_set {tbl : List (Entry V)} {p : Nat} {ep : Entry V}
    (hp : tbl[p]? = some ep) (x : Entry V) (s : EState) :
    countState s (tbl.set p x) =
      countState s tbl - (if ep.state = s then 1 else 0) +
        (if x.state = s then 1 else 0) := by
  obtain ⟨hlt, hget⟩ := List.getElem?_eq_some.1 hp
  unfold countState
  rw [List.countP_set _ _ _ _ hlt, hget]
  by_cases h1 : ep.state = s <;> by_cases h2 : x.state = s <;> simp [h1, h2]

theorem countState_pos {tbl : List (Entry V)} {p : Nat} {ep : Entry V}
    (hp : tbl[p]? = some ep) (s : EState) (hs : ep.state = s) :
    0 < countState s tbl := by
  have hmem : ep ∈ tbl := by
    rw [List.mem_iff_getElem?]; exact ⟨p, hp⟩
  exact List.countP_pos.2 ⟨ep, hmem, by simp [hs]⟩

/-- Number of Filled entries holding key `k`. -/
def countKey (tbl : List (Entry V)) (k : Nat) : Nat :=
  tbl.countP fun e => decide (e.state = EState.Filled ∧ e.key = k)

theorem countKey_set {tbl : List (Entry V)} {p : Nat} {ep : Entry V}
    (hp : tbl[p]? = some ep) (x : Entry V) (k : Nat) :
    countKey (tbl.set p x) k =
      countKey tbl k -
        (if ep.state = EState.Filled ∧ ep.key = k then 1 else 0) +
        (if x.state = EState.Filled ∧ x.key = k then 1 else 0) := by
  obtain ⟨hlt, hget⟩ := List.getElem?_eq_some.1 hp
  unfold countKey
  rw [List.countP_set _ _ _ _ hlt, hget]
  by_cases h1 : ep.state = EState.Filled ∧ ep.key = k <;>
    by_cases h2 : x.state = EState.Filled ∧ x.key = k <;> simp [h1, h2]

theorem countKey_zero_of_not_hasKey {tbl : List (Entry V)} {k : Nat}
    (hk : ¬ hasKey tbl k) : countKey tbl k = 0 := by
  by_contra hnz
  have hpos : 0 < countKey tbl k := by omega
  obtain ⟨a, ham, hpa⟩ := List.countP_pos.1 hpos
  simp only [decide_eq_true_eq] at hpa
  obtain ⟨n, hn⟩ := List.mem_iff_getElem?.1 ham
  exact hk ⟨n, a, hn, hpa.1, hpa.2⟩

theorem nodup_filledKeys_iff (tbl : List (Entry V)) :
    (filledKeys tbl).Nodup ↔ ∀ k, countKey tbl k ≤ 1 := by
  rw [List.nodup_iff_count_le_one]
  constructor
  · intro h k
    have := h k
    rw [count_filledKeys] at this
    exact this
  · intro h k
    rw [count_filledKeys]
    exact h k

theorem nodup_set_le {tbl : List (Entry V)} {p : Nat} {ep : Entry V}
    (hp : tbl[p]? = some ep) (x : Entry V)
    (hnd : (filledKeys tbl).Nodup)
    (hx : x.state ≠ EState.Filled) :
    (filledKeys (tbl.set p x)).Nodup := by
  rw [nodup_filledKeys_iff] at hnd ⊢
  intro k
  rw [countKey_set hp]
  have hxP : ¬(x.state = EState.Filled ∧ x.key = k) := fun h => hx h.1
  rw [if_neg hxP]
  have := hnd k
  omega

/-- Writing a non-Empty entry anywhere preserves probe reachability. -/
theorem PathOk_set {tbl : List (Entry V)} {c s i : Nat} (h : PathOk tbl c s i)
    (p : Nat) (x : Entry V) (hx : x.state ≠ EState.Empty) :
    PathOk (tbl.set p x) c s i := by
  obtain ⟨j, hj, hi, hpath⟩ := h
  refine ⟨j, hj, hi, ?_⟩
  intro t ht e he
  rw [List.getElem?_set] at he
  by_cases hps : p = probeSlot c s t
  · rw [if_pos hps] at he
    split at he
    · injection he with he
      rw [← he]
      exact hx
    · exact Option.noConfusion he
  · rw [if_neg hps] at he
    exact hpath t ht e he

/-- Inserting a fresh Filled key at a reachable non-Filled slot keeps the
table well formed. -/
theorem TableWF_insertFresh (hash : Nat → Nat) {tbl : List (Entry V)} {c : Nat}
    (htwf : TableWF hash tbl c) {p k : Nat} {ep : Entry V} (v : V)
    (hp : tbl[p]? = some ep) (hsf : ep.state ≠ EState.Filled)
    (hfresh : ¬ hasKey tbl k)
    (hpath : PathOk tbl c (hash k % c) p) :
    TableWF hash (tbl.set p { key := k, value := v, state := EState.Filled }) c where
  len := by rw [List.length_set]; exact htwf.len
  pow2 := htwf.pow2
  nodup := by
    rw [nodup_filledKeys_iff]
    intro k'
    rw [countKey_set hp]
    have hepP : ¬(ep.state = EState.Filled ∧ ep.key = k') := fun h => hsf h.1
    rw [if_neg hepP]
    by_cases hk' : k' = k
    · subst hk'
      have hzero := countKey_zero_of_not_hasKey hfresh
      have hk1 : countKey tbl k' = 0 := hzero
      rw [hk1]
      split <;> omega
    · have hnd := (nodup_filledKeys_iff tbl).1 htwf.nodup k'
      have hxne : ¬(({ key := k, value := v, state := EState.Filled } :
          Entry V).state = EState.Filled ∧
          ({ key := k, value := v, state := EState.Filled } : Entry V).key = k') := by
        intro hcontra
        exact hk' hcontra.2.symm
      rw [if_neg hxne]
      omega
  path := by
    intro i e he hf
    have hxne : ({ key := k, value := v, state := EState.Filled } :
        Entry V).state ≠ EState.Empty := by simp
    rw [List.getElem?_set] at he
    by_cases hpi : p = i
    · subst hpi
      rw [if_pos rfl] at he
      split at he
      · injection he with he
        rw [← he]
        exact PathOk_set hpath p _ hxne
      · exact Option.noConfusion he
    · rw [if_neg hpi] at he
      exact PathOk_set (htwf.path i e he hf) p _ hxne

/-- Inserting a fresh key updates the modelled map pointwise. -/
theorem models_insertFresh {tbl : List (Entry V)} {g : Nat → Option V}
    (_hnd : (filledKeys tbl).Nodup) (hm : Models tbl g) {p k : Nat}
    {ep : Entry V} (v : V) (hp : tbl[p]? = some ep)
    (hsf : ep.state ≠ EState.Filled) (hfresh : ¬ hasKey tbl k) :
    Models (tbl.set p { key := k, value := v, state := EState.Filled })
      (fun j => if j = k then some v else g j) := by
  have hlt : p < tbl.length := (List.getElem?_eq_some.1 hp).1
  intro k'
  by_cases hk' : k' = k
  · subst hk'
    refine Or.inr ⟨p, { key := k', value := v, state := EState.Filled },
      ?_, rfl, rfl, by simp⟩
    rw [List.getElem?_set, if_pos rfl, if_pos hlt]
  · rcases hm k' with ⟨hg, hnk⟩ | ⟨i, e, he, hf, hke, hg⟩
    · refine Or.inl ⟨by simpa [hk'] using hg, ?_⟩
      intro hcontra
      obtain ⟨i, hi⟩ := hcontra
      rcases (filledAt_set hlt _ i k').1 hi with ⟨_, _, hkx⟩ | ⟨_, hold⟩
      · exact hk' (by rw [← hkx])
      · exact hnk ⟨i, hold⟩
    · have hip : i ≠ p := by
        intro hcontra
        rw [hcontra, hp] at he
        injection he with he
        rw [he] at hsf
        exact hsf hf
      refine Or.inr ⟨i, e, ?_, hf, hke, by simpa [hk'] using hg⟩
      rw [List.getElem?_set, if_neg (fun hcontra => hip hcontra.symm)]
      exact he

/-- Tombstoning a Filled slot removes exactly its key from the model. -/
theorem models_tombstone {tbl : List (Entry V)} {g : Nat → Option V}
    (hnd : (filledKeys tbl).Nodup) (hm : Models tbl g) {i k : Nat}
    {e : Entry V} (he : tbl[i]? = some e) (hf : e.state = EState.Filled)
    (hk : e.key = k) :
    Models (tbl.set i { e with state := EState.Tomb })
      (fun j => if j = k then none else g j) := by
  have hlt : i < tbl.length := (List.getElem?_eq_some.1 he).1
  have htne : ({ e with state := EState.Tomb } : Entry V).state ≠
      EState.Filled := by simp
  intro k'
  by_cases hk' : k' = k
  · subst hk'
    refine Or.inl ⟨by simp, ?_⟩
    intro hcontra
    obtain ⟨i', hi'⟩ := hcontra
    rcases (filledAt_set hlt _ i' k').1 hi' with ⟨_, hsx, _⟩ | ⟨hne, hold⟩
    · exact htne hsx
    · exact hne (filled_uniq hnd hold ⟨e, he, hf, hk⟩)
  · rcases hm k' with ⟨hg, hnk⟩ | ⟨i', e', he', hf', hke', hg⟩
    · refine Or.inl ⟨by simpa [hk'] using hg, ?_⟩
      intro hcontra
      obtain ⟨i'', hi''⟩ := hcontra
      rcases (filledAt_set hlt _ i'' k').1 hi'' with ⟨_, hsx, _⟩ | ⟨_, hold⟩
      · exact htne hsx
      · exact hnk ⟨i'', hold⟩
    · have hip : i' ≠ i := by
        intro hcontra
        rw [hcontra, he] at he'
        injection he' with he'
        rw [← he'] at hke'
        exact hk' (by rw [← hke', hk])
      refine Or.inr ⟨i', e', ?_, hf', hke', by simpa [hk'] using hg⟩
      rw [List.getElem?_set, if_neg (fun hcontra => hip hcontra.symm)]
      exact he'

/-! ### Operation-level invariant preservation -/

/-- Per-state invariant of the growth-disabled map against its
functional model. -/
structure REP (hash : Nat → Nat) (m : FlatHashMap V) (g : Nat → Option V) :
    Prop where
  wf : WF hash m
  models : Models m.table g
  nogrow : m.allow_grow = false

theorem not_hasKey_of_models_none {tbl : List (Entry V)} {g : Nat → Option V}
    (hm : Models tbl g) {k : Nat} (hg : g k = none) : ¬ hasKey tbl k := by
  rcases hm k with ⟨_, hnk⟩ | ⟨i, e, he, hf, hke, hgk⟩
  · exact hnk
  · rw [hg] at hgk
    exact Option.noConfusion hgk

theorem erase_rep (hash : Nat → Nat) (m : FlatHashMap V) {g : Nat → Option V}
    (hrep : REP hash m g) (k : Nat) :
    REP hash (m.erase hash k).1 (fun j => if j = k then none else g j) ∧
    (m.erase hash k).1.cap = m.cap ∧
    (m.erase hash k).1.size + (m.erase hash k).1.tombs ≤ m.size + m.tombs := by
  obtain ⟨hwf, hmod, hag⟩ := hrep
  by_cases hk : hasKey m.table k
  · obtain ⟨i, e, he, hf, hke⟩ := hk
    have hidx := find_index_hit hash m hwf ⟨e, he, hf, hke⟩
    have hcF : 0 < countState EState.Filled m.table := countState_pos he _ hf
    have hres : m.erase hash k =
        ({ m with
           table := m.table.set i
             { key := e.key, value := e.value, state := EState.Tomb },
           size := m.size - 1, tombs := m.tombs + 1 }, true) := by
      unfold FlatHashMap.erase
      simp only [hidx, he]
    have hcF' := countState_set he
      { key := e.key, value := e.value, state := EState.Tomb } EState.Filled
    have hcT' := countState_set he
      { key := e.key, value := e.value, state := EState.Tomb } EState.Tomb
    rw [if_pos hf, if_neg (by simp)] at hcF'
    rw [if_neg (by rw [hf]; decide), if_pos (by simp)] at hcT'
    have hcap' : (m.table.set i
        { key := e.key, value := e.value, state := EState.Tomb }).length =
        m.cap := by
      rw [List.length_set]
      exact hwf.twf.len
    have htwf' : TableWF hash (m.table.set i
        { key := e.key, value := e.value, state := EState.Tomb }) m.cap := by
      constructor
      · exact hcap'
      · exact hwf.twf.pow2
      · exact nodup_set_le he _ hwf.twf.nodup (by simp)
      · intro i' e' he' hf'
        have htne : (Entry.mk e.key e.value EState.Tomb).state ≠
            EState.Empty := by simp
        rw [List.getElem?_set] at he'
        by_cases hpi : i = i'
        · subst hpi
          rw [if_pos rfl] at he'
          split at he'
          · injection he' with he'
            rw [← he'] at hf'
            simp at hf'
          · exact Option.noConfusion he'
        · rw [if_neg hpi] at he'
          exact PathOk_set (hwf.twf.path i' e' he' hf') i _ htne
    rw [hres]
    have hmod' := models_tombstone hwf.twf.nodup hmod he hf hke
    refine ⟨⟨?_, ?_, hag⟩, ?_, ?_⟩
    · constructor
      · show TableWF hash (m.table.set i
          { key := e.key, value := e.value, state := EState.Tomb }) _
        rw [show ({ m with
            table := m.table.set i
              { key := e.key, value := e.value, state := EState.Tomb },
            size := m.size - 1,
            tombs := m.tombs + 1 } : FlatHashMap V).cap = m.cap
          from hcap']
        exact htwf'
      · show 8 ≤ _
        rw [show ({ m with
            table := m.table.set i
              { key := e.key, value := e.value, state := EState.Tomb },
            size := m.size - 1,
            tombs := m.tombs + 1 } : FlatHashMap V).cap = m.cap
          from hcap']
        exact hwf.cap8
      · show m.size - 1 = _
        rw [hcF']
        have := hwf.sizeEq
        omega
      · show m.tombs + 1 = _
        rw [hcT']
        have := hwf.tombsEq
        omega
      · show m.size - 1 + (m.tombs + 1) < _
        rw [show ({ m with
            table := m.table.set i
              { key := e.key, value := e.value, state := EState.Tomb },
            size := m.size - 1,
            tombs := m.tombs + 1 } : FlatHashMap V).cap = m.cap
          from hcap']
        have := hwf.small
        have h2 := hwf.sizeEq
        omega
    · exact fun k' => by
        have := hmod' k'
        simpa using this
    · exact hcap'
    · show m.size - 1 + (m.tombs + 1) ≤ m.size + m.tombs
      have h2 := hwf.sizeEq
      omega
  · have hidx := find_index_miss hash m hwf hk
    have hres : m.erase hash k = (m, false) := by
      unfold FlatHashMap.erase
      rw [hidx]
    rw [hres]
    refine ⟨⟨hwf, ?_, hag⟩, rfl, le_refl _⟩
    have hgk : g k = none := models_none_of_not_hasKey hmod hk
    refine models_congr ?_ hmod
    intro j
    by_cases hj : j = k
    · subst hj; simp [hgk]
    · simp [hj]

/-! ### Rehash at the same capacity -/

/-- Content of a list of entries viewed as a map (first Filled match). -/
def listFilledVal (es : List (Entry V)) (k : Nat) : Option V :=
  (es.find? fun e => decide (e.state = EState.Filled ∧ e.key = k)).map
    Entry.value

theorem listFilledVal_nil (k : Nat) : listFilledVal ([] : List (Entry V)) k = none :=
  rfl

theorem listFilledVal_cons_skip {e : Entry V} {es : List (Entry V)} {k : Nat}
    (h : ¬(e.state = EState.Filled ∧ e.key = k)) :
    listFilledVal (e :: es) k = listFilledVal es k := by
  unfold listFilledVal
  rw [List.find?_cons_of_neg _ (by simpa using h)]

theorem listFilledVal_cons_hit {e : Entry V} {es : List (Entry V)} {k : Nat}
    (hf : e.state = EState.Filled) (hk : e.key = k) :
    listFilledVal (e :: es) k = some e.value := by
  unfold listFilledVal
  rw [List.find?_cons_of_pos _ (by simp [hf, hk])]
  rfl

theorem listFilledVal_eq_of_models {tbl : List (Entry V)} {g : Nat → Option V}
    (hnd : (filledKeys tbl).Nodup) (hm : Models tbl g) (k : Nat) :
    listFilledVal tbl k = g k := by
  rcases hm k with ⟨hg, hnk⟩ | ⟨i, e, he, hf, hke, hg⟩
  · rw [hg]
    unfold listFilledVal
    rw [List.find?_eq_none.2]
    · rfl
    · intro x hx hpx
      simp only [decide_eq_true_eq] at hpx
      obtain ⟨n, hn⟩ := List.mem_iff_getElem?.1 hx
      exact absurd ⟨n, x, hn, hpx.1, hpx.2⟩ hnk
  · rw [hg]
    have hsome : ((tbl.find? fun e =>
        decide (e.state = EState.Filled ∧ e.key = k)).isSome) := by
      rw [List.find?_isSome]
      refine ⟨e, ?_, by simp [hf, hke]⟩
      rw [List.mem_iff_getElem?]
      exact ⟨i, he⟩
    obtain ⟨a, ha⟩ := Option.isSome_iff_exists.1 hsome
    have hpa := List.find?_some ha
    simp only [decide_eq_true_eq] at hpa
    have ham := List.mem_of_find?_eq_some ha
    obtain ⟨n, hn⟩ := List.mem_iff_getElem?.1 ham
    have := filled_uniq hnd ⟨a, hn, hpa.1, hpa.2⟩ ⟨e, he, hf, hke⟩
    subst this
    rw [hn] at he
    injection he with he
    unfold listFilledVal
    rw [ha, he]
    rfl

theorem key_mem_filledKeys {e : Entry V} {es : List (Entry V)}
    (hmem : e ∈ es) (hf : e.state = EState.Filled) :
    e.key ∈ filledKeys es := by
  unfold filledKeys
  exact List.mem_map.2 ⟨e, List.mem_filter.2 ⟨hmem, by simp [hf]⟩, rfl⟩

theorem countState_cons (s : EState) (e : Entry V) (es : List (Entry V)) :
    countState s (e :: es) =
      countState s es + (if e.state = s then 1 else 0) := by
  unfold countState
  rw [List.countP_cons]
  by_cases h : e.state = s <;> simp [h]

theorem filledKeys_cons (e : Entry V) (es : List (Entry V)) :
    filledKeys (e :: es) =
      if e.state = EState.Filled then e.key :: filledKeys es
      else filledKeys es := by
  unfold filledKeys
  rw [List.filter_cons]
  by_cases h : e.state = EState.Filled <;> simp [h]

theorem countState_replicate (s : EState) (n : Nat) (e : Entry V) :
    countState s (List.replicate n e) =
      n * (if e.state = s then 1 else 0) := by
  induction n with
  | zero => simp [countState]
  | succ n ih =>
    rw [List.replicate_succ, countState_cons, ih]
    ring

theorem filledKeys_replicate_empty (n : Nat) (kd : Nat) (vd : V) :
    filledKeys (List.replicate n (Entry.mk kd vd EState.Empty)) = [] := by
  induction n with
  | zero => rfl
  | succ n ih =>
    rw [List.replicate_succ, filledKeys_cons, if_neg (by simp)]
    exact ih

theorem models_replicate_empty (n : Nat) (kd : Nat) (vd : V) :
    Models (List.replicate n (Entry.mk kd vd EState.Empty))
      (fun _ => none) := by
  intro k
  refine Or.inl ⟨rfl, ?_⟩
  rintro ⟨i, e, he, hf, hk⟩
  have hmem : e ∈ List.replicate n (Entry.mk kd vd EState.Empty) := by
    rw [List.mem_iff_getElem?]
    exact ⟨i, he⟩
  have := List.eq_of_mem_replicate hmem
  rw [this] at hf
  simp at hf

theorem TableWF_replicate_empty (hash : Nat → Nat) (c : Nat)
    (hpow : ∃ n, c = 2 ^ n) (kd : Nat) (vd : V) :
    TableWF hash (List.replicate c (Entry.mk kd vd EState.Empty)) c where
  len := List.length_replicate c _
  pow2 := hpow
  nodup := by rw [filledKeys_replicate_empty]; exact List.nodup_nil
  path := by
    intro i e he hf
    have hmem : e ∈ List.replicate c (Entry.mk kd vd EState.Empty) := by
      rw [List.mem_iff_getElem?]
      exact ⟨i, he⟩
    have := List.eq_of_mem_replicate hmem
    rw [this] at hf
    simp at hf

theorem rehashStep_some (hash : Nat → Nat) (c : Nat) (tbl : List (Entry V))
    (n : Nat) (e : Entry V) :
    rehashStep hash c (some (tbl, n)) e =
      if e.state = EState.Filled then
        (match freshIns tbl c e.key e.value (maskIdx c (hash e.key)) c with
         | none => none
         | some tbl' => some (tbl', n + 1))
      else some (tbl, n) := rfl

/-- Invariant-carrying specification of the scratch-rebuild walk of
`rehash_same_capacity`. -/
theorem rehash_fold (hash : Nat → Nat) (c : Nat) (hpow : ∃ n, c = 2 ^ n)
    (hc : 0 < c) (entries : List (Entry V)) :
    ∀ (acc : List (Entry V) × Nat) (gacc : Nat → Option V),
    TableWF hash acc.1 c →
    countState EState.Filled acc.1 = acc.2 →
    countState EState.Tomb acc.1 = 0 →
    Models acc.1 gacc →
    acc.2 + countState EState.Filled entries < c →
    (∀ e ∈ entries, e.state = EState.Filled → gacc e.key = none) →
    (filledKeys entries).Nodup →
    ∃ tbl' : List (Entry V),
      entries.foldl (rehashStep hash c) (some acc) =
        some (tbl', acc.2 + countState EState.Filled entries) ∧
      TableWF hash tbl' c ∧
      countState EState.Filled tbl' = acc.2 + countState EState.Filled entries ∧
      countState EState.Tomb tbl' = 0 ∧
      Models tbl' (fun k => match gacc k with
        | some v => some v
        | none => listFilledVal entries k) := by
  have h0 : countState EState.Filled ([] : List (Entry V)) = 0 := rfl
  induction entries with
  | nil =>
    rintro ⟨tblA, nA⟩ gacc htwf hcF hcT hmod hroom hdisj hnd
    refine ⟨tblA, ?_, htwf, ?_, hcT, ?_⟩
    · rw [List.foldl_nil, h0]
      simp
    · rw [h0]
      simpa using hcF
    · refine models_congr ?_ hmod
      intro k
      cases hg : gacc k <;> simp [hg, listFilledVal_nil]
  | cons e rest ih =>
    rintro ⟨tblA, nA⟩ gacc htwf hcF hcT hmod hroom hdisj hnd
    rw [List.foldl_cons]
    by_cases hf : e.state = EState.Filled
    · -- reinsert this entry into the scratch table
      simp only at htwf hcF hcT hmod hroom
      have hfresh : ¬ hasKey tblA e.key :=
        not_hasKey_of_models_none hmod (hdisj e (by simp) hf)
      have hcFe : countState EState.Filled (e :: rest) =
          countState EState.Filled rest + 1 := by
        rw [countState_cons, if_pos hf]
      have hempty : 0 < countState EState.Empty tblA := by
        have hpart := countState_partition tblA
        have hlen := htwf.len
        omega
      have hhome : hash e.key % c < c := Nat.mod_lt _ hc
      obtain ⟨p, ep, hfi, hpc, hp, hpE, _, hpath⟩ :=
        freshIns_spec tblA c e.key e.value (hash e.key % c) htwf.len hc
          hhome hpow hempty
      have hstep : rehashStep hash c (some (tblA, nA)) e =
          some (tblA.set p (Entry.mk e.key e.value EState.Filled),
            nA + 1) := by
        rw [rehashStep_some, if_pos hf, maskIdx_eq_mod _ hpow, hfi]
      rw [hstep]
      have hcF' := countState_set hp (Entry.mk e.key e.value EState.Filled)
        EState.Filled
      have hcT' := countState_set hp (Entry.mk e.key e.value EState.Filled)
        EState.Tomb
      rw [if_neg (by rw [hpE]; decide), if_pos (by simp)] at hcF'
      rw [if_neg (by rw [hpE]; decide), if_neg (by simp)] at hcT'
      have htwf' := TableWF_insertFresh hash htwf e.value hp
        (by rw [hpE]; decide) hfresh hpath
      have hmod' := models_insertFresh htwf.nodup hmod e.value hp
        (by rw [hpE]; decide) hfresh
      have hdisj' : ∀ e' ∈ rest, e'.state = EState.Filled →
          (fun j => if j = e.key then some e.value else gacc j) e'.key
            = none := by
        intro e' hmem hf'
        have hkne : e'.key ≠ e.key := by
          intro hcontra
          have hknd := hnd
          rw [filledKeys_cons, if_pos hf] at hknd
          have : e.key ∈ filledKeys rest := by
            rw [← hcontra]
            exact key_mem_filledKeys hmem hf'
          exact (List.nodup_cons.1 hknd).1 this
        simp only [if_neg hkne]
        exact hdisj e' (by simp [hmem]) hf'
      have hnd' : (filledKeys rest).Nodup := by
        have := hnd
        rw [filledKeys_cons, if_pos hf] at this
        exact (List.nodup_cons.1 this).2
      obtain ⟨tbl', hfold, htwf2, hcF2, hcT2, hmod2⟩ :=
        ih (tblA.set p (Entry.mk e.key e.value EState.Filled), nA + 1)
          (fun j => if j = e.key then some e.value else gacc j)
          htwf' (by simp only; omega) (by simp only; omega) hmod'
          (by simp only; omega) hdisj' hnd'
      refine ⟨tbl', ?_, htwf2, ?_, hcT2, ?_⟩
      · rw [hfold]
        congr 2
        rw [hcFe]
        omega
      · rw [hcF2]
        simp only
        rw [hcFe]
        omega
      · refine models_congr ?_ hmod2
        intro k
        by_cases hk : k = e.key
        · subst hk
          rw [if_pos rfl]
          have hgn : gacc e.key = none := hdisj e (by simp) hf
          rw [hgn, listFilledVal_cons_hit hf rfl]
        · rw [if_neg hk]
          cases hg : gacc k with
          | some v => rfl
          | none =>
            rw [listFilledVal_cons_skip (fun hcontra => hk hcontra.2.symm)]
    · -- skip a non-Filled entry
      simp only at htwf hcF hcT hmod hroom
      have hstep : rehashStep hash c (some (tblA, nA)) e = some (tblA, nA) := by
        rw [rehashStep_some, if_neg hf]
      rw [hstep]
      have hcFe : countState EState.Filled (e :: rest) =
          countState EState.Filled rest := by
        rw [countState_cons, if_neg hf]
        omega
      have hnd' : (filledKeys rest).Nodup := by
        have := hnd
        rw [filledKeys_cons, if_neg hf] at this
        exact this
      obtain ⟨tbl', hfold, htwf2, hcF2, hcT2, hmod2⟩ :=
        ih (tblA, nA) gacc htwf hcF hcT hmod (by simp only; omega)
          (fun e' hmem hf' => hdisj e' (by simp [hmem]) hf') hnd'
      refine ⟨tbl', ?_, htwf2, ?_, hcT2, ?_⟩
      · rw [hfold]
        simp only
        rw [hcFe]
      · rw [hcF2]
        simp only
        rw [hcFe]
      · refine models_congr ?_ hmod2
        intro k
        cases hg : gacc k with
        | some v => rfl
        | none =>
          rw [listFilledVal_cons_skip (fun hcontra => hf hcontra.1)]

theorem rehash_rep [Inhabited V] (hash : Nat → Nat) (m : FlatHashMap V)
    {g : Nat → Option V} (hrep : REP hash m g) :
    (countState EState.Filled m.table * 10 ≥ m.cap * 8 →
      m.rehash_same_capacity hash = .error ()) ∧
    (countState EState.Filled m.table * 10 < m.cap * 8 →
      ∃ m', m.rehash_same_capacity hash = .ok m' ∧ REP hash m' g ∧
        m'.cap = m.cap ∧ m'.tombs = 0 ∧
        m'.size = countState EState.Filled m.table ∧
        m'.size + m'.tombs ≤ m.size + m.tombs) := by
  obtain ⟨hwf, hmod, hag⟩ := hrep
  have hc : 0 < m.cap := hwf.cap_pos
  obtain ⟨tbl', hfold, htwf2, hcF2, hcT2, hmod2⟩ :=
    rehash_fold hash m.cap hwf.twf.pow2 hc m.table
      (List.replicate m.cap (Entry.mk 0 default EState.Empty), 0)
      (fun _ => none)
      (TableWF_replicate_empty hash m.cap hwf.twf.pow2 0 default)
      (by rw [countState_replicate]; simp)
      (by rw [countState_replicate]; simp)
      (models_replicate_empty _ _ _)
      (by
        have h1 := hwf.small
        have h2 := hwf.sizeEq
        simp only
        omega)
      (fun e hm hf => rfl)
      hwf.twf.nodup
  simp only [Nat.zero_add] at hfold hcF2 hmod2
  have hmod2' : Models tbl' g := by
    refine models_congr ?_ hmod2
    intro k
    show listFilledVal m.table k = g k
    exact listFilledVal_eq_of_models hwf.twf.nodup hmod k
  have hres : m.rehash_same_capacity hash =
      (if countState EState.Filled m.table * 10 ≥ m.cap * 8 then .error ()
       else .ok (FlatHashMap.mk m.allow_grow
         (countState EState.Filled m.table) 0 tbl')) := by
    simp only [FlatHashMap.rehash_same_capacity, hfold, hag,
      Bool.false_eq_true, if_false, Nat.add_zero]
  constructor
  · intro hge
    rw [hres, if_pos hge]
  · intro hlt
    rw [hres, if_neg (by omega)]
    have hcap' : (FlatHashMap.mk m.allow_grow
        (countState EState.Filled m.table) 0 tbl').cap = m.cap := htwf2.len
    refine ⟨_, rfl, ⟨?_, hmod2', hag⟩, hcap', rfl, rfl, ?_⟩
    · constructor
      · show TableWF hash tbl' _
        rw [hcap']
        exact htwf2
      · show 8 ≤ _
        rw [hcap']
        exact hwf.cap8
      · exact hcF2.symm
      · exact hcT2.symm
      · show countState EState.Filled m.table + 0 < _
        rw [hcap']
        omega
    · have := hwf.sizeEq
      simp only
      omega

theorem maybe_compact_rep [Inhabited V] (hash : Nat → Nat) (m : FlatHashMap V)
    {g : Nat → Option V} (hrep : REP hash m g) :
    m.maybe_compact_for_tombs hash = .error () ∨
    ∃ m1, m.maybe_compact_for_tombs hash = .ok m1 ∧ REP hash m1 g ∧
      m1.cap = m.cap ∧ m1.size + m1.tombs ≤ m.size + m.tombs := by
  unfold FlatHashMap.maybe_compact_for_tombs
  by_cases h0 : m.tombs = 0
  · rw [if_pos h0]
    exact Or.inr ⟨m, rfl, hrep, rfl, le_refl _⟩
  · rw [if_neg h0]
    by_cases htr : m.tombs > m.cap / 4 ∨ (m.size + m.tombs) * 10 ≥ m.cap * 7
    · rw [if_pos htr]
      have hreh := rehash_rep hash m hrep
      by_cases hge : countState EState.Filled m.table * 10 ≥ m.cap * 8
      · exact Or.inl (hreh.1 hge)
      · obtain ⟨m', hok, hrep', hcap', _, _, hle⟩ := hreh.2 (by omega)
        exact Or.inr ⟨m', hok, hrep', hcap', hle⟩
    · rw [if_neg htr]
      exact Or.inr ⟨m, rfl, hrep, rfl, le_refl _⟩

theorem checkCap_rep [Inhabited V] (hash : Nat → Nat) (m : FlatHashMap V)
    {g : Nat → Option V} (hrep : REP hash m g) :
    m.checkCap hash = .error () ∨
    ∃ m1, m.checkCap hash = .ok m1 ∧ REP hash m1 g ∧ m1.cap = m.cap ∧
      (m1.size + m1.tombs) * 10 < m1.cap * 8 := by
  unfold FlatHashMap.checkCap
  rw [hrep.nogrow]
  simp only [Bool.false_eq_true, if_false]
  rcases maybe_compact_rep hash m hrep with herr | ⟨m1, hok, hrep1, hcap1, _⟩
  · rw [herr]
    exact Or.inl rfl
  · rw [hok]
    by_cases hth : (m1.size + m1.tombs) * 10 ≥ m1.cap * 8
    · refine Or.inl ?_
      show (if (m1.size + m1.tombs) * 10 ≥ m1.cap * 8 then Except.error ()
        else (Except.ok m1 : Except Unit (FlatHashMap V))) = Except.error ()
      rw [if_pos hth]
    · refine Or.inr ⟨m1, ?_, hrep1, hcap1, by omega⟩
      show (if (m1.size + m1.tombs) * 10 ≥ m1.cap * 8 then Except.error ()
        else (Except.ok m1 : Except Unit (FlatHashMap V))) = Except.ok m1
      rw [if_neg hth]

theorem emplace_eq_of_checkCap (hash : Nat → Nat) [Inhabited V]
    (m m1 : FlatHashMap V) (k : Nat) (v : V)
    (hcc : m.checkCap hash = .ok m1) :
    m.emplace_impl hash k v =
      (match probeIns m1.table m1.cap k (maskIdx m1.cap (hash k)) none m1.cap with
       | none => .error ()
       | some (.dup _) => .ok (m1, false)
       | some (.place i usedTomb) =>
         .ok (FlatHashMap.mk m1.allow_grow (m1.size + 1)
           (if usedTomb then m1.tombs - 1 else m1.tombs)
           (m1.table.set i (Entry.mk k v EState.Filled)), true)) := by
  unfold FlatHashMap.emplace_impl
  rw [hcc]
  rfl

theorem foi_eq_of_checkCap (hash : Nat → Nat) [Inhabited V]
    (m m1 : FlatHashMap V) (k : Nat) (v : V)
    (hcc : m.checkCap hash = .ok m1) :
    m.find_or_insert_impl hash k v =
      (match probeIns m1.table m1.cap k (maskIdx m1.cap (hash k)) none m1.cap with
       | none => .error ()
       | some (.dup i) => .ok (m1, (m1.table[i]?.map Entry.value).getD v)
       | some (.place i usedTomb) =>
         .ok (FlatHashMap.mk m1.allow_grow (m1.size + 1)
           (if usedTomb then m1.tombs - 1 else m1.tombs)
           (m1.table.set i (Entry.mk k v EState.Filled)), v)) := by
  unfold FlatHashMap.find_or_insert_impl
  rw [hcc]
  rfl

theorem hasKey_value_of_models {tbl : List (Entry V)} {g : Nat → Option V}
    (hm : Models tbl g) {k : Nat} (hk : hasKey tbl k) :
    ∃ w, g k = some w := by
  rcases hm k with ⟨_, hnk⟩ | ⟨i, e, he, hf, hke, hg⟩
  · exact absurd hk hnk
  · exact ⟨e.value, hg⟩

theorem emplace_rep [Inhabited V] (hash : Nat → Nat) (m : FlatHashMap V)
    {g : Nat → Option V} (hrep : REP hash m g) (k : Nat) (v : V) :
    m.emplace_impl hash k v = .error () ∨
    ∃ m' b, m.emplace_impl hash k v = .ok (m', b) ∧
      REP hash m' (fun j => if j = k then some ((g k).getD v) else g j) ∧
      m'.cap = m.cap := by
  rcases checkCap_rep hash m hrep with herr | ⟨m1, hcc, hrep1, hcap1, hth⟩
  · refine Or.inl ?_
    unfold FlatHashMap.emplace_impl
    rw [herr]
    rfl
  · have heq := emplace_eq_of_checkCap hash m m1 k v hcc
    by_cases hk : hasKey m1.table k
    · obtain ⟨i, e, he, hf, hke⟩ := hk
      rw [heq, probeIns_dup hash m1 hrep1.wf ⟨e, he, hf, hke⟩]
      refine Or.inr ⟨m1, false, rfl, ⟨hrep1.wf, ?_, hrep1.nogrow⟩, hcap1⟩
      obtain ⟨w, hw⟩ := hasKey_value_of_models hrep1.models ⟨i, e, he, hf, hke⟩
      refine models_congr ?_ hrep1.models
      intro j
      by_cases hj : j = k
      · subst hj
        rw [if_pos rfl, hw]
        rfl
      · rw [if_neg hj]
    · obtain ⟨p, usedTomb, ep, hpi, hpc, hp, hpstate, hpath⟩ :=
        probeIns_fresh hash m1 hrep1.wf hk
      rw [heq, hpi]
      have hgk : g k = none := models_none_of_not_hasKey hrep1.models hk
      have hsf : ep.state ≠ EState.Filled := by
        cases usedTomb
        · have h2 : ep.state = EState.Empty := by simpa using hpstate
          rw [h2]; decide
        · have h2 : ep.state = EState.Tomb := by simpa using hpstate
          rw [h2]; decide
      have hplt : p < m1.table.length := (List.getElem?_eq_some.1 hp).1
      have hcF' := countState_set hp (Entry.mk k v EState.Filled) EState.Filled
      rw [if_neg hsf, if_pos (by simp)] at hcF'
      have hcap' : (FlatHashMap.mk m1.allow_grow (m1.size + 1)
          (if usedTomb then m1.tombs - 1 else m1.tombs)
          (m1.table.set p (Entry.mk k v EState.Filled))).cap = m1.cap := by
        show (m1.table.set p (Entry.mk k v EState.Filled)).length = m1.cap
        rw [List.length_set]
        exact hrep1.wf.twf.len
      have htwf' := TableWF_insertFresh hash hrep1.wf.twf v hp hsf hk hpath
      have hmod' := models_insertFresh hrep1.wf.twf.nodup hrep1.models v hp
        hsf hk
      refine Or.inr ⟨_, true, rfl, ⟨⟨?_, ?_, ?_, ?_, ?_⟩, ?_, hrep1.nogrow⟩,
        by rw [hcap', hcap1]⟩
      · show TableWF hash (m1.table.set p (Entry.mk k v EState.Filled)) _
        rw [hcap']
        exact htwf'
      · show 8 ≤ _
        rw [hcap']
        exact hrep1.wf.cap8
      · show m1.size + 1 = _
        rw [hcF']
        have := hrep1.wf.sizeEq
        omega
      · show (if usedTomb then m1.tombs - 1 else m1.tombs) = _
        cases usedTomb
        · have hEp : ep.state = EState.Empty := by simpa using hpstate
          have h1 := countState_set hp (Entry.mk k v EState.Filled) EState.Tomb
          rw [if_neg (by rw [hEp]; decide), if_neg (by simp)] at h1
          simp only [Bool.false_eq_true, if_false]
          rw [h1]
          have := hrep1.wf.tombsEq
          omega
        · have hEp : ep.state = EState.Tomb := by simpa using hpstate
          have h1 := countState_set hp (Entry.mk k v EState.Filled) EState.Tomb
          rw [if_pos hEp, if_neg (by simp)] at h1
          simp only [if_true]
          rw [h1]
          have hTpos : 0 < countState EState.Tomb m1.table :=
            countState_pos hp _ hEp
          have := hrep1.wf.tombsEq
          omega
      · show m1.size + 1 + (if usedTomb then m1.tombs - 1 else m1.tombs) < _
        rw [hcap']
        have := hrep1.wf.cap8
        cases usedTomb <;>
          simp only [if_true, Bool.false_eq_true, if_false] <;> omega
      · refine models_congr ?_ hmod'
        intro j
        by_cases hj : j = k
        · subst hj
          rw [if_pos rfl, if_pos rfl, hgk]
          rfl
        · rw [if_neg hj, if_neg hj]

theorem find_or_insert_state (hash : Nat → Nat) [Inhabited V]
    (m : FlatHashMap V) (k : Nat) (v : V) :
    (m.find_or_insert_impl hash k v).map Prod.fst =
      (m.emplace_impl hash k v).map Prod.fst := by
  cases hcc : m.checkCap hash with
  | error err =>
    have h1 : m.find_or_insert_impl hash k v = .error err := by
      unfold FlatHashMap.find_or_insert_impl
      rw [hcc]
      rfl
    have h2 : m.emplace_impl hash k v = .error err := by
      unfold FlatHashMap.emplace_impl
      rw [hcc]
      rfl
    rw [h1, h2]
    rfl
  | ok m1 =>
    rw [foi_eq_of_checkCap hash m m1 k v hcc,
      emplace_eq_of_checkCap hash m m1 k v hcc]
    cases hpi : probeIns m1.table m1.cap k (maskIdx m1.cap (hash k)) none
        m1.cap with
    | none => rfl
    | some r =>
      cases r with
      | dup i => rfl
      | place i usedTomb => rfl

/-- C9 ingredient: the insertion probe loop never exhausts its fuel
under the invariant. -/
theorem probeIns_terminates (hash : Nat → Nat) (m : FlatHashMap V)
    (hwf : WF hash m) (k : Nat) :
    probeIns m.table m.cap k (maskIdx m.cap (hash k)) none m.cap ≠ none := by
  by_cases hk : hasKey m.table k
  · obtain ⟨i, hi⟩ := hk
    rw [probeIns_dup hash m hwf hi]
    exact Option.noConfusion
  · obtain ⟨p, usedTomb, ep, hpi, _, _, _, _⟩ := probeIns_fresh hash m hwf hk
    rw [hpi]
    exact Option.noConfusion

theorem mkFlatHashMap_rep (hash : Nat → Nat) [Inhabited V] {c : Nat}
    (hpow : ∃ n, c = 2 ^ n) (hc8 : 8 ≤ c) :
    REP hash (mkFlatHashMap V c false) (fun _ => none) := by
  have hcap : (mkFlatHashMap V c false).cap = c := by
    show (List.replicate c _).length = c
    rw [List.length_replicate]
  refine ⟨⟨?_, ?_, ?_, ?_, ?_⟩, ?_, rfl⟩
  · show TableWF hash (List.replicate c (Entry.mk 0 default EState.Empty)) _
    rw [hcap]
    exact TableWF_replicate_empty hash c hpow 0 default
  · show 8 ≤ _
    rw [hcap]
    exact hc8
  · show 0 = countState EState.Filled
        (List.replicate c (Entry.mk 0 default EState.Empty))
    rw [countState_replicate]
    simp
  · show 0 = countState EState.Tomb
        (List.replicate c (Entry.mk 0 default EState.Empty))
    rw [countState_replicate]
    simp
  · show 0 + 0 < _
    rw [hcap]
    omega
  · exact models_replicate_empty c 0 default

theorem applyMapOp_rep [Inhabited V] (hash : Nat → Nat) (m : FlatHashMap V)
    {g : Nat → Option V} (hrep : REP hash m g) (op : MapOp V) :
    applyMapOp hash m op = .error () ∨
    ∃ m', applyMapOp hash m op = .ok m' ∧ REP hash m' (ghostStep g op) ∧
      m'.cap = m.cap := by
  cases op with
  | ins k v =>
    rcases emplace_rep hash m hrep k v with herr | ⟨m', b, hok, hrep', hcap'⟩
    · refine Or.inl ?_
      show (m.emplace_impl hash k v).map Prod.fst = _
      rw [herr]
      rfl
    · refine Or.inr ⟨m', ?_, hrep', hcap'⟩
      show (m.emplace_impl hash k v).map Prod.fst = _
      rw [hok]
      rfl
  | findOrIns k v =>
    rcases emplace_rep hash m hrep k v with herr | ⟨m', b, hok, hrep', hcap'⟩
    · refine Or.inl ?_
      show (m.find_or_insert_impl hash k v).map Prod.fst = _
      rw [find_or_insert_state, herr]
      rfl
    · refine Or.inr ⟨m', ?_, hrep', hcap'⟩
      show (m.find_or_insert_impl hash k v).map Prod.fst = _
      rw [find_or_insert_state, hok]
      rfl
  | del k =>
    obtain ⟨hrep', hcap', _⟩ := erase_rep hash m hrep k
    exact Or.inr ⟨(m.erase hash k).1, rfl, hrep', hcap'⟩

/-- The growth-disabled flat hash map, run through any successful
sequence of operations, agrees with the functional map semantics. -/
theorem runMapOps_rep [Inhabited V] (hash : Nat → Nat)
    (ops : List (MapOp V)) :
    ∀ (m : FlatHashMap V) (g : Nat → Option V), REP hash m g →
    ∀ m', runMapOps hash m ops = some m' →
      REP hash m' (ghostRun g ops) ∧ m'.cap = m.cap := by
  induction ops with
  | nil =>
    intro m g hrep m' h
    unfold runMapOps at h
    injection h with h
    subst h
    exact ⟨hrep, rfl⟩
  | cons op ops ih =>
    intro m g hrep m' h
    unfold runMapOps at h
    rcases applyMapOp_rep hash m hrep op with herr | ⟨m1, hok, hrep1, hcap1⟩
    · rw [herr] at h
      exact Option.noConfusion h
    · rw [hok] at h
      obtain ⟨hrep', hcap'⟩ := ih m1 _ hrep1 m' h
      exact ⟨hrep', by rw [hcap', hcap1]⟩

/--
C3: for every sequence of FlatHashMap insert / find_or_insert / erase
operations that stays below the capacity threshold (i.e. completes
without `die_capacity`), the map never loses a live key and never
reports a phantom key: `find` agrees pointwise with the functional
association-map semantics `ghostRun` (insert-if-absent, erase removes);
in particular immediately after `erase k`, `find k` misses.
-/
theorem fhm_find_agrees_with_ghost (V : Type) [Inhabited V]
    (hash : Nat → Nat) (n : Nat) (ops : List (MapOp V)) (k : Nat) :
    match runMapOps hash (mkFlatHashMap V (2 ^ (n + 3)) false) ops with
    | some m => m.findVal hash k = ghostRun (fun _ => none) ops k
    | none => True := by
  cases h : runMapOps hash (mkFlatHashMap V (2 ^ (n + 3)) false) ops with
  | none => trivial
  | some m =>
    have hc8 : 8 ≤ 2 ^ (n + 3) := by
      have : (2 : Nat) ^ 3 ≤ 2 ^ (n + 3) :=
        Nat.pow_le_pow_right (by omega) (by omega)
      omega
    have hrep0 : REP hash (mkFlatHashMap V (2 ^ (n + 3)) false)
        (fun _ => none) := mkFlatHashMap_rep hash ⟨n + 3, rfl⟩ hc8
    obtain ⟨hrep, _⟩ := runMapOps_rep hash ops _ _ hrep0 m h
    exact findVal_models hash m hrep.wf hrep.models k

/--
C9: in every FlatHashMap built with allow_grow = false on a power-of-two
capacity ≥ 8, after every successful insert, find_or_insert and erase the
invariant `size + tombs < capacity` holds, the capacity is unchanged, the
table contains an Empty slot, and both linear-probe loops (`find_index`
and the insertion probe) terminate — their capacity fuel is never
exhausted.
-/
theorem fhm_size_tombs_invariant_and_termination (V : Type) [Inhabited V]
    (hash : Nat → Nat) (n : Nat) (ops : List (MapOp V)) :
    match runMapOps hash (mkFlatHashMap V (2 ^ (n + 3)) false) ops with
    | some m =>
        m.size + m.tombs < m.cap ∧ m.cap = 2 ^ (n + 3) ∧
        (∃ i : Nat, ∃ e : Entry V, m.table[i]? = some e ∧
          e.state = EState.Empty) ∧
        (∀ k, probeFind m.table m.cap k (maskIdx m.cap (hash k)) m.cap ≠
          none) ∧
        (∀ k, probeIns m.table m.cap k (maskIdx m.cap (hash k)) none m.cap ≠
          none)
    | none => True := by
  cases h : runMapOps hash (mkFlatHashMap V (2 ^ (n + 3)) false) ops with
  | none => trivial
  | some m =>
    have hc8 : 8 ≤ 2 ^ (n + 3) := by
      have : (2 : Nat) ^ 3 ≤ 2 ^ (n + 3) :=
        Nat.pow_le_pow_right (by omega) (by omega)
      omega
    have hrep0 : REP hash (mkFlatHashMap V (2 ^ (n + 3)) false)
        (fun _ => none) := mkFlatHashMap_rep hash ⟨n + 3, rfl⟩ hc8
    obtain ⟨hrep, hcap⟩ := runMapOps_rep hash ops _ _ hrep0 m h
    have hcap0 : (mkFlatHashMap V (2 ^ (n + 3)) false).cap = 2 ^ (n + 3) := by
      show (List.replicate _ _).length = _
      rw [List.length_replicate]
    refine ⟨hrep.wf.small, by rw [hcap, hcap0], ?_, ?_, ?_⟩
    · exact exists_empty_slot hrep.wf.countEmpty_pos
    · exact fun k => probeFind_terminates hash m hrep.wf k
    · exact fun k => probeIns_terminates hash m hrep.wf k

/--
C4: tombstone compaction with growth disabled.  `maybe_compact_for_tombs`
rehashes at the same capacity exactly when the table holds a tombstone and
`tombs > cap/4` or `10·(size + tombs) ≥ 7·cap`; the rehash reinserts
exactly the Filled entries (size becomes the Filled count, tombs becomes
0, the capacity and the looked-up content are unchanged), and it fails
fatally precisely when `10·(size + tombs) ≥ 8·cap` still holds after
compaction (i.e. `10·#Filled ≥ 8·cap`).
-/
theorem fhm_tombstone_compaction_spec (V : Type) [Inhabited V]
    (hash : Nat → Nat) (m : FlatHashMap V) (g : Nat → Option V)
    (hrep : REP hash m g) :
    (m.maybe_compact_for_tombs hash =
      if m.tombs ≠ 0 ∧
          (m.tombs > m.cap / 4 ∨ (m.size + m.tombs) * 10 ≥ m.cap * 7)
      then m.rehash_same_capacity hash else .ok m) ∧
    (countState EState.Filled m.table * 10 < m.cap * 8 →
      ∃ m', m.rehash_same_capacity hash = .ok m' ∧
        m'.cap = m.cap ∧ m'.tombs = 0 ∧
        m'.size = countState EState.Filled m.table ∧
        (∀ k, m'.findVal hash k = m.findVal hash k)) ∧
    (countState EState.Filled m.table * 10 ≥ m.cap * 8 →
      m.rehash_same_capacity hash = .error ()) := by
  have hreh := rehash_rep hash m hrep
  refine ⟨?_, ?_, hreh.1⟩
  · unfold FlatHashMap.maybe_compact_for_tombs
    by_cases h0 : m.tombs = 0
    · rw [if_pos h0, if_neg (by simp [h0])]
    · rw [if_neg h0]
      by_cases htr : m.tombs > m.cap / 4 ∨ (m.size + m.tombs) * 10 ≥ m.cap * 7
      · rw [if_pos htr, if_pos ⟨h0, htr⟩]
      · rw [if_neg htr, if_neg (by
          intro hcontra
          exact htr hcontra.2)]
  · intro hlt
    obtain ⟨m', hok, hrep', hcap', htombs', hsize', _⟩ := hreh.2 (by omega)
    refine ⟨m', hok, hcap', htombs', hsize', ?_⟩
    intro k
    rw [findVal_models hash m' hrep'.wf hrep'.models k,
      findVal_models hash m hrep.wf hrep.models k]

/-- Witness for C4 at a concrete state: the fresh capacity-8 map. -/
theorem fhm_tombstone_compaction_spec_witness :
    REP fhHash64 (mkFlatHashMap Nat 8 false) (fun _ => none) ∧
    (((mkFlatHashMap Nat 8 false).maybe_compact_for_tombs fhHash64 =
      if (mkFlatHashMap Nat 8 false).tombs ≠ 0 ∧
          ((mkFlatHashMap Nat 8 false).tombs >
            (mkFlatHashMap Nat 8 false).cap / 4 ∨
           ((mkFlatHashMap Nat 8 false).size +
            (mkFlatHashMap Nat 8 false).tombs) * 10 ≥
            (mkFlatHashMap Nat 8 false).cap * 7)
      then (mkFlatHashMap Nat 8 false).rehash_same_capacity fhHash64
      else .ok (mkFlatHashMap Nat 8 false)) ∧
    (countState EState.Filled (mkFlatHashMap Nat 8 false).table * 10 <
        (mkFlatHashMap Nat 8 false).cap * 8 →
      ∃ m', (mkFlatHashMap Nat 8 false).rehash_same_capacity fhHash64 =
          .ok m' ∧
        m'.cap = (mkFlatHashMap Nat 8 false).cap ∧ m'.tombs = 0 ∧
        m'.size = countState EState.Filled (mkFlatHashMap Nat 8 false).table ∧
        (∀ k, m'.findVal fhHash64 k =
          (mkFlatHashMap Nat 8 false).findVal fhHash64 k)) ∧
    (countState EState.Filled (mkFlatHashMap Nat 8 false).table * 10 ≥
        (mkFlatHashMap Nat 8 false).cap * 8 →
      (mkFlatHashMap Nat 8 false).rehash_same_capacity fhHash64 =
        .error ())) :=
  ⟨mkFlatHashMap_rep fhHash64 ⟨3, rfl⟩ (by decide),
   fhm_tombstone_compaction_spec Nat fhHash64 (mkFlatHashMap Nat 8 false)
     (fun _ => none) (mkFlatHashMap_rep fhHash64 ⟨3, rfl⟩ (by decide))⟩

/-! ## Section 4: the tick-quantized limit order book
(src/order_book.cpp, include/msim/order_book.hpp).

Prices (`double` in C++) are modelled as rationals: every price taking
part in the verified scenarios is exactly representable in binary64 and
the involved products/divisions are exact, so the rational model agrees
with the C++ arithmetic there.  `price_to_tick` follows `llround`
(round half away from zero).

The `bid_levels_`/`ask_levels_` and `index_` members are fixed-capacity
`FlatHashMap`s; Section 3 proves that under their capacity they behave
exactly as association maps, so the book model uses functional maps
(`Int → Option Level`, `Nat → Option OrderRef`) below those capacities.
A `FlatHashMap::insert` that would return `false` (duplicate key) makes
the C++ book `std::abort`; that is the `.error` outcome of `add_order`.
The per-side members are packaged as `SideBook` (`sides .BUY` holds
`bid_levels_`/`bid_ticks_`/`best_bid_tick_`, `sides .SELL` the ask
members); the recurring C++ pattern `side == BUY ? bid_x : ask_x` is
`(sides side).x`.  Pooled `Level`s are reset on reuse, so the free list
is observable only through its length (`free_levels`). -/

inductive Side
  | BUY
  | SELL
deriving DecidableEq

def Side.opp : Side → Side
  | .BUY => .SELL
  | .SELL => .BUY

structure Order where
  id : Nat
  price : ℚ
  qty : Int
  side : Side
  ts_ns : Nat
deriving DecidableEq

structure OrderRef where
  side : Side
  tick : Int
deriving DecidableEq

structure Level where
  tick : Int
  q : List Order
deriving DecidableEq

structure SideBook where
  levels : Int → Option Level
  ticks : List Int
  bestTick : Option Int

structure OrderBook where
  sides : Side → SideBook
  index : Nat → Option OrderRef
  free_levels : Nat
  tick_size : ℚ
  inv_tick : ℚ

/-- The constructor; `tick_size ≤ 0` aborts (`!(tick_size_ > 0.0)`),
modelled as `none`. -/
def mkOrderBook (tick_size : ℚ) : Option OrderBook :=
  if tick_size > 0 then
    some { sides := fun _ => { levels := fun _ => none, ticks := [],
                               bestTick := none },
           index := fun _ => none, free_levels := 0,
           tick_size := tick_size, inv_tick := 1 / tick_size }
  else none

/-- C `llround`: round to nearest, halfway cases away from zero. -/
def llround (x : ℚ) : Int := if 0 ≤ x then ⌊x + 1 / 2⌋ else ⌈x - 1 / 2⌉

def OrderBook.price_to_tick (bk : OrderBook) (px : ℚ) : Int :=
  llround (px * bk.inv_tick)

def OrderBook.tick_to_price (bk : OrderBook) (t : Int) : ℚ :=
  t * bk.tick_size

def OrderBook.best_bid (bk : OrderBook) : Option ℚ :=
  (bk.sides .BUY).bestTick.map bk.tick_to_price

def OrderBook.best_ask (bk : OrderBook) : Option ℚ :=
  (bk.sides .SELL).bestTick.map bk.tick_to_price

/-- Update one side's sub-book. -/
def updSide (s : Side) (f : SideBook → SideBook) (bk : OrderBook) :
    OrderBook :=
  { bk with sides := fun s' => if s' = s then f (bk.sides s) else bk.sides s' }

def setLevel (s : Side) (t : Int) (l : Option Level) (bk : OrderBook) :
    OrderBook :=
  updSide s (fun sb =>
    { sb with levels := fun x => if x = t then l else sb.levels x }) bk

/-- `tick > *best` for bids, `tick < *best` for asks. -/
def tickBeats : Side → Int → Int → Bool
  | .BUY, t, b => t > b
  | .SELL, t, b => t < b

/-- `OrderBook::add_active_tick`: push the tick and refresh the cached
best incrementally. -/
def addActiveTick (s : Side) (t : Int) (bk : OrderBook) : OrderBook :=
  updSide s (fun sb =>
    { sb with
      ticks := sb.ticks ++ [t],
      bestTick := match sb.bestTick with
        | none => some t
        | some b => if tickBeats s t b then some t else some b }) bk

/-- `OrderBook::remove_active_tick`: find the first occurrence, overwrite
it with the last element and pop the back. -/
def swapRemoveFirst (v : List Int) (t : Int) : List Int :=
  match v.findIdx? (fun x => x == t) with
  | none => v
  | some i => (v.set i (v.getLastD 0)).dropLast

def removeActiveTick (s : Side) (t : Int) (bk : OrderBook) : OrderBook :=
  updSide s (fun sb => { sb with ticks := swapRemoveFirst sb.ticks t }) bk

/-- `OrderBook::recompute_best`: linear scan of the active ticks. -/
def recomputeBest (s : Side) (bk : OrderBook) : OrderBook :=
  updSide s (fun sb =>
    { sb with bestTick := match sb.ticks with
      | [] => none
      | b :: rest =>
        some (rest.foldl (fun acc x => if tickBeats s x acc then x else acc)
          b) }) bk

/-- `OrderBook::remove_level_if_empty`. -/
def removeLevelIfEmpty (s : Side) (t : Int) (bk : OrderBook) : OrderBook :=
  match (bk.sides s).levels t with
  | none => bk
  | some lvl =>
    if lvl.q = [] then
      let bk1 := setLevel s t none bk
      let bk2 := removeActiveTick s t bk1
      let bk3 := if (bk2.sides s).bestTick = some t then recomputeBest s bk2
                 else bk2
      { bk3 with free_levels := bk3.free_levels + 1 }
    else bk

/-- `OrderBook::get_or_create_level`.  A pooled level is reset on reuse,
so both allocation paths produce the fresh level `{tick := t, q := []}`;
the `bid/ask_levels_.insert` cannot return false here because the lookup
just missed (the C++ aborts on that impossible path). -/
def getOrCreateLevel (s : Side) (t : Int) (bk : OrderBook) :
    OrderBook × Level :=
  match (bk.sides s).levels t with
  | some lvl => (bk, lvl)
  | none =>
    let lvl : Level := { tick := t, q := [] }
    let bk1 := if bk.free_levels > 0 then
        { bk with free_levels := bk.free_levels - 1 } else bk
    let bk2 := setLevel s t (some lvl) bk1
    (addActiveTick s t bk2, lvl)

def eraseIndex (idx : Nat → Option OrderRef) (oid : Nat) :
    Nat → Option OrderRef :=
  fun j => if j = oid then none else idx j

def insertIndex (idx : Nat → Option OrderRef) (oid : Nat) (r : OrderRef) :
    Nat → Option OrderRef :=
  fun j => if j = oid then some r else idx j

structure ConsumeResult where
  q : List Order
  remaining : Int
  tp : Option ℚ
  index : Nat → Option OrderRef

/-- The inner fill loop of `add_order`: consume the front of the best
opposite level's FIFO while quantity remains; `trade_price` is written on
every fill (`tp`), a fully filled resting order is erased from the index
and popped. -/
def consumeQueue (idx : Nat → Option OrderRef) :
    List Order → Int → Option ℚ → ConsumeResult
  | [], remaining, tp => ⟨[], remaining, tp, idx⟩
  | top :: rest, remaining, tp =>
    if remaining > 0 then
      let traded := min remaining top.qty
      let remaining' := remaining - traded
      let tp' := some top.price
      if top.qty - traded = 0 then
        consumeQueue (eraseIndex idx top.id) rest remaining' tp'
      else
        ⟨{ top with qty := top.qty - traded } :: rest, remaining', tp', idx⟩
    else ⟨top :: rest, remaining, tp, idx⟩

/-- `best_ask_tick <= tick` for an incoming buy, `best_bid_tick >= tick`
for an incoming sell. -/
def crossesb : Side → Int → Int → Bool
  | .BUY, bt, tick => bt ≤ tick
  | .SELL, bt, tick => bt ≥ tick

/-- The outer matching loop of `add_order` over the opposite side's best
levels.  The C++ `while` terminates from exactly the states where the
fuel `|opposite active ticks| + 1` suffices (each productive iteration
with remaining quantity drains and removes one level); the missing-level
branch mirrors the defensive `recompute_best; continue`. -/
def matchLoop (s : Side) :
    Nat → OrderBook → Int → Int → Option ℚ → OrderBook × Int × Option ℚ
  | 0, bk, remaining, _, tp => (bk, remaining, tp)
  | fuel + 1, bk, remaining, tick, tp =>
    match (bk.sides s.opp).bestTick with
    | none => (bk, remaining, tp)
    | some bt =>
      if remaining > 0 ∧ crossesb s bt tick then
        match (bk.sides s.opp).levels bt with
        | none => matchLoop s fuel (recomputeBest s.opp bk) remaining tick tp
        | some lvl =>
          let r := consumeQueue bk.index lvl.q remaining tp
          let bk1 := setLevel s.opp bt (some { lvl with q := r.q })
            { bk with index := r.index }
          let bk2 := removeLevelIfEmpty s.opp bt bk1
          matchLoop s fuel bk2 r.remaining tick r.tp
      else (bk, remaining, tp)

/-- `OrderBook::add_order`.  Returns the matched quantity and the final
`trade_price` write (`none` when no fill happened, i.e. the C++ output
variable is untouched); `.error` is the `std::abort` on a duplicate
resting id (`index_.insert` returning false). -/
def OrderBook.add_order (bk : OrderBook) (o : Order) :
    Except Unit (OrderBook × Int × Option ℚ) :=
  let tick := bk.price_to_tick o.price
  let snapped := bk.tick_to_price tick
  let fuel := (bk.sides o.side.opp).ticks.length + 1
  let r := matchLoop o.side fuel bk o.qty tick none
  let bk1 := r.1
  let remaining := r.2.1
  let tp := r.2.2
  if remaining > 0 then
    let gl := getOrCreateLevel o.side tick bk1
    let bk2 := gl.1
    let lvl := gl.2
    let rest : Order := { o with qty := remaining, price := snapped }
    let bk3 := setLevel o.side tick (some { lvl with q := lvl.q ++ [rest] })
      bk2
    if (bk3.index rest.id).isSome then .error ()
    else .ok ({ bk3 with index := insertIndex bk3.index rest.id ⟨o.side, tick⟩ },
      o.qty - remaining, tp)
  else .ok (bk1, o.qty - remaining, tp)

def eraseFirstById : List Order → Nat → List Order
  | [], _ => []
  | o :: rest, oid => if o.id = oid then rest else o :: eraseFirstById rest oid

/-- `OrderBook::cancel_order`. -/
def OrderBook.cancel_order (bk : OrderBook) (oid : Nat) : OrderBook × Bool :=
  match bk.index oid with
  | none => (bk, false)
  | some ref =>
    match (bk.sides ref.side).levels ref.tick with
    | none => ({ bk with index := eraseIndex bk.index oid }, false)
    | some lvl =>
      if lvl.q.any (fun o => o.id == oid) then
        let bk1 := setLevel ref.side ref.tick
          (some { lvl with q := eraseFirstById lvl.q oid }) bk
        let bk2 := { bk1 with index := eraseIndex bk1.index oid }
        (removeLevelIfEmpty ref.side ref.tick bk2, true)
      else ({ bk with index := eraseIndex bk.index oid }, false)

/-- A public call on the book: abort (duplicate-id insert) yields `none`. -/
inductive BookOp
  | add (o : Order)
  | cancel (oid : Nat)

def stepBookOp (bk : OrderBook) : BookOp → Option OrderBook
  | .add o =>
    match bk.add_order o with
    | .ok r => some r.1
    | .error _ => none
  | .cancel oid => some (bk.cancel_order oid).1

/-- States after each successful call, cut at the first abort. -/
def runBook (bk : OrderBook) : List BookOp → List OrderBook
  | [] => []
  | op :: ops =>
    match stepBookOp bk op with
    | none => []
    | some bk1 => bk1 :: runBook bk1 ops

/-- I4: whenever both cached best ticks exist, the bid is strictly below
the ask. -/
def Uncrossed (bk : OrderBook) : Prop :=
  match (bk.sides .BUY).bestTick, (bk.sides .SELL).bestTick with
  | some b, some a => b < a
  | _, _ => True

/-- Every state along the trace is uncrossed, in ticks and in prices. -/
def traceUncrossed (bk : OrderBook) (ops : List BookOp) : Prop :=
  ∀ st ∈ runBook bk ops, Uncrossed st ∧
    ∀ pb pa, st.best_bid = some pb → st.best_ask = some pa → pb < pa

/-- The freshly constructed book body (the `then`-branch of the ctor). -/
def emptyBook (ts : ℚ) : OrderBook :=
  { sides := fun _ => { levels := fun _ => none, ticks := [],
                        bestTick := none },
    index := fun _ => none, free_levels := 0,
    tick_size := ts, inv_tick := 1 / ts }

theorem mkOrderBook_eq (ts : ℚ) :
    mkOrderBook ts = if ts > 0 then some (emptyBook ts) else none := rfl

/-! ### Side algebra and projection lemmas -/

theorem Side.opp_ne (s : Side) : s.opp ≠ s := by cases s <;> simp [Side.opp]

theorem sides_updSide (s : Side) (f : SideBook → SideBook) (bk : OrderBook)
    (s' : Side) :
    (updSide s f bk).sides s' =
      if s' = s then f (bk.sides s) else bk.sides s' := rfl

theorem sides_updSide_same (s : Side) (f : SideBook → SideBook)
    (bk : OrderBook) : (updSide s f bk).sides s = f (bk.sides s) := by
  rw [sides_updSide, if_pos rfl]

theorem sides_updSide_other (s : Side) (f : SideBook → SideBook)
    (bk : OrderBook) (s' : Side) (h : s' ≠ s) :
    (updSide s f bk).sides s' = bk.sides s' := by
  rw [sides_updSide, if_neg h]

theorem index_updSide (s : Side) (f : SideBook → SideBook) (bk : OrderBook) :
    (updSide s f bk).index = bk.index := rfl

theorem tick_size_updSide (s : Side) (f : SideBook → SideBook)
    (bk : OrderBook) : (updSide s f bk).tick_size = bk.tick_size := rfl

theorem setLevel_sides_same_levels (s : Side) (t : Int) (l : Option Level)
    (bk : OrderBook) :
    ((setLevel s t l bk).sides s).levels =
      fun x => if x = t then l else (bk.sides s).levels x := by
  rw [setLevel, sides_updSide_same]

theorem setLevel_sides_same_ticks (s : Side) (t : Int) (l : Option Level)
    (bk : OrderBook) :
    ((setLevel s t l bk).sides s).ticks = (bk.sides s).ticks := by
  rw [setLevel, sides_updSide_same]

theorem setLevel_sides_same_best (s : Side) (t : Int) (l : Option Level)
    (bk : OrderBook) :
    ((setLevel s t l bk).sides s).bestTick = (bk.sides s).bestTick := by
  rw [setLevel, sides_updSide_same]

theorem setLevel_sides_other (s : Side) (t : Int) (l : Option Level)
    (bk : OrderBook) (s' : Side) (h : s' ≠ s) :
    (setLevel s t l bk).sides s' = bk.sides s' := by
  rw [setLevel, sides_updSide_other _ _ _ _ h]

theorem setLevel_index (s : Side) (t : Int) (l : Option Level)
    (bk : OrderBook) : (setLevel s t l bk).index = bk.index := rfl

theorem setLevel_tick_size (s : Side) (t : Int) (l : Option Level)
    (bk : OrderBook) : (setLevel s t l bk).tick_size = bk.tick_size := rfl

theorem addActiveTick_sides_same_ticks (s : Side) (t : Int)
    (bk : OrderBook) :
    ((addActiveTick s t bk).sides s).ticks = (bk.sides s).ticks ++ [t] := by
  rw [addActiveTick, sides_updSide_same]

theorem addActiveTick_sides_same_levels (s : Side) (t : Int)
    (bk : OrderBook) :
    ((addActiveTick s t bk).sides s).levels = (bk.sides s).levels := by
  rw [addActiveTick, sides_updSide_same]

theorem addActiveTick_sides_same_best (s : Side) (t : Int) (bk : OrderBook) :
    ((addActiveTick s t bk).sides s).bestTick =
      match (bk.sides s).bestTick with
      | none => some t
      | some b => if tickBeats s t b then some t else some b := by
  rw [addActiveTick, sides_updSide_same]

theorem addActiveTick_sides_other (s : Side) (t : Int) (bk : OrderBook)
    (s' : Side) (h : s' ≠ s) :
    (addActiveTick s t bk).sides s' = bk.sides s' := by
  rw [addActiveTick, sides_updSide_other _ _ _ _ h]

theorem addActiveTick_index (s : Side) (t : Int) (bk : OrderBook) :
    (addActiveTick s t bk).index = bk.index := rfl

theorem addActiveTick_tick_size (s : Side) (t : Int) (bk : OrderBook) :
    (addActiveTick s t bk).tick_size = bk.tick_size := rfl

theorem removeActiveTick_sides_same_ticks (s : Side) (t : Int)
    (bk : OrderBook) :
    ((removeActiveTick s t bk).sides s).ticks =
      swapRemoveFirst (bk.sides s).ticks t := by
  rw [removeActiveTick, sides_updSide_same]

theorem removeActiveTick_sides_same_levels (s : Side) (t : Int)
    (bk : OrderBook) :
    ((removeActiveTick s t bk).sides s).levels = (bk.sides s).levels := by
  rw [removeActiveTick, sides_updSide_same]

theorem removeActiveTick_sides_same_best (s : Side) (t : Int)
    (bk : OrderBook) :
    ((removeActiveTick s t bk).sides s).bestTick =
      (bk.sides s).bestTick := by
  rw [removeActiveTick, sides_updSide_same]

theorem removeActiveTick_sides_other (s : Side) (t : Int) (bk : OrderBook)
    (s' : Side) (h : s' ≠ s) :
    (removeActiveTick s t bk).sides s' = bk.sides s' := by
  rw [removeActiveTick, sides_updSide_other _ _ _ _ h]

theorem removeActiveTick_index (s : Side) (t : Int) (bk : OrderBook) :
    (removeActiveTick s t bk).index = bk.index := rfl

theorem removeActiveTick_tick_size (s : Side) (t : Int) (bk : OrderBook) :
    (removeActiveTick s t bk).tick_size = bk.tick_size := rfl

theorem recomputeBest_sides_same_ticks (s : Side) (bk : OrderBook) :
    ((recomputeBest s bk).sides s).ticks = (bk.sides s).ticks := by
  rw [recomputeBest, sides_updSide_same]

theorem recomputeBest_sides_same_levels (s : Side) (bk : OrderBook) :
    ((recomputeBest s bk).sides s).levels = (bk.sides s).levels := by
  rw [recomputeBest, sides_updSide_same]

theorem recomputeBest_sides_same_best (s : Side) (bk : OrderBook) :
    ((recomputeBest s bk).sides s).bestTick =
      match (bk.sides s).ticks with
      | [] => none
      | b :: rest =>
        some (rest.foldl (fun acc x => if tickBeats s x acc then x else acc)
          b) := by
  rw [recomputeBest, sides_updSide_same]

theorem recomputeBest_sides_other (s : Side) (bk : OrderBook) (s' : Side)
    (h : s' ≠ s) : (recomputeBest s bk).sides s' = bk.sides s' := by
  rw [recomputeBest, sides_updSide_other _ _ _ _ h]

theorem recomputeBest_index (s : Side) (bk : OrderBook) :
    (recomputeBest s bk).index = bk.index := rfl

theorem recomputeBest_tick_size (s : Side) (bk : OrderBook) :
    (recomputeBest s bk).tick_size = bk.tick_size := rfl

/-! ### swap-remove characterisation -/

theorem swapRemoveFirst_of_not_mem (v : List Int) (t : Int) (h : t ∉ v) :
    swapRemoveFirst v t = v := by
  unfold swapRemoveFirst
  have hn : v.findIdx? (fun x => x == t) = none := by
    rw [List.findIdx?_eq_none_iff]
    intro x hx
    rw [beq_eq_false_iff_ne]
    rintro rfl
    exact h hx
  rw [hn]

theorem swapRemoveFirst_perm (v : List Int) (t : Int) :
    (swapRemoveFirst v t).Perm (v.erase t) := by
  by_cases hmem : t ∈ v
  case neg =>
    rw [swapRemoveFirst_of_not_mem v t hmem, List.erase_of_not_mem hmem]
  case pos =>
    obtain ⟨i, hfind⟩ : ∃ i, v.findIdx? (fun x => x == t) = some i :=
      ⟨_, List.findIdx?_eq_some_of_exists ⟨t, hmem, beq_self_eq_true t⟩⟩
    obtain ⟨hi, hpi, hmin⟩ := List.findIdx?_eq_some_iff_getElem.mp hfind
    have hvt : v[i] = t := by simpa using hpi
    have hv : v = v.take i ++ v[i] :: v.drop (i + 1) := by
      conv_lhs => rw [← List.take_append_drop i v, List.drop_eq_getElem_cons hi]
    have htA : t ∉ v.take i := by
      intro hA
      obtain ⟨j, hj, hjt⟩ := List.mem_iff_getElem.mp hA
      have hj' : j < i := by
        have h2 := hj
        rw [List.length_take] at h2
        omega
      refine hmin j hj' ?_
      rw [List.getElem_take] at hjt
      rw [beq_iff_eq, hjt]
    have herase : v.erase t = v.take i ++ v.drop (i + 1) := by
      conv_lhs => rw [hv]
      rw [List.erase_append_right _ htA, hvt, List.erase_cons_head]
    unfold swapRemoveFirst
    rw [hfind]
    show ((v.set i (v.getLastD 0)).dropLast).Perm (v.erase t)
    rw [herase, List.set_eq_take_append_cons_drop, if_pos hi]
    rcases Nat.lt_or_ge (i + 1) v.length with hlt | hge
    · -- not the last position: the moved last element sits where t was
      have hBne : v.drop (i + 1) ≠ [] := by
        intro hB0
        have h3 := List.length_drop (i + 1) v
        rw [hB0] at h3
        simp at h3
        omega
      have hvne : v ≠ [] := List.ne_nil_of_length_pos (by omega)
      obtain ⟨x, hx⟩ : ∃ x, v.getLast? = some x :=
        ⟨v.getLast hvne, List.getLast?_eq_getLast v hvne⟩
      have hgl : v.getLastD 0 = x := by
        rw [List.getLastD_eq_getLast?, hx]
        rfl
      have hB2 : (v.drop (i + 1)).getLast? = some x := by
        rw [List.getLast?_drop, if_neg (by omega), hx]
      have hB : (v.drop (i + 1)).dropLast ++ [x] = v.drop (i + 1) :=
        List.dropLast_append_getLast? x (by simp [hB2])
      rw [hgl, List.dropLast_append_cons, List.dropLast_cons_of_ne_nil hBne]
      refine List.Perm.append_left _ ?_
      have hp : (x :: (v.drop (i + 1)).dropLast).Perm
          ((v.drop (i + 1)).dropLast ++ [x]) :=
        (List.perm_append_singleton x _).symm
      rw [hB] at hp
      exact hp
    · -- t was the last element: drop it
      have hB : v.drop (i + 1) = [] := List.drop_eq_nil_of_le hge
      rw [hB, List.dropLast_concat]
      simp

theorem swapRemoveFirst_nodup (v : List Int) (t : Int) (h : v.Nodup) :
    (swapRemoveFirst v t).Nodup :=
  (swapRemoveFirst_perm v t).nodup_iff.mpr (h.erase t)

theorem mem_swapRemoveFirst (v : List Int) (t x : Int) (h : v.Nodup) :
    x ∈ swapRemoveFirst v t ↔ x ∈ v ∧ x ≠ t := by
  rw [(swapRemoveFirst_perm v t).mem_iff, List.Nodup.mem_erase_iff h]
  tauto

theorem swapRemoveFirst_length (v : List Int) (t : Int) (h : t ∈ v) :
    (swapRemoveFirst v t).length + 1 = v.length := by
  have h1 := List.length_pos_of_mem h
  rw [(swapRemoveFirst_perm v t).length_eq, List.length_erase_of_mem h]
  omega

/-! ### the book invariant -/

/-- `x` is no better than `b` on side `s` (bids want high, asks low). -/
def tickLE (s : Side) (x b : Int) : Prop :=
  match s with
  | .BUY => x ≤ b
  | .SELL => b ≤ x

/-- The cached best tick is an extremum of the active ticks. -/
def IsBestOf (s : Side) : Option Int → List Int → Prop
  | none, v => v = []
  | some b, v => b ∈ v ∧ ∀ x ∈ v, tickLE s x b

/-- The order-book invariant: positive tick size, duplicate-free active
tick lists matching the level-map domains, no empty resting level, the
cached bests are extrema, and the book is uncrossed. -/
structure BookWF (bk : OrderBook) : Prop where
  tsize : 0 < bk.tick_size
  nodup : ∀ s, ((bk.sides s).ticks).Nodup
  dom : ∀ s t, t ∈ (bk.sides s).ticks ↔ ((bk.sides s).levels t).isSome
  nonempty : ∀ s t lvl, (bk.sides s).levels t = some lvl → lvl.q ≠ []
  bestOK : ∀ s, IsBestOf s ((bk.sides s).bestTick) ((bk.sides s).ticks)
  uncross : Uncrossed bk

/-- `BookWF` weakened at one level: the level at `(s, t)` may be empty. -/
def WfExcept (bk : OrderBook) (s : Side) (t : Int) : Prop :=
  0 < bk.tick_size ∧
  (∀ s', ((bk.sides s').ticks).Nodup) ∧
  (∀ s' t', t' ∈ (bk.sides s').ticks ↔ ((bk.sides s').levels t').isSome) ∧
  (∀ s' t' lvl, (bk.sides s').levels t' = some lvl →
    (s' = s ∧ t' = t) ∨ lvl.q ≠ []) ∧
  (∀ s', IsBestOf s' ((bk.sides s').bestTick) ((bk.sides s').ticks)) ∧
  Uncrossed bk

theorem WfExcept_of_BookWF {bk : OrderBook} (h : BookWF bk) (s : Side)
    (t : Int) : WfExcept bk s t :=
  ⟨h.tsize, h.nodup, h.dom, fun s' t' lvl hl => Or.inr (h.nonempty s' t' lvl hl),
    h.bestOK, h.uncross⟩

theorem Uncrossed_iff (bk : OrderBook) :
    Uncrossed bk ↔ ∀ b a, (bk.sides .BUY).bestTick = some b →
      (bk.sides .SELL).bestTick = some a → b < a := by
  unfold Uncrossed
  cases h1 : (bk.sides .BUY).bestTick <;>
    cases h2 : (bk.sides .SELL).bestTick <;> simp

theorem tickLE_refl (s : Side) (x : Int) : tickLE s x x := by
  cases s <;> simp [tickLE]

theorem tickLE_trans {s : Side} {x y z : Int} (h1 : tickLE s x y)
    (h2 : tickLE s y z) : tickLE s x z := by
  cases s <;> simp only [tickLE] at * <;> omega

theorem tickLE_of_beats {s : Side} {x b : Int}
    (h : tickBeats s x b = true) : tickLE s b x := by
  cases s <;> simp only [tickBeats, tickLE, decide_eq_true_eq] at * <;> omega

theorem tickLE_of_not_beats {s : Side} {x b : Int}
    (h : ¬ tickBeats s x b = true) : tickLE s x b := by
  cases s <;> simp only [tickBeats, tickLE, decide_eq_true_eq] at * <;> omega

/-- The running extremum of `recompute_best`'s scan. -/
def foldBest (s : Side) (b : Int) (rest : List Int) : Int :=
  rest.foldl (fun acc x => if tickBeats s x acc then x else acc) b

theorem foldBest_spec (s : Side) (rest : List Int) (b : Int) :
    (foldBest s b rest = b ∨ foldBest s b rest ∈ rest) ∧
    tickLE s b (foldBest s b rest) ∧
    ∀ x ∈ rest, tickLE s x (foldBest s b rest) := by
  induction rest generalizing b with
  | nil => exact ⟨Or.inl rfl, tickLE_refl s b, by simp⟩
  | cons y ys ih =>
    have step : foldBest s b (y :: ys) = foldBest s (if tickBeats s y b then y else b) ys := rfl
    rw [step]
    obtain ⟨hmem, hb, hall⟩ := ih (if tickBeats s y b then y else b)
    have hble : tickLE s b (if tickBeats s y b then y else b) := by
      split
      case isTrue h => exact tickLE_of_beats h
      case isFalse h => exact tickLE_refl s b
    have hyle : tickLE s y (if tickBeats s y b then y else b) := by
      split
      case isTrue h => exact tickLE_refl s y
      case isFalse h => exact tickLE_of_not_beats h
    refine ⟨?_, tickLE_trans hble hb, ?_⟩
    · rcases hmem with h | h
      · rw [h]
        split
        case isTrue => exact Or.inr (List.mem_cons_self _ _)
        case isFalse => exact Or.inl rfl
      · exact Or.inr (List.mem_cons_of_mem _ h)
    · intro x hx
      rcases List.mem_cons.mp hx with rfl | hx'
      · exact tickLE_trans hyle hb
      · exact hall x hx'

/-- The value `recompute_best` computes from a tick list. -/
def scanBest (s : Side) (v : List Int) : Option Int :=
  match v with
  | [] => none
  | b :: rest => some (foldBest s b rest)

theorem scanBest_isBest (s : Side) (v : List Int) :
    IsBestOf s (scanBest s v) v := by
  cases v with
  | nil => exact rfl
  | cons b rest =>
    obtain ⟨hmem, hb, hall⟩ := foldBest_spec s rest b
    refine ⟨?_, ?_⟩
    · rcases hmem with h | h
      · rw [h]
        exact List.mem_cons_self _ _
      · exact List.mem_cons_of_mem _ h
    · intro x hx
      rcases List.mem_cons.mp hx with rfl | hx'
      · exact hb
      · exact hall x hx'

theorem scanBest_some {s : Side} {v : List Int} {b : Int}
    (h : scanBest s v = some b) : b ∈ v ∧ ∀ x ∈ v, tickLE s x b := by
  have h2 := scanBest_isBest s v
  rw [h] at h2
  exact h2

theorem recomputeBest_isBest (s : Side) (bk : OrderBook) :
    IsBestOf s (((recomputeBest s bk).sides s).bestTick)
      ((bk.sides s).ticks) := by
  rw [recomputeBest_sides_same_best]
  cases hts : (bk.sides s).ticks with
  | nil => exact rfl
  | cons b rest =>
    obtain ⟨hmem, hb, hall⟩ := foldBest_spec s rest b
    refine ⟨?_, ?_⟩
    · show foldBest s b rest ∈ b :: rest
      rcases hmem with h | h
      · rw [h]
        exact List.mem_cons_self _ _
      · exact List.mem_cons_of_mem _ h
    · show ∀ x ∈ b :: rest, tickLE s x (foldBest s b rest)
      intro x hx
      rcases List.mem_cons.mp hx with rfl | hx'
      · exact hb
      · exact hall x hx'

theorem addActiveTick_best_char (s : Side) (t : Int) (bk : OrderBook) :
    ∃ b', ((addActiveTick s t bk).sides s).bestTick = some b' ∧
      (b' = t ∨ (bk.sides s).bestTick = some b') := by
  rw [addActiveTick_sides_same_best]
  cases (bk.sides s).bestTick with
  | none => exact ⟨t, rfl, Or.inl rfl⟩
  | some b =>
    by_cases h : tickBeats s t b = true
    · exact ⟨t, by simp [h], Or.inl rfl⟩
    · exact ⟨b, by simp [h], Or.inr rfl⟩

theorem addActiveTick_isBest (s : Side) (t : Int) (bk : OrderBook)
    (h : IsBestOf s ((bk.sides s).bestTick) ((bk.sides s).ticks)) :
    IsBestOf s (((addActiveTick s t bk).sides s).bestTick)
      ((bk.sides s).ticks ++ [t]) := by
  rw [addActiveTick_sides_same_best]
  cases hob : (bk.sides s).bestTick with
  | none =>
    rw [hob] at h
    unfold IsBestOf at h
    rw [h]
    exact ⟨by simp, by simp [tickLE_refl]⟩
  | some b =>
    rw [hob] at h
    obtain ⟨hbm, hall⟩ := h
    by_cases hbt : tickBeats s t b = true
    · simp only [hbt, if_true]
      refine ⟨by simp, ?_⟩
      intro x hx
      rcases List.mem_append.mp hx with hx' | hx'
      · exact tickLE_trans (hall x hx') (tickLE_of_beats hbt)
      · rw [List.mem_singleton.mp hx']
        exact tickLE_refl s t
    · simp only [hbt, if_false]
      refine ⟨List.mem_append_left _ hbm, ?_⟩
      intro x hx
      rcases List.mem_append.mp hx with hx' | hx'
      · exact hall x hx'
      · rw [List.mem_singleton.mp hx']
        exact tickLE_of_not_beats hbt

theorem mem_of_mem_swapRemoveFirst {v : List Int} {t x : Int}
    (h : x ∈ swapRemoveFirst v t) : x ∈ v :=
  List.erase_subset _ _ ((swapRemoveFirst_perm v t).subset h)

/-! ### removeLevelIfEmpty projections -/

theorem removeLevelIfEmpty_index (s : Side) (t : Int) (bk : OrderBook) :
    (removeLevelIfEmpty s t bk).index = bk.index := by
  simp only [removeLevelIfEmpty]
  split
  · rfl
  · split
    · split <;> rfl
    · rfl

theorem removeLevelIfEmpty_tick_size (s : Side) (t : Int) (bk : OrderBook) :
    (removeLevelIfEmpty s t bk).tick_size = bk.tick_size := by
  simp only [removeLevelIfEmpty]
  split
  · rfl
  · split
    · split <;> rfl
    · rfl

theorem removeLevelIfEmpty_sides_other (s : Side) (t : Int) (bk : OrderBook)
    (s' : Side) (hs : s' ≠ s) :
    (removeLevelIfEmpty s t bk).sides s' = bk.sides s' := by
  simp only [removeLevelIfEmpty]
  split
  · rfl
  · split
    · split
      case isTrue =>
        show (recomputeBest s _).sides s' = _
        rw [recomputeBest_sides_other _ _ _ hs,
          removeActiveTick_sides_other _ _ _ _ hs,
          setLevel_sides_other _ _ _ _ _ hs]
      case isFalse =>
        show (removeActiveTick s t (setLevel s t none bk)).sides s' = _
        rw [removeActiveTick_sides_other _ _ _ _ hs,
          setLevel_sides_other _ _ _ _ _ hs]
    · rfl

theorem removeLevelIfEmpty_eq_of_none (s : Side) (t : Int) (bk : OrderBook)
    (h : (bk.sides s).levels t = none) : removeLevelIfEmpty s t bk = bk := by
  simp only [removeLevelIfEmpty, h]

theorem removeLevelIfEmpty_eq_of_nonempty (s : Side) (t : Int)
    (bk : OrderBook) (lvl : Level) (h : (bk.sides s).levels t = some lvl)
    (hq : lvl.q ≠ []) : removeLevelIfEmpty s t bk = bk := by
  simp only [removeLevelIfEmpty, h]
  rw [if_neg hq]

theorem removeLevelIfEmpty_ticks_of_empty (s : Side) (t : Int)
    (bk : OrderBook) (lvl : Level) (h : (bk.sides s).levels t = some lvl)
    (hq : lvl.q = []) :
    ((removeLevelIfEmpty s t bk).sides s).ticks =
      swapRemoveFirst (bk.sides s).ticks t := by
  simp only [removeLevelIfEmpty, h, hq, if_true]
  split
  case isTrue =>
    show ((recomputeBest s _).sides s).ticks = _
    rw [recomputeBest_sides_same_ticks, removeActiveTick_sides_same_ticks,
      setLevel_sides_same_ticks]
  case isFalse =>
    show ((removeActiveTick s t (setLevel s t none bk)).sides s).ticks = _
    rw [removeActiveTick_sides_same_ticks, setLevel_sides_same_ticks]

theorem removeLevelIfEmpty_levels_of_empty (s : Side) (t : Int)
    (bk : OrderBook) (lvl : Level) (h : (bk.sides s).levels t = some lvl)
    (hq : lvl.q = []) :
    ((removeLevelIfEmpty s t bk).sides s).levels =
      fun x => if x = t then none else (bk.sides s).levels x := by
  simp only [removeLevelIfEmpty, h, hq, if_true]
  split
  case isTrue =>
    show ((recomputeBest s _).sides s).levels = _
    rw [recomputeBest_sides_same_levels, removeActiveTick_sides_same_levels,
      setLevel_sides_same_levels]
  case isFalse =>
    show ((removeActiveTick s t (setLevel s t none bk)).sides s).levels = _
    rw [removeActiveTick_sides_same_levels, setLevel_sides_same_levels]

theorem removeLevelIfEmpty_best_of_empty (s : Side) (t : Int)
    (bk : OrderBook) (lvl : Level) (h : (bk.sides s).levels t = some lvl)
    (hq : lvl.q = []) :
    ((removeLevelIfEmpty s t bk).sides s).bestTick =
      if (bk.sides s).bestTick = some t then
        scanBest s (swapRemoveFirst (bk.sides s).ticks t)
      else (bk.sides s).bestTick := by
  have heq : ((removeActiveTick s t (setLevel s t none bk)).sides s).bestTick
      = (bk.sides s).bestTick := by
    rw [removeActiveTick_sides_same_best, setLevel_sides_same_best]
  simp only [removeLevelIfEmpty, h, hq, if_true]
  rw [heq]
  split
  case isTrue =>
    show ((recomputeBest s _).sides s).bestTick = _
    rw [recomputeBest_sides_same_best, removeActiveTick_sides_same_ticks,
      setLevel_sides_same_ticks]
    rfl
  case isFalse => exact heq

/-- `remove_level_if_empty` restores the full invariant from a state whose
only possible defect is an empty queue at the targeted level. -/
theorem removeLevelIfEmpty_wf {bk : OrderBook} {s : Side} {t : Int}
    (h : WfExcept bk s t) : BookWF (removeLevelIfEmpty s t bk) := by
  obtain ⟨hts, hnd, hdom, hne, hbest, hunc⟩ := h
  cases hl : (bk.sides s).levels t with
  | none =>
    rw [removeLevelIfEmpty_eq_of_none s t bk hl]
    refine ⟨hts, hnd, hdom, ?_, hbest, hunc⟩
    intro s' t' lvl' hl'
    rcases hne s' t' lvl' hl' with ⟨rfl, rfl⟩ | hne'
    · rw [hl'] at hl
      exact absurd hl (by simp)
    · exact hne'
  | some lvl =>
    by_cases hq : lvl.q = []
    case neg =>
      rw [removeLevelIfEmpty_eq_of_nonempty s t bk lvl hl hq]
      refine ⟨hts, hnd, hdom, ?_, hbest, hunc⟩
      intro s' t' lvl' hl'
      rcases hne s' t' lvl' hl' with ⟨rfl, rfl⟩ | hne'
      · rw [hl] at hl'
        injection hl' with e
        rw [← e]
        exact hq
      · exact hne'
    case pos =>
      have htm : t ∈ (bk.sides s).ticks := (hdom s t).mpr (by rw [hl]; rfl)
      have hticks := removeLevelIfEmpty_ticks_of_empty s t bk lvl hl hq
      have hlev := removeLevelIfEmpty_levels_of_empty s t bk lvl hl hq
      have hbst := removeLevelIfEmpty_best_of_empty s t bk lvl hl hq
      have hoth : ∀ s', s' ≠ s →
          (removeLevelIfEmpty s t bk).sides s' = bk.sides s' :=
        fun s' hs => removeLevelIfEmpty_sides_other s t bk s' hs
      refine ⟨?_, ?_, ?_, ?_, ?_, ?_⟩
      · rw [removeLevelIfEmpty_tick_size]
        exact hts
      · intro s'
        by_cases hs : s' = s
        · subst hs
          rw [hticks]
          exact swapRemoveFirst_nodup _ _ (hnd s')
        · rw [hoth s' hs]
          exact hnd s'
      · intro s' t'
        by_cases hs : s' = s
        · subst hs
          rw [hticks]
          simp only [hlev]
          rw [mem_swapRemoveFirst _ _ _ (hnd s')]
          by_cases ht' : t' = t
          · subst ht'
            simp
          · rw [if_neg ht', ← hdom s' t']
            simp [ht']
        · rw [hoth s' hs]
          exact hdom s' t'
      · intro s' t' lvl' hl'
        by_cases hs : s' = s
        · subst hs
          simp only [hlev] at hl'
          by_cases ht' : t' = t
          · rw [if_pos ht'] at hl'
            exact absurd hl' (by simp)
          · rw [if_neg ht'] at hl'
            rcases hne s' t' lvl' hl' with ⟨_, h2⟩ | hne'
            · exact absurd h2 ht'
            · exact hne'
        · rw [hoth s' hs] at hl'
          rcases hne s' t' lvl' hl' with ⟨h1, _⟩ | hne'
          · exact absurd h1 hs
          · exact hne'
      · intro s'
        by_cases hs : s' = s
        · subst hs
          rw [hticks, hbst]
          by_cases hcond : (bk.sides s').bestTick = some t
          · rw [if_pos hcond]
            exact scanBest_isBest s' _
          · rw [if_neg hcond]
            cases hob : (bk.sides s').bestTick with
            | none =>
              have h2 := hbest s'
              rw [hob] at h2
              unfold IsBestOf at h2
              rw [h2] at htm
              exact absurd htm (List.not_mem_nil t)
            | some b =>
              have h2 := hbest s'
              rw [hob] at h2
              obtain ⟨hbm, hball⟩ := h2
              have hbne : b ≠ t := by
                rintro rfl
                exact hcond hob
              refine ⟨(mem_swapRemoveFirst _ _ _ (hnd s')).mpr ⟨hbm, hbne⟩, ?_⟩
              intro x hx
              exact hball x (mem_of_mem_swapRemoveFirst hx)
        · rw [hoth s' hs]
          exact hbest s'
      · rw [Uncrossed_iff]
        intro b a hb ha
        cases s
        case BUY =>
          rw [hoth .SELL (by decide)] at ha
          rw [hbst] at hb
          by_cases hcond : (bk.sides .BUY).bestTick = some t
          · rw [if_pos hcond] at hb
            obtain ⟨hbmem, _⟩ := scanBest_some hb
            have hble : tickLE .BUY b t := by
              have h2 := hbest .BUY
              rw [hcond] at h2
              exact h2.2 b (mem_of_mem_swapRemoveFirst hbmem)
            have hta : t < a := (Uncrossed_iff bk).mp hunc t a hcond ha
            have : b ≤ t := hble
            omega
          · rw [if_neg hcond] at hb
            exact (Uncrossed_iff bk).mp hunc b a hb ha
        case SELL =>
          rw [hoth .BUY (by decide)] at hb
          rw [hbst] at ha
          by_cases hcond : (bk.sides .SELL).bestTick = some t
          · rw [if_pos hcond] at ha
            obtain ⟨hamem, _⟩ := scanBest_some ha
            have hale : tickLE .SELL a t := by
              have h2 := hbest .SELL
              rw [hcond] at h2
              exact h2.2 a (mem_of_mem_swapRemoveFirst hamem)
            have hbt : b < t := (Uncrossed_iff bk).mp hunc b t hb hcond
            have : t ≤ a := hale
            omega
          · rw [if_neg hcond] at ha
            exact (Uncrossed_iff bk).mp hunc b a hb ha

/-! ### consumeQueue equations and facts -/

theorem eraseIndex_none {idx : Nat → Option OrderRef} {j : Nat} (i : Nat)
    (h : idx j = none) : eraseIndex idx i j = none := by
  unfold eraseIndex
  split
  · rfl
  · exact h

theorem consumeQueue_cons_stop (idx : Nat → Option OrderRef) (top : Order)
    (rest : List Order) (rem : Int) (tp : Option ℚ) (h : ¬ rem > 0) :
    consumeQueue idx (top :: rest) rem tp = ⟨top :: rest, rem, tp, idx⟩ := by
  simp only [consumeQueue]
  rw [if_neg h]

theorem consumeQueue_cons_fill (idx : Nat → Option OrderRef) (top : Order)
    (rest : List Order) (rem : Int) (tp : Option ℚ) (h : rem > 0)
    (hz : top.qty - min rem top.qty = 0) :
    consumeQueue idx (top :: rest) rem tp =
      consumeQueue (eraseIndex idx top.id) rest (rem - min rem top.qty)
        (some top.price) := by
  simp only [consumeQueue]
  rw [if_pos h, if_pos hz]

theorem consumeQueue_cons_rest (idx : Nat → Option OrderRef) (top : Order)
    (rest : List Order) (rem : Int) (tp : Option ℚ) (h : rem > 0)
    (hz : ¬ top.qty - min rem top.qty = 0) :
    consumeQueue idx (top :: rest) rem tp =
      ⟨Order.mk top.id top.price (top.qty - min rem top.qty) top.side
          top.ts_ns :: rest,
        rem - min rem top.qty, some top.price, idx⟩ := by
  simp only [consumeQueue]
  rw [if_pos h, if_neg hz]

/-- If quantity survives the inner fill loop, the queue was drained. -/
theorem consumeQueue_q_of_pos (idx : Nat → Option OrderRef) (q : List Order)
    (rem : Int) (tp : Option ℚ)
    (h : (consumeQueue idx q rem tp).remaining > 0) :
    (consumeQueue idx q rem tp).q = [] := by
  induction q generalizing idx rem tp with
  | nil => rfl
  | cons top rest ih =>
    by_cases hrem : rem > 0
    · by_cases hz : top.qty - min rem top.qty = 0
      · rw [consumeQueue_cons_fill idx top rest rem tp hrem hz] at h ⊢
        exact ih _ _ _ h
      · rw [consumeQueue_cons_rest idx top rest rem tp hrem hz] at h
        exfalso
        simp only [gt_iff_lt] at h
        omega
    · rw [consumeQueue_cons_stop idx top rest rem tp hrem] at h
      simp only [gt_iff_lt] at h
      omega

/-- The inner loop only erases index entries, never adds them. -/
theorem consumeQueue_index_none (idx : Nat → Option OrderRef)
    (q : List Order) (rem : Int) (tp : Option ℚ) (j : Nat)
    (h : idx j = none) : (consumeQueue idx q rem tp).index j = none := by
  induction q generalizing idx rem tp with
  | nil => exact h
  | cons top rest ih =>
    by_cases hrem : rem > 0
    · by_cases hz : top.qty - min rem top.qty = 0
      · rw [consumeQueue_cons_fill idx top rest rem tp hrem hz]
        exact ih _ _ _ (eraseIndex_none top.id h)
      · rw [consumeQueue_cons_rest idx top rest rem tp hrem hz]
        exact h
    · rw [consumeQueue_cons_stop idx top rest rem tp hrem]
      exact h

/-! ### setLevel and getOrCreateLevel conveniences -/

theorem setLevel_ticks (s : Side) (t : Int) (l : Option Level)
    (bk : OrderBook) (s' : Side) :
    ((setLevel s t l bk).sides s').ticks = (bk.sides s').ticks := by
  by_cases hs : s' = s
  · subst hs
    rw [setLevel_sides_same_ticks]
  · rw [setLevel_sides_other _ _ _ _ _ hs]

theorem setLevel_best (s : Side) (t : Int) (l : Option Level)
    (bk : OrderBook) (s' : Side) :
    ((setLevel s t l bk).sides s').bestTick = (bk.sides s').bestTick := by
  by_cases hs : s' = s
  · subst hs
    rw [setLevel_sides_same_best]
  · rw [setLevel_sides_other _ _ _ _ _ hs]

theorem setLevel_levels_at (s : Side) (t : Int) (l : Option Level)
    (bk : OrderBook) (s' : Side) (t' : Int) :
    ((setLevel s t l bk).sides s').levels t' =
      if s' = s ∧ t' = t then l else (bk.sides s').levels t' := by
  by_cases hs : s' = s
  · subst hs
    rw [setLevel_sides_same_levels]
    by_cases ht : t' = t
    · simp [ht]
    · simp [ht]
  · rw [setLevel_sides_other _ _ _ _ _ hs]
    simp [hs]

theorem getOrCreateLevel_eq_of_some (s : Side) (t : Int) (bk : OrderBook)
    (lvl : Level) (h : (bk.sides s).levels t = some lvl) :
    getOrCreateLevel s t bk = (bk, lvl) := by
  simp only [getOrCreateLevel, h]

theorem getOrCreateLevel_eq_of_none (s : Side) (t : Int) (bk : OrderBook)
    (h : (bk.sides s).levels t = none) :
    getOrCreateLevel s t bk =
      (addActiveTick s t (setLevel s t (some (Level.mk t []))
        (if bk.free_levels > 0 then
          OrderBook.mk bk.sides bk.index (bk.free_levels - 1) bk.tick_size
            bk.inv_tick
        else bk)), Level.mk t []) := by
  simp only [getOrCreateLevel, h]

theorem getOrCreateLevel_index (s : Side) (t : Int) (bk : OrderBook) :
    ((getOrCreateLevel s t bk).1).index = bk.index := by
  simp only [getOrCreateLevel]
  split
  · rfl
  · split <;> rfl

/-! ### matchLoop equations -/

theorem matchLoop_zero (s : Side) (bk : OrderBook) (rem tick : Int)
    (tp : Option ℚ) : matchLoop s 0 bk rem tick tp = (bk, rem, tp) := rfl

theorem matchLoop_succ_none (s : Side) (f : Nat) (bk : OrderBook)
    (rem tick : Int) (tp : Option ℚ)
    (hbt : (bk.sides s.opp).bestTick = none) :
    matchLoop s (f + 1) bk rem tick tp = (bk, rem, tp) := by
  simp only [matchLoop, hbt]

theorem matchLoop_succ_stop (s : Side) (f : Nat) (bk : OrderBook)
    (rem tick : Int) (tp : Option ℚ) (bt : Int)
    (hbt : (bk.sides s.opp).bestTick = some bt)
    (hc : ¬ (rem > 0 ∧ crossesb s bt tick = true)) :
    matchLoop s (f + 1) bk rem tick tp = (bk, rem, tp) := by
  simp only [matchLoop, hbt]
  rw [if_neg hc]

theorem matchLoop_succ_missing (s : Side) (f : Nat) (bk : OrderBook)
    (rem tick : Int) (tp : Option ℚ) (bt : Int)
    (hbt : (bk.sides s.opp).bestTick = some bt)
    (hc : rem > 0 ∧ crossesb s bt tick = true)
    (hlv : (bk.sides s.opp).levels bt = none) :
    matchLoop s (f + 1) bk rem tick tp =
      matchLoop s f (recomputeBest s.opp bk) rem tick tp := by
  simp only [matchLoop, hbt, hlv]
  rw [if_pos hc]

theorem matchLoop_succ_consume (s : Side) (f : Nat) (bk : OrderBook)
    (rem tick : Int) (tp : Option ℚ) (bt : Int) (lvl : Level)
    (hbt : (bk.sides s.opp).bestTick = some bt)
    (hc : rem > 0 ∧ crossesb s bt tick = true)
    (hlv : (bk.sides s.opp).levels bt = some lvl) :
    matchLoop s (f + 1) bk rem tick tp =
      matchLoop s f
        (removeLevelIfEmpty s.opp bt
          (setLevel s.opp bt
            (some (Level.mk lvl.tick (consumeQueue bk.index lvl.q rem tp).q))
            (OrderBook.mk bk.sides (consumeQueue bk.index lvl.q rem tp).index
              bk.free_levels bk.tick_size bk.inv_tick)))
        (consumeQueue bk.index lvl.q rem tp).remaining tick
        (consumeQueue bk.index lvl.q rem tp).tp := by
  simp only [matchLoop, hbt, hlv]
  rw [if_pos hc]

theorem matchLoop_exit (s : Side) (fuel : Nat) (bk : OrderBook)
    (rem tick : Int) (tp : Option ℚ) (hf : 0 < fuel) (h : ¬ rem > 0) :
    matchLoop s fuel bk rem tick tp = (bk, rem, tp) := by
  obtain ⟨f, rfl⟩ : ∃ f, fuel = f + 1 := ⟨fuel - 1, by omega⟩
  cases hbt : (bk.sides s.opp).bestTick with
  | none => exact matchLoop_succ_none s f bk rem tick tp hbt
  | some bt =>
    exact matchLoop_succ_stop s f bk rem tick tp bt hbt (fun hc => h hc.1)

theorem BookWF_of_eq {bk bk' : OrderBook} (hs : bk'.sides = bk.sides)
    (ht : bk'.tick_size = bk.tick_size) (h : BookWF bk) : BookWF bk' := by
  refine ⟨?_, ?_, ?_, ?_, ?_, ?_⟩
  · rw [ht]
    exact h.tsize
  · intro s'
    rw [hs]
    exact h.nodup s'
  · intro s' t'
    rw [hs]
    exact h.dom s' t'
  · intro s' t' lvl hl
    rw [hs] at hl
    exact h.nonempty s' t' lvl hl
  · intro s'
    rw [hs]
    exact h.bestOK s'
  · rw [Uncrossed_iff]
    intro b a hb ha
    rw [hs] at hb ha
    exact (Uncrossed_iff bk).mp h.uncross b a hb ha

/-- The matching loop: preserves the invariant, never touches the
incoming order's own side, only removes opposite ticks, and — whenever
quantity survives and the fuel covers the opposite tick count — exits
with the C++ loop's condition false (so the C++ `while` terminates from
every such state). -/
theorem matchLoop_wf (s : Side) (fuel : Nat) :
    ∀ (bk : OrderBook) (rem tick : Int) (tp : Option ℚ), BookWF bk →
    ((bk.sides s.opp).ticks).length < fuel →
    BookWF (matchLoop s fuel bk rem tick tp).1 ∧
    (matchLoop s fuel bk rem tick tp).1.sides s = bk.sides s ∧
    (matchLoop s fuel bk rem tick tp).1.tick_size = bk.tick_size ∧
    (∀ x, x ∈ ((matchLoop s fuel bk rem tick tp).1.sides s.opp).ticks →
      x ∈ (bk.sides s.opp).ticks) ∧
    ((matchLoop s fuel bk rem tick tp).2.1 > 0 →
      ∀ bt, ((matchLoop s fuel bk rem tick tp).1.sides s.opp).bestTick =
        some bt → ¬ crossesb s bt tick = true) := by
  induction fuel with
  | zero =>
    intro bk rem tick tp hwf hlen
    omega
  | succ f ih =>
    intro bk rem tick tp hwf hlen
    cases hbt : (bk.sides s.opp).bestTick with
    | none =>
      rw [matchLoop_succ_none s f bk rem tick tp hbt]
      refine ⟨hwf, rfl, rfl, fun x hx => hx, ?_⟩
      intro _ bt hbt'
      rw [hbt] at hbt'
      exact absurd hbt' (by simp)
    | some bt0 =>
      by_cases hc : rem > 0 ∧ crossesb s bt0 tick = true
      case neg =>
        rw [matchLoop_succ_stop s f bk rem tick tp bt0 hbt hc]
        refine ⟨hwf, rfl, rfl, fun x hx => hx, ?_⟩
        intro hrem bt hbt'
        rw [hbt] at hbt'
        injection hbt' with e
        subst e
        intro hcross
        exact hc ⟨hrem, hcross⟩
      case pos =>
        have hbtm : bt0 ∈ (bk.sides s.opp).ticks := by
          have h2 := hwf.bestOK s.opp
          rw [hbt] at h2
          exact h2.1
        cases hlv : (bk.sides s.opp).levels bt0 with
        | none =>
          exfalso
          have h2 := (hwf.dom s.opp bt0).mp hbtm
          rw [hlv] at h2
          simp at h2
        | some lvl =>
          rw [matchLoop_succ_consume s f bk rem tick tp bt0 lvl hbt hc hlv]
          set cr := consumeQueue bk.index lvl.q rem tp with hcr
          set bk1 := setLevel s.opp bt0 (some (Level.mk lvl.tick cr.q))
            (OrderBook.mk bk.sides cr.index bk.free_levels bk.tick_size
              bk.inv_tick) with hbk1
          set bk2 := removeLevelIfEmpty s.opp bt0 bk1 with hbk2
          have hsne : s ≠ s.opp := (Side.opp_ne s).symm
          have hb1s : bk1.sides s = bk.sides s := by
            rw [hbk1, setLevel_sides_other _ _ _ _ _ hsne]
          have hb1ticks : ∀ s', (bk1.sides s').ticks = (bk.sides s').ticks := by
            intro s'
            rw [hbk1, setLevel_ticks]
          have hb1best : ∀ s',
              (bk1.sides s').bestTick = (bk.sides s').bestTick := by
            intro s'
            rw [hbk1, setLevel_best]
          have hb1ts : bk1.tick_size = bk.tick_size := rfl
          have hwfe : WfExcept bk1 s.opp bt0 := by
            refine ⟨?_, ?_, ?_, ?_, ?_, ?_⟩
            · rw [hb1ts]
              exact hwf.tsize
            · intro s'
              rw [hb1ticks]
              exact hwf.nodup s'
            · intro s' t'
              rw [hb1ticks, hbk1, setLevel_levels_at]
              by_cases hst : s' = s.opp ∧ t' = bt0
              · rw [if_pos hst]
                obtain ⟨h1, h2⟩ := hst
                subst h1
                subst h2
                simp [hbtm]
              · rw [if_neg hst]
                exact hwf.dom s' t'
            · intro s' t' lvl' hl'
              rw [hbk1, setLevel_levels_at] at hl'
              by_cases hst : s' = s.opp ∧ t' = bt0
              · exact Or.inl hst
              · rw [if_neg hst] at hl'
                exact Or.inr (hwf.nonempty s' t' lvl' hl')
            · intro s'
              rw [hb1best, hb1ticks]
              exact hwf.bestOK s'
            · rw [Uncrossed_iff]
              intro b a hb ha
              rw [hb1best] at hb ha
              exact (Uncrossed_iff bk).mp hwf.uncross b a hb ha
          have hwf2 : BookWF bk2 := removeLevelIfEmpty_wf hwfe
          have hb2s : bk2.sides s = bk.sides s := by
            rw [hbk2, removeLevelIfEmpty_sides_other _ _ _ _ hsne, hb1s]
          have hb2ts : bk2.tick_size = bk.tick_size := by
            rw [hbk2, removeLevelIfEmpty_tick_size, hb1ts]
          have hb1lv : (bk1.sides s.opp).levels bt0 =
              some (Level.mk lvl.tick cr.q) := by
            rw [hbk1, setLevel_levels_at]
            simp
          have hb2sub : ∀ x, x ∈ (bk2.sides s.opp).ticks →
              x ∈ (bk.sides s.opp).ticks := by
            by_cases hq : cr.q = []
            · intro x hx
              rw [hbk2, removeLevelIfEmpty_ticks_of_empty s.opp bt0 bk1 _
                hb1lv hq] at hx
              rw [hb1ticks] at hx
              exact mem_of_mem_swapRemoveFirst hx
            · intro x hx
              rw [hbk2, removeLevelIfEmpty_eq_of_nonempty s.opp bt0 bk1 _
                hb1lv hq] at hx
              rw [hb1ticks] at hx
              exact hx
          by_cases hrq : cr.q = []
          case pos =>
            have hlen2 : ((bk2.sides s.opp).ticks).length < f := by
              rw [hbk2, removeLevelIfEmpty_ticks_of_empty s.opp bt0 bk1 _
                hb1lv hrq, hb1ticks]
              have h3 := swapRemoveFirst_length (bk.sides s.opp).ticks bt0 hbtm
              omega
            obtain ⟨I1, I2, I3, I4, I5⟩ :=
              ih bk2 cr.remaining tick cr.tp hwf2 hlen2
            exact ⟨I1, by rw [I2, hb2s], by rw [I3, hb2ts],
              fun x hx => hb2sub x (I4 x hx), I5⟩
          case neg =>
            have hnr : ¬ cr.remaining > 0 :=
              fun hpos => hrq (consumeQueue_q_of_pos _ _ _ _ hpos)
            have hf1 : 0 < f := by
              have h3 := List.length_pos_of_mem hbtm
              omega
            rw [matchLoop_exit s f bk2 cr.remaining tick cr.tp hf1 hnr]
            refine ⟨hwf2, hb2s, hb2ts, hb2sub, ?_⟩
            intro hpos
            exact absurd hpos hnr

/-- The matching loop never creates an index entry. -/
theorem matchLoop_index_none (s : Side) (fuel : Nat) :
    ∀ (bk : OrderBook) (rem tick : Int) (tp : Option ℚ) (j : Nat),
    bk.index j = none →
    (matchLoop s fuel bk rem tick tp).1.index j = none := by
  induction fuel with
  | zero =>
    intro bk rem tick tp j h
    exact h
  | succ f ih =>
    intro bk rem tick tp j h
    cases hbt : (bk.sides s.opp).bestTick with
    | none =>
      rw [matchLoop_succ_none s f bk rem tick tp hbt]
      exact h
    | some bt0 =>
      by_cases hc : rem > 0 ∧ crossesb s bt0 tick = true
      case neg =>
        rw [matchLoop_succ_stop s f bk rem tick tp bt0 hbt hc]
        exact h
      case pos =>
        cases hlv : (bk.sides s.opp).levels bt0 with
        | none =>
          rw [matchLoop_succ_missing s f bk rem tick tp bt0 hbt hc hlv]
          refine ih _ _ _ _ _ ?_
          rw [recomputeBest_index]
          exact h
        | some lvl =>
          rw [matchLoop_succ_consume s f bk rem tick tp bt0 lvl hbt hc hlv]
          refine ih _ _ _ _ _ ?_
          rw [removeLevelIfEmpty_index, setLevel_index]
          exact consumeQueue_index_none _ _ _ _ _ h

/- Batteries marks the rational-number operations `@[irreducible]`, which
blocks definitional evaluation of concrete book scenarios; the kernel
unfolds them regardless, so re-enabling unfolding locally only lets
`decide`/`rfl` evaluate what the kernel accepts anyway. -/
attribute [local semireducible] Rat.mul Rat.add Rat.sub Rat.inv
  Rat.ofScientific

/-! ### resting-order insertion preserves the invariant -/

theorem addActiveTick_levels (s : Side) (t : Int) (bk : OrderBook)
    (s' : Side) :
    ((addActiveTick s t bk).sides s').levels = (bk.sides s').levels := by
  by_cases hs : s' = s
  · subst hs
    rw [addActiveTick_sides_same_levels]
  · rw [addActiveTick_sides_other _ _ _ _ hs]

/-- Appending the residual order to an existing level keeps `BookWF`. -/
theorem add_rest_existing_wf {bkR : OrderBook} (W : BookWF bkR) (s : Side)
    (t : Int) (ord : Order) (lvl0 : Level)
    (hglv : (bkR.sides s).levels t = some lvl0) :
    BookWF (setLevel s t (some (Level.mk lvl0.tick (lvl0.q ++ [ord]))) bkR) := by
  refine ⟨?_, ?_, ?_, ?_, ?_, ?_⟩
  · rw [setLevel_tick_size]
    exact W.tsize
  · intro s'
    rw [setLevel_ticks]
    exact W.nodup s'
  · intro s' t'
    rw [setLevel_ticks, setLevel_levels_at]
    by_cases hst : s' = s ∧ t' = t
    · rw [if_pos hst]
      obtain ⟨h1, h2⟩ := hst
      subst h1
      subst h2
      simp only [Option.isSome_some]
      have hm : t' ∈ (bkR.sides s').ticks :=
        (W.dom s' t').mpr (by rw [hglv]; rfl)
      simp [hm]
    · rw [if_neg hst]
      exact W.dom s' t'
  · intro s' t' lvl' hl'
    rw [setLevel_levels_at] at hl'
    by_cases hst : s' = s ∧ t' = t
    · rw [if_pos hst] at hl'
      injection hl' with e
      rw [← e]
      simp
    · rw [if_neg hst] at hl'
      exact W.nonempty s' t' lvl' hl'
  · intro s'
    rw [setLevel_ticks, setLevel_best]
    exact W.bestOK s'
  · rw [Uncrossed_iff]
    intro b a hb ha
    rw [setLevel_best] at hb ha
    exact (Uncrossed_iff bkR).mp W.uncross b a hb ha

/-- Creating a fresh level for the residual order keeps `BookWF`, given
the exit condition of the matching loop (the new tick does not cross the
surviving opposite best). -/
theorem add_rest_new_wf {bkR : OrderBook} (W : BookWF bkR) (s : Side)
    (t : Int) (ord : Order) (base : OrderBook)
    (hbs : base.sides = bkR.sides) (hbt : base.tick_size = bkR.tick_size)
    (hglv : (bkR.sides s).levels t = none)
    (hcross : ∀ bt, (bkR.sides s.opp).bestTick = some bt →
      ¬ crossesb s bt t = true) :
    BookWF (setLevel s t (some (Level.mk t [ord]))
      (addActiveTick s t (setLevel s t (some (Level.mk t [])) base))) := by
  have htnm : t ∉ (bkR.sides s).ticks := by
    intro hm
    have h2 := (W.dom s t).mp hm
    rw [hglv] at h2
    simp at h2
  have hticks_s : ((setLevel s t (some (Level.mk t [ord]))
      (addActiveTick s t (setLevel s t (some (Level.mk t [])) base))).sides
        s).ticks = (bkR.sides s).ticks ++ [t] := by
    rw [setLevel_ticks, addActiveTick_sides_same_ticks, setLevel_ticks, hbs]
  have hside_o : ∀ s', s' ≠ s →
      (setLevel s t (some (Level.mk t [ord]))
        (addActiveTick s t (setLevel s t (some (Level.mk t [])) base))).sides
          s' = bkR.sides s' := by
    intro s' hs'
    rw [setLevel_sides_other _ _ _ _ _ hs',
      addActiveTick_sides_other _ _ _ _ hs',
      setLevel_sides_other _ _ _ _ _ hs', hbs]
  have hlv_at : ∀ s' t',
      ((setLevel s t (some (Level.mk t [ord]))
        (addActiveTick s t (setLevel s t (some (Level.mk t [])) base))).sides
          s').levels t' =
        if s' = s ∧ t' = t then some (Level.mk t [ord])
        else (bkR.sides s').levels t' := by
    intro s' t'
    rw [setLevel_levels_at]
    by_cases hst : s' = s ∧ t' = t
    · rw [if_pos hst, if_pos hst]
    · rw [if_neg hst, if_neg hst, addActiveTick_levels, setLevel_levels_at,
        if_neg hst, hbs]
  have hinner_best : ((setLevel s t (some (Level.mk t [])) base).sides
      s).bestTick = (bkR.sides s).bestTick := by
    rw [setLevel_best, hbs]
  have hinner_ticks : ((setLevel s t (some (Level.mk t [])) base).sides
      s).ticks = (bkR.sides s).ticks := by
    rw [setLevel_ticks, hbs]
  refine ⟨?_, ?_, ?_, ?_, ?_, ?_⟩
  · rw [setLevel_tick_size, addActiveTick_tick_size, setLevel_tick_size, hbt]
    exact W.tsize
  · intro s'
    by_cases hs' : s' = s
    · subst hs'
      rw [hticks_s]
      rw [List.nodup_append]
      exact ⟨W.nodup s', List.nodup_singleton t, by simp [htnm]⟩
    · rw [hside_o s' hs']
      exact W.nodup s'
  · intro s' t'
    rw [hlv_at]
    by_cases hs' : s' = s
    · subst hs'
      rw [hticks_s]
      by_cases ht' : t' = t
      · subst ht'
        simp
      · simp only [ht', and_false, if_false, List.mem_append,
          List.mem_singleton, or_false]
        rw [W.dom s' t']
    · rw [hside_o s' hs']
      simp only [hs', false_and, if_false]
      exact W.dom s' t'
  · intro s' t' lvl' hl'
    rw [hlv_at] at hl'
    by_cases hst : s' = s ∧ t' = t
    · rw [if_pos hst] at hl'
      injection hl' with e
      rw [← e]
      simp
    · rw [if_neg hst] at hl'
      exact W.nonempty s' t' lvl' hl'
  · intro s'
    by_cases hs' : s' = s
    · subst hs'
      rw [hticks_s, setLevel_best]
      have hbase : IsBestOf s' (((setLevel s' t (some (Level.mk t []))
          base).sides s').bestTick)
          (((setLevel s' t (some (Level.mk t [])) base).sides s').ticks) := by
        rw [hinner_best, hinner_ticks]
        exact W.bestOK s'
      have h2 := addActiveTick_isBest s' t _ hbase
      rw [hinner_ticks] at h2
      exact h2
    · rw [hside_o s' hs']
      exact W.bestOK s'
  · rw [Uncrossed_iff]
    intro b a hb ha
    cases s
    case BUY =>
      rw [hside_o .SELL (by decide)] at ha
      rw [setLevel_best] at hb
      obtain ⟨b', hb', hch⟩ := addActiveTick_best_char .BUY t
        (setLevel .BUY t (some (Level.mk t [])) base)
      rw [hb'] at hb
      injection hb with e
      subst e
      rcases hch with rfl | hold
      · have h2 := hcross a ha
        simp only [crossesb, decide_eq_true_eq] at h2
        omega
      · rw [hinner_best] at hold
        exact (Uncrossed_iff bkR).mp W.uncross b' a hold ha
    case SELL =>
      rw [hside_o .BUY (by decide)] at hb
      rw [setLevel_best] at ha
      obtain ⟨a', ha', hch⟩ := addActiveTick_best_char .SELL t
        (setLevel .SELL t (some (Level.mk t [])) base)
      rw [ha'] at ha
      injection ha with e
      subst e
      rcases hch with rfl | hold
      · have h2 := hcross b hb
        simp only [crossesb, ge_iff_le, decide_eq_true_eq] at h2
        omega
      · rw [hinner_best] at hold
        exact (Uncrossed_iff bkR).mp W.uncross b a' hb hold

theorem BookWF_mk_index {bk : OrderBook} (i : Nat → Option OrderRef)
    (fl : Nat) (h : BookWF bk) :
    BookWF (OrderBook.mk bk.sides i fl bk.tick_size bk.inv_tick) :=
  @BookWF_of_eq bk (OrderBook.mk bk.sides i fl bk.tick_size bk.inv_tick)
    rfl rfl h

/-! ### add_order facts -/

/-- A non-positive order does nothing at all. -/
theorem add_order_nonpos_eq (bk : OrderBook) (o : Order) (h : o.qty ≤ 0) :
    bk.add_order o = .ok (bk, 0, none) := by
  have hml := matchLoop_exit o.side ((bk.sides o.side.opp).ticks.length + 1)
    bk o.qty (bk.price_to_tick o.price) none (Nat.succ_pos _) (by omega)
  simp only [OrderBook.add_order, hml]
  rw [if_neg (by omega : ¬ o.qty > 0)]
  simp

/-- An id with no index entry can always be added without aborting. -/
theorem add_order_ok_of_fresh (bk : OrderBook) (o : Order)
    (h : bk.index o.id = none) : ∃ r, bk.add_order o = .ok r := by
  have hidx := matchLoop_index_none o.side
    ((bk.sides o.side.opp).ticks.length + 1) bk o.qty
    (bk.price_to_tick o.price) none o.id h
  simp only [OrderBook.add_order]
  set tk := bk.price_to_tick o.price with htk
  set R := matchLoop o.side ((bk.sides o.side.opp).ticks.length + 1) bk
    o.qty tk none with hR
  by_cases hrem : R.2.1 > 0
  · rw [if_pos hrem]
    rw [if_neg]
    · exact ⟨_, rfl⟩
    · rw [setLevel_index, getOrCreateLevel_index, hidx]
      simp
  · rw [if_neg hrem]
    exact ⟨_, rfl⟩

/-- With an empty opposite side, a positive-quantity order whose id is
already indexed makes `add_order` abort. -/
theorem add_order_error_of_dup_nocross (bk : OrderBook) (o : Order)
    (hopp : (bk.sides o.side.opp).bestTick = none)
    (hdup : (bk.index o.id).isSome = true) (hq : o.qty > 0) :
    bk.add_order o = .error () := by
  have hml : matchLoop o.side ((bk.sides o.side.opp).ticks.length + 1) bk
      o.qty (bk.price_to_tick o.price) none = (bk, o.qty, none) :=
    matchLoop_succ_none o.side _ bk o.qty _ none hopp
  simp only [OrderBook.add_order, hml]
  rw [if_pos hq, if_pos]
  rw [setLevel_index, getOrCreateLevel_index]
  exact hdup

/-- `add_order` preserves the invariant whenever it returns normally. -/
theorem add_order_wf {bk : OrderBook} {o : Order}
    {r : OrderBook × Int × Option ℚ} (hwf : BookWF bk)
    (h : bk.add_order o = .ok r) : BookWF r.1 := by
  obtain ⟨W1, W2, W3, W4, W5⟩ := matchLoop_wf o.side
    ((bk.sides o.side.opp).ticks.length + 1) bk o.qty
    (bk.price_to_tick o.price) none hwf (by omega)
  simp only [OrderBook.add_order] at h
  set tk := bk.price_to_tick o.price with htk
  set R := matchLoop o.side ((bk.sides o.side.opp).ticks.length + 1) bk
    o.qty tk none with hR
  by_cases hrem : R.2.1 > 0
  case neg =>
    rw [if_neg hrem] at h
    injection h with h2
    subst h2
    exact W1
  case pos =>
    rw [if_pos hrem] at h
    split at h
    case isTrue => exact absurd h (by simp)
    case isFalse hdup =>
      injection h with h2
      subst h2
      show BookWF (OrderBook.mk _ _ _ _ _)
      refine BookWF_mk_index _ _ ?_
      cases hglv : (R.1.sides o.side).levels tk with
      | some lvl0 =>
        simp only [getOrCreateLevel_eq_of_some o.side tk R.1 lvl0 hglv]
        exact add_rest_existing_wf W1 o.side tk _ lvl0 hglv
      | none =>
        simp only [getOrCreateLevel_eq_of_none o.side tk R.1 hglv,
          List.nil_append]
        exact add_rest_new_wf W1 o.side tk _ _ (by split <;> rfl)
          (by split <;> rfl) hglv (W5 hrem)

/-! ### cancel_order equations and invariant -/

theorem cancel_eq_of_none (bk : OrderBook) (oid : Nat)
    (h : bk.index oid = none) : bk.cancel_order oid = (bk, false) := by
  simp only [OrderBook.cancel_order, h]

theorem cancel_eq_stale (bk : OrderBook) (oid : Nat) (ref : OrderRef)
    (h : bk.index oid = some ref)
    (hlv : (bk.sides ref.side).levels ref.tick = none) :
    bk.cancel_order oid =
      (OrderBook.mk bk.sides (eraseIndex bk.index oid) bk.free_levels
        bk.tick_size bk.inv_tick, false) := by
  simp only [OrderBook.cancel_order, h, hlv]

theorem cancel_eq_notin (bk : OrderBook) (oid : Nat) (ref : OrderRef)
    (lvl : Level) (h : bk.index oid = some ref)
    (hlv : (bk.sides ref.side).levels ref.tick = some lvl)
    (hany : lvl.q.any (fun o => o.id == oid) = false) :
    bk.cancel_order oid =
      (OrderBook.mk bk.sides (eraseIndex bk.index oid) bk.free_levels
        bk.tick_size bk.inv_tick, false) := by
  simp only [OrderBook.cancel_order, h, hlv, hany, Bool.false_eq_true,
    if_false]

theorem cancel_eq_found (bk : OrderBook) (oid : Nat) (ref : OrderRef)
    (lvl : Level) (h : bk.index oid = some ref)
    (hlv : (bk.sides ref.side).levels ref.tick = some lvl)
    (hany : lvl.q.any (fun o => o.id == oid) = true) :
    bk.cancel_order oid =
      (removeLevelIfEmpty ref.side ref.tick
        (OrderBook.mk
          (setLevel ref.side ref.tick
            (some (Level.mk lvl.tick (eraseFirstById lvl.q oid))) bk).sides
          (eraseIndex bk.index oid) bk.free_levels bk.tick_size bk.inv_tick),
        true) := by
  simp only [OrderBook.cancel_order, h, hlv]
  rw [if_pos hany]
  rfl

/-- `cancel_order` preserves the invariant. -/
theorem cancel_order_wf {bk : OrderBook} (oid : Nat) (hwf : BookWF bk) :
    BookWF (bk.cancel_order oid).1 := by
  cases h : bk.index oid with
  | none =>
    rw [cancel_eq_of_none bk oid h]
    exact hwf
  | some ref =>
    cases hlv : (bk.sides ref.side).levels ref.tick with
    | none =>
      rw [cancel_eq_stale bk oid ref h hlv]
      exact BookWF_mk_index _ _ hwf
    | some lvl =>
      cases hany : lvl.q.any (fun o => o.id == oid) with
      | false =>
        rw [cancel_eq_notin bk oid ref lvl h hlv hany]
        exact BookWF_mk_index _ _ hwf
      | true =>
        rw [cancel_eq_found bk oid ref lvl h hlv hany]
        show BookWF (removeLevelIfEmpty _ _ _)
        refine removeLevelIfEmpty_wf ?_
        refine ⟨hwf.tsize, ?_, ?_, ?_, ?_, ?_⟩
        · intro s'
          show ((setLevel ref.side ref.tick _ bk).sides s').ticks.Nodup
          rw [setLevel_ticks]
          exact hwf.nodup s'
        · intro s' t'
          show t' ∈ ((setLevel ref.side ref.tick _ bk).sides s').ticks ↔ _
          rw [setLevel_ticks, setLevel_levels_at]
          by_cases hst : s' = ref.side ∧ t' = ref.tick
          · rw [if_pos hst]
            obtain ⟨h1, h2⟩ := hst
            subst h1
            subst h2
            have hm : ref.tick ∈ (bk.sides ref.side).ticks :=
              (hwf.dom ref.side ref.tick).mpr (by rw [hlv]; rfl)
            simp [hm]
          · rw [if_neg hst]
            exact hwf.dom s' t'
        · intro s' t' lvl' hl'
          rw [show (OrderBook.mk
              (setLevel ref.side ref.tick
                (some (Level.mk lvl.tick (eraseFirstById lvl.q oid))) bk).sides
              (eraseIndex bk.index oid) bk.free_levels bk.tick_size
              bk.inv_tick).sides =
            (setLevel ref.side ref.tick
              (some (Level.mk lvl.tick (eraseFirstById lvl.q oid))) bk).sides
            from rfl, setLevel_levels_at] at hl'
          by_cases hst : s' = ref.side ∧ t' = ref.tick
          · exact Or.inl hst
          · rw [if_neg hst] at hl'
            exact Or.inr (hwf.nonempty s' t' lvl' hl')
        · intro s'
          show IsBestOf s'
            (((setLevel ref.side ref.tick _ bk).sides s').bestTick)
            (((setLevel ref.side ref.tick _ bk).sides s').ticks)
          rw [setLevel_ticks, setLevel_best]
          exact hwf.bestOK s'
        · rw [Uncrossed_iff]
          intro b a hb ha
          rw [show (OrderBook.mk
              (setLevel ref.side ref.tick
                (some (Level.mk lvl.tick (eraseFirstById lvl.q oid))) bk).sides
              (eraseIndex bk.index oid) bk.free_levels bk.tick_size
              bk.inv_tick).sides =
            (setLevel ref.side ref.tick
              (some (Level.mk lvl.tick (eraseFirstById lvl.q oid))) bk).sides
            from rfl, setLevel_best] at hb ha
          exact (Uncrossed_iff bk).mp hwf.uncross b a hb ha

/-! ### the trace invariant and the claims about the order book -/

theorem runBook_wf (ops : List BookOp) :
    ∀ bk, BookWF bk → ∀ st ∈ runBook bk ops, BookWF st := by
  induction ops with
  | nil =>
    intro bk _ st hst
    exact absurd hst (List.not_mem_nil st)
  | cons op ops ih =>
    intro bk hwf st hst
    cases hstep : stepBookOp bk op with
    | none =>
      simp only [runBook, hstep] at hst
      exact absurd hst (List.not_mem_nil st)
    | some bk1 =>
      have hwf1 : BookWF bk1 := by
        cases op with
        | add o =>
          simp only [stepBookOp] at hstep
          cases har : bk.add_order o with
          | ok r =>
            simp only [har] at hstep
            injection hstep with e
            rw [← e]
            exact add_order_wf hwf har
          | error u =>
            simp only [har] at hstep
            exact absurd hstep (by simp)
        | cancel oid =>
          simp only [stepBookOp] at hstep
          injection hstep with e
          rw [← e]
          exact cancel_order_wf oid hwf
      simp only [runBook, hstep] at hst
      rcases List.mem_cons.mp hst with rfl | hst'
      · exact hwf1
      · exact ih bk1 hwf1 st hst'

theorem mkOrderBook_pos {ts : ℚ} {b0 : OrderBook}
    (h : mkOrderBook ts = some b0) : 0 < ts ∧ b0 = emptyBook ts := by
  rw [mkOrderBook_eq] at h
  split at h
  case isTrue hpos =>
    injection h with e
    exact ⟨hpos, e.symm⟩
  case isFalse => exact absurd h (by simp)

theorem emptyBook_wf (ts : ℚ) (h : 0 < ts) : BookWF (emptyBook ts) := by
  refine ⟨h, ?_, ?_, ?_, ?_, ?_⟩
  · intro s
    exact List.nodup_nil
  · intro s t
    simp [emptyBook]
  · intro s t lvl hl
    exact absurd hl (by simp [emptyBook])
  · intro s
    exact rfl
  · exact trivial

/-- C2: the book is never crossed.  Along every call sequence from a
successfully constructed book, every post-call state has
`best_bid_tick < best_ask_tick` whenever both exist, and hence
`best_bid() < best_ask()` as prices.  (Proved without the claim's
preconditions on the orders: aborts cut the trace, and every returning
call preserves the invariant.) -/
theorem book_never_crossed (ts : ℚ) (b0 : OrderBook) (ops : List BookOp)
    (h : mkOrderBook ts = some b0) : traceUncrossed b0 ops := by
  obtain ⟨hpos, rfl⟩ := mkOrderBook_pos h
  intro st hst
  have hwf : BookWF st :=
    runBook_wf ops (emptyBook ts) (emptyBook_wf ts hpos) st hst
  refine ⟨hwf.uncross, ?_⟩
  intro pb pa hpb hpa
  unfold OrderBook.best_bid at hpb
  unfold OrderBook.best_ask at hpa
  cases hbb : (st.sides .BUY).bestTick with
  | none =>
    rw [hbb] at hpb
    exact absurd hpb (by simp)
  | some b =>
    cases hba : (st.sides .SELL).bestTick with
    | none =>
      rw [hba] at hpa
      exact absurd hpa (by simp)
    | some a =>
      rw [hbb] at hpb
      rw [hba] at hpa
      simp only [Option.map_some'] at hpb hpa
      injection hpb with e1
      injection hpa with e2
      rw [← e1, ← e2]
      unfold OrderBook.tick_to_price
      have hlt : b < a := (Uncrossed_iff st).mp hwf.uncross b a hbb hba
      have hcast : (b : ℚ) < (a : ℚ) := by exact_mod_cast hlt
      exact mul_lt_mul_of_pos_right hcast hwf.tsize

theorem book_never_crossed_witness :
    mkOrderBook 1 = some (emptyBook 1) ∧
    traceUncrossed (emptyBook 1)
      [BookOp.add (Order.mk 1 101 10 Side.SELL 0),
       BookOp.add (Order.mk 2 100 10 Side.BUY 0)] := by
  have h : mkOrderBook 1 = some (emptyBook 1) := by
    rw [mkOrderBook_eq]
    norm_num
  exact ⟨h, book_never_crossed 1 (emptyBook 1) _ h⟩

/-- C10: `add_order` with `qty ≤ 0` returns 0 matched quantity and
leaves the book completely unchanged; `trade_price` is never written. -/
theorem add_order_nonpos_noop (bk : OrderBook) (o : Order)
    (h : o.qty ≤ 0) : bk.add_order o = .ok (bk, 0, none) :=
  add_order_nonpos_eq bk o h

theorem add_order_nonpos_noop_witness :
    ((Order.mk 7 100 0 Side.SELL 0).qty ≤ 0) ∧
    (emptyBook 1).add_order (Order.mk 7 100 0 Side.SELL 0) =
      .ok (emptyBook 1, 0, none) :=
  ⟨by decide,
    add_order_nonpos_noop (emptyBook 1) (Order.mk 7 100 0 Side.SELL 0)
      (by decide)⟩

/-- A book holding one resting ask (id 1, 10 lots at tick 101,
tick_size 1). -/
def bkOneAsk : OrderBook :=
  { sides := fun s => match s with
      | .BUY => { levels := fun _ => none, ticks := [], bestTick := none }
      | .SELL =>
        { levels := fun t => if t = 101 then
            some (Level.mk 101 [Order.mk 1 101 10 Side.SELL 0]) else none,
          ticks := [101], bestTick := some 101 },
    index := fun j => if j = 1 then some (OrderRef.mk Side.SELL 101)
      else none,
    free_levels := 0, tick_size := 1, inv_tick := 1 }

/-- C6 (counterexample): `add_order` does not abort on `qty ≤ 0` — no
such check exists; the call returns 0 and leaves the book unchanged.
Likewise, a duplicate id whose order fully fills does not abort (the
id-insert abort happens only when residual quantity rests). -/
theorem add_order_nonpos_no_abort_counterexample :
    ((Order.mk 7 100 0 Side.SELL 0).qty ≤ 0) ∧
    (emptyBook 1).add_order (Order.mk 7 100 0 Side.SELL 0) =
      .ok (emptyBook 1, 0, none) ∧
    (bkOneAsk.index 1).isSome = true ∧
    (∃ r, bkOneAsk.add_order (Order.mk 1 102 10 Side.BUY 5) = .ok r) :=
  ⟨by decide, add_order_nonpos_eq _ _ (by decide), rfl, ⟨_, rfl⟩⟩

/-- C6 (amended): the constructor aborts exactly when `tick_size ≤ 0`;
`add_order` with an id not currently in the index always returns
normally, as does any `add_order` with `qty ≤ 0`; a positive-quantity
order whose id is currently resting aborts when it rests (shown here for
an empty opposite side, where no matching can consume the duplicate). -/
theorem order_book_abort_conditions (ts : ℚ) (bk : OrderBook) (o : Order) :
    (mkOrderBook ts = none ↔ ¬ ts > 0) ∧
    (bk.index o.id = none → ∃ r, bk.add_order o = .ok r) ∧
    (o.qty ≤ 0 → ∃ r, bk.add_order o = .ok r) ∧
    ((bk.sides o.side.opp).bestTick = none →
      (bk.index o.id).isSome = true → o.qty > 0 →
      bk.add_order o = .error ()) := by
  refine ⟨?_, add_order_ok_of_fresh bk o, ?_,
    add_order_error_of_dup_nocross bk o⟩
  · rw [mkOrderBook_eq]
    split
    case isTrue hpos => simp [hpos]
    case isFalse hneg => simp [hneg]
  · intro h
    exact ⟨_, add_order_nonpos_eq bk o h⟩

theorem order_book_abort_conditions_witness :
    mkOrderBook 0 = none ∧
    (∃ r, bkOneAsk.add_order (Order.mk 2 102 3 Side.SELL 5) = .ok r) ∧
    (∃ r, bkOneAsk.add_order (Order.mk 3 100 (-1) Side.BUY 5) = .ok r) ∧
    bkOneAsk.add_order (Order.mk 1 102 5 Side.SELL 0) = .error () := by
  refine ⟨?_, ?_, ?_, ?_⟩
  · exact (order_book_abort_conditions 0 bkOneAsk
      (Order.mk 1 102 5 Side.SELL 0)).1.mpr (by norm_num)
  · exact (order_book_abort_conditions 0 bkOneAsk
      (Order.mk 2 102 3 Side.SELL 5)).2.1 rfl
  · exact (order_book_abort_conditions 0 bkOneAsk
      (Order.mk 3 100 (-1) Side.BUY 5)).2.2.1 (by decide)
  · exact (order_book_abort_conditions 0 bkOneAsk
      (Order.mk 1 102 5 Side.SELL 0)).2.2.2 rfl rfl (by decide)

/-- C7: the `cancel_order` contract.  An unindexed id returns `false`
and changes nothing; an indexed id whose level is gone, or absent from
that level's queue, erases the stale index entry and returns `false`;
otherwise the order is removed from the queue, the index entry erased,
the empty-level removal procedure run, and `true` returned. -/
theorem cancel_order_contract (bk : OrderBook) (oid : Nat) :
    (bk.index oid = none → bk.cancel_order oid = (bk, false)) ∧
    (∀ ref, bk.index oid = some ref →
      ((bk.sides ref.side).levels ref.tick = none →
        bk.cancel_order oid =
          (OrderBook.mk bk.sides (eraseIndex bk.index oid) bk.free_levels
            bk.tick_size bk.inv_tick, false)) ∧
      (∀ lvl, (bk.sides ref.side).levels ref.tick = some lvl →
        ((∀ o ∈ lvl.q, o.id ≠ oid) →
          bk.cancel_order oid =
            (OrderBook.mk bk.sides (eraseIndex bk.index oid) bk.free_levels
              bk.tick_size bk.inv_tick, false)) ∧
        ((∃ o ∈ lvl.q, o.id = oid) →
          bk.cancel_order oid =
            (removeLevelIfEmpty ref.side ref.tick
              (OrderBook.mk
                (setLevel ref.side ref.tick
                  (some (Level.mk lvl.tick (eraseFirstById lvl.q oid)))
                  bk).sides
                (eraseIndex bk.index oid) bk.free_levels bk.tick_size
                bk.inv_tick), true)))) := by
  refine ⟨cancel_eq_of_none bk oid, ?_⟩
  intro ref href
  refine ⟨cancel_eq_stale bk oid ref href, ?_⟩
  intro lvl hlv
  constructor
  · intro hnone
    refine cancel_eq_notin bk oid ref lvl href hlv ?_
    rw [List.any_eq_false]
    intro o ho
    simp only [beq_iff_eq]
    exact hnone o ho
  · intro hex
    refine cancel_eq_found bk oid ref lvl href hlv ?_
    rw [List.any_eq_true]
    obtain ⟨o, ho, he⟩ := hex
    exact ⟨o, ho, by simp [he]⟩

theorem cancel_order_contract_witness :
    bkOneAsk.index 1 = some (OrderRef.mk Side.SELL 101) ∧
    (bkOneAsk.sides Side.SELL).levels 101 =
      some (Level.mk 101 [Order.mk 1 101 10 Side.SELL 0]) ∧
    (∃ o ∈ [Order.mk 1 101 10 Side.SELL 0], o.id = 1) ∧
    (bkOneAsk.cancel_order 1).2 = true ∧
    bkOneAsk.cancel_order 2 = (bkOneAsk, false) := by
  have h := (cancel_order_contract bkOneAsk 1).2 (OrderRef.mk Side.SELL 101)
    rfl
  have h2 := (h.2 (Level.mk 101 [Order.mk 1 101 10 Side.SELL 0]) rfl).2
    ⟨_, List.mem_singleton_self _, rfl⟩
  refine ⟨rfl, rfl, ⟨_, List.mem_singleton_self _, rfl⟩, ?_, ?_⟩
  · rw [h2]
  · exact (cancel_order_contract bkOneAsk 2).1 rfl

set_option maxHeartbeats 4000000 in
/-- C1: scenario S1.  On a fresh book with tick_size 1: adding the sell
(id 1, price 101, qty 10) matches 0 without touching `trade_price` and
sets `best_ask` to 101; the buy (id 2, price 102, qty 6) matches 6 at
trade price 101 with `best_ask` still 101; `cancel_order 2` returns
false, then `cancel_order 1` returns true and `best_ask` becomes
empty. -/
theorem order_book_scenario_s1 :
    mkOrderBook 1 = some (emptyBook 1) ∧
    match (emptyBook 1).add_order (Order.mk 1 101 10 Side.SELL 0) with
    | .error _ => False
    | .ok (b1, m1, tp1) =>
      m1 = 0 ∧ tp1 = none ∧ b1.best_ask = some 101 ∧
      match b1.add_order (Order.mk 2 102 6 Side.BUY 0) with
      | .error _ => False
      | .ok (b2, m2, tp2) =>
        m2 = 6 ∧ tp2 = some 101 ∧ b2.best_ask = some 101 ∧
        (b2.cancel_order 2).2 = false ∧
        ((b2.cancel_order 2).1.cancel_order 1).2 = true ∧
        (((b2.cancel_order 2).1.cancel_order 1).1).best_ask = none := by
  constructor
  · rw [mkOrderBook_eq]
    norm_num
  · exact ⟨rfl, rfl, rfl, rfl, rfl, rfl, rfl, rfl, rfl⟩

end MSim